import Mathlib

/-!
# TritonTube: the consistent-hash router and its storage nodes

A shallow embedding of `internal/web/nw.go` (the placement ring, the admin
operations AddNode / RemoveNode / ListNodes and the client operations
Read / Write) and of `internal/storage/storage.go` (the four storage RPCs).

* `hashStringToUint64` (the first eight bytes of SHA-256) is a parameter
  `H : String → Nat`; only comparisons are made on its values. The worked
  examples use `pinnedHash`, a table of the real values.
* A storage node's directory tree is the list of its chunk files, keyed by
  `(videoId, filename)`, for names that are single path segments; the base
  directory exists, so that the empty list is an empty directory.
* The network is explicit state: the disk of every address, the log of issued
  RPCs, and an oracle telling which RPCs fail in transport. A handle's client
  talks to the disk at the handle's address.
* A handler returns Go's pair (response, error) or panics (nil handle, index
  out of range); the ring it leaves behind is returned next to the outcome.
-/

namespace TritonTube

/-! ## Storage node (`internal/storage/storage.go`) -/

/-- Contents of a chunk file (Go: a byte slice). -/
abbrev Bytes := List Nat

/-- Failures that the router can observe. -/
inductive Error where
  | notFound
  | transport
  | dial
  | listen
  | noNode
  deriving DecidableEq, Repr

/-- Name of a chunk on a storage node: the pair (videoId, filename). -/
abbrev ChunkKey := String × String

/-- Chunk files below `BaseDirectory`, one entry per file `videoId/filename`. -/
abbrev Storage := List (ChunkKey × Bytes)

/-- Order in which `os.ReadDir` walks: by directory name, then by file name
(names compared character by character). -/
def keyLt (a b : ChunkKey) : Bool :=
  decide (a.1.data < b.1.data) || (decide (a.1 = b.1) && decide (a.2.data < b.2.data))

/-- Contents of `BaseDirectory/videoId/filename`, if the file exists. -/
def fsRead : Storage → ChunkKey → Option Bytes
  | [], _ => none
  | (k1, d) :: rest, k => if k1 = k then some d else fsRead rest k

/-- Replace the contents of an existing file. -/
def fsPut (k : ChunkKey) (d : Bytes) : Storage → Storage
  | [] => []
  | (k1, d1) :: rest => if k1 = k then (k, d) :: rest else (k1, d1) :: fsPut k d rest

/-- Create a new file; it shows up in directory order. -/
def fsCreate (k : ChunkKey) (d : Bytes) : Storage → Storage
  | [] => [(k, d)]
  | (k1, d1) :: rest =>
    if keyLt k k1 then (k, d) :: (k1, d1) :: rest else (k1, d1) :: fsCreate k d rest

/-- Effect of `os.MkdirAll` followed by `os.WriteFile`: overwrite or create. -/
def fsWrite (s : Storage) (k : ChunkKey) (d : Bytes) : Storage :=
  if (fsRead s k).isSome then fsPut k d s else fsCreate k d s

/-- Effect of `os.Remove` on an existing file. -/
def fsRemove (s : Storage) (k : ChunkKey) : Storage :=
  s.filter (fun e => decide (e.1 ≠ k))

/-- The names of the stored chunks. -/
def fsKeys (s : Storage) : List ChunkKey := s.map Prod.fst

/-- `Server.ReadFile`: the bytes of the file, or the error of `os.ReadFile`. -/
def Server.ReadFile (s : Storage) (videoId filename : String) : Except Error Bytes :=
  match fsRead s (videoId, filename) with
  | some data => .ok data
  | none => .error .notFound

/-- `Server.WriteFile`: creates the directory on demand and overwrites the file. -/
def Server.WriteFile (s : Storage) (videoId filename : String) (data : Bytes) :
    Except Error Unit × Storage :=
  (.ok (), fsWrite s (videoId, filename) data)

/-- `Server.DeleteFile`: `os.Remove`, failing when the file does not exist. -/
def Server.DeleteFile (s : Storage) (videoId filename : String) :
    Except Error Unit × Storage :=
  match fsRead s (videoId, filename) with
  | some _ => (.ok (), fsRemove s (videoId, filename))
  | none => (.error .notFound, s)

/-- `Server.ListFiles`: every file one level below a directory, as `dir/file`. -/
def Server.ListFiles (s : Storage) : List String :=
  s.map (fun e => e.1.1 ++ "/" ++ e.1.2)

/-! ## The network between router and storage nodes -/

/-- A storage RPC, with the address of the node it is sent to. -/
inductive Rpc where
  | ListFiles (address : String)
  | ReadFile (address videoId filename : String)
  | WriteFile (address videoId filename : String) (data : Bytes)
  | DeleteFile (address videoId filename : String)
  deriving DecidableEq, Repr

/-- One RPC issued by the router, and whether it returned without error. -/
structure Event where
  call : Rpc
  ok : Bool
  deriving DecidableEq, Repr

/-- The world outside the router: the disk of every address, the RPCs issued
so far (oldest first), the transport oracle (`faults i` holds when the RPC
number `i` fails in transport, leaving the disk untouched), and the addresses
for which client creation, respectively listening, fails. -/
structure Net where
  disks : String → Storage
  log : List Event
  faults : Nat → Bool
  dialErr : String → Bool
  listenErr : String → Bool

/-- Record an issued RPC. -/
def Net.stamp (w : Net) (c : Rpc) (ok : Bool) : Net :=
  { w with log := w.log ++ [⟨c, ok⟩] }

/-- Replace the disk of one address. -/
def Net.setDisk (w : Net) (address : String) (s : Storage) : Net :=
  { w with disks := fun a => if a = address then s else w.disks a }

/-- The call `node.client.ListFiles`. -/
def clientListFiles (address : String) (w : Net) : Except Error (List String) × Net :=
  if w.faults w.log.length then
    (.error .transport, w.stamp (.ListFiles address) false)
  else
    (.ok (Server.ListFiles (w.disks address)), w.stamp (.ListFiles address) true)

/-- The call `node.client.ReadFile`. -/
def clientReadFile (address videoId filename : String) (w : Net) :
    Except Error Bytes × Net :=
  if w.faults w.log.length then
    (.error .transport, w.stamp (.ReadFile address videoId filename) false)
  else
    match Server.ReadFile (w.disks address) videoId filename with
    | .ok data => (.ok data, w.stamp (.ReadFile address videoId filename) true)
    | .error e => (.error e, w.stamp (.ReadFile address videoId filename) false)

/-- The call `node.client.WriteFile`. -/
def clientWriteFile (address videoId filename : String) (data : Bytes) (w : Net) :
    Except Error Unit × Net :=
  if w.faults w.log.length then
    (.error .transport, w.stamp (.WriteFile address videoId filename data) false)
  else
    match Server.WriteFile (w.disks address) videoId filename data with
    | (.ok _, s) =>
      (.ok (), (w.setDisk address s).stamp (.WriteFile address videoId filename data) true)
    | (.error e, s) =>
      (.error e, (w.setDisk address s).stamp (.WriteFile address videoId filename data) false)

/-- The call `node.client.DeleteFile`. -/
def clientDeleteFile (address videoId filename : String) (w : Net) :
    Except Error Unit × Net :=
  if w.faults w.log.length then
    (.error .transport, w.stamp (.DeleteFile address videoId filename) false)
  else
    match Server.DeleteFile (w.disks address) videoId filename with
    | (.ok _, s) =>
      (.ok (), (w.setDisk address s).stamp (.DeleteFile address videoId filename) true)
    | (.error e, s) =>
      (.error e, (w.setDisk address s).stamp (.DeleteFile address videoId filename) false)

/-! ## The router (`internal/web/nw.go`) -/

/-- A node handle: the address; its client talks to the disk at that address. -/
structure Node where
  address : String
  deriving DecidableEq, Repr

/-- The ring: sorted positions and the map from position to node handle. -/
structure NetworkVideoContentService where
  hashRing : List Nat
  hashMap : Nat → Option Node

/-- Loop of `sort.Search`: `i` and `j` close in on the least index where `f`
holds; each round shrinks `j - i`, so `fuel = n` rounds are never exhausted. -/
def searchLoop (f : Nat → Bool) : Nat → Nat → Nat → Nat
  | 0, i, _ => i
  | fuel + 1, i, j =>
    if i < j then
      let h := (i + j) / 2
      if !f h then searchLoop f fuel (h + 1) j else searchLoop f fuel i h
    else i

/-- Go's `sort.Search(n, f)`. -/
def sortSearch (n : Nat) (f : Nat → Bool) : Nat := searchLoop f n 0 n

/-- Go's `slices.Sort` on positions. -/
def slicesSort (l : List Nat) : List Nat := l.insertionSort (· ≤ ·)

/-- Go's `slices.Delete(s, i, i+1)`. -/
def slicesDelete (l : List Nat) (i : Nat) : List Nat := l.eraseIdx i

/-- Pieces of a string between slashes. -/
def splitSlash : List Char → List (List Char)
  | [] => [[]]
  | c :: cs =>
    if c = '/' then [] :: splitSlash cs
    else
      match splitSlash cs with
      | [] => [[c]]
      | p :: ps => (c :: p) :: ps

/-- Go's `strings.Split(s, "/")`. -/
def stringsSplit (s : String) : List String := (splitSlash s.data).map String.mk

/-- Go's conversion `int32(x)` of a non-negative `int`. -/
def toInt32 (x : Nat) : Int := (((x + 2 ^ 31) % 2 ^ 32 : Nat) : Int) - 2 ^ 31

/-- What a handler hands back: Go's pair (response, error), or a panic. -/
inductive Outcome (α : Type) where
  | ret (resp : Option α) (err : Option Error)
  | panic
  deriving DecidableEq

/-- How a migration loop ends: ran through, returned an error, or panicked. -/
inductive Flow where
  | next (movedFiles : Nat) (w : Net)
  | abort (e : Error) (w : Net)
  | crash (w : Net)

/-- The response messages carry the count as an int32. -/
structure AddNodeResponse where
  MigratedFileCount : Int
  deriving DecidableEq, Repr

/-- The response of RemoveNode. -/
structure RemoveNodeResponse where
  MigratedFileCount : Int
  deriving DecidableEq, Repr

section Router

variable (H : String → Nat)

/-- The binary-search probe shared by AddNode, RemoveNode and FindSuccessor. -/
def probe (ring : List Nat) (hash : Nat) : Nat :=
  sortSearch ring.length (fun i => decide (ring.getD i 0 ≥ hash))

/-- `FindSuccessor`: the handle at the first position at or after the key's
hash, wrapping to index 0; nil on the empty ring or when no handle is there. -/
def FindSuccessor (n : NetworkVideoContentService) (key : String) : Option Node :=
  let hash := H key
  if n.hashRing.length = 0 then none
  else
    let idx := probe n.hashRing hash
    let idx := if idx = n.hashRing.length then 0 else idx
    n.hashMap (n.hashRing.getD idx 0)

/-- The three RPCs that move one chunk: ReadFile on the source, WriteFile on
the destination, DeleteFile on the source, each returning on the first error
(nw.go lines 86-97 and 134-145). -/
def migrate (src dst : Node) (videoId file_chunk : String) (w : Net) : Option Error × Net :=
  match clientReadFile src.address videoId file_chunk w with
  | (.error e, w1) => (some e, w1)
  | (.ok data, w1) =>
    match clientWriteFile dst.address videoId file_chunk data w1 with
    | (.error e, w2) => (some e, w2)
    | (.ok _, w2) =>
      match clientDeleteFile src.address videoId file_chunk w2 with
      | (.error e, w3) => (some e, w3)
      | (.ok _, w3) => (none, w3)

/-- Inner loop of AddNode over the files listed by one node. -/
def addNodeFiles (n : NetworkVideoContentService) (addr : String) (node : Node) :
    List String → Nat → Net → Flow
  | [], movedFiles, w => .next movedFiles w
  | filename :: rest, movedFiles, w =>
    match FindSuccessor H n filename with
    | none => addNodeFiles n addr node rest movedFiles w
    | some successor =>
      if successor.address ≠ addr then addNodeFiles n addr node rest movedFiles w
      else
        match stringsSplit filename with
        | videoId :: file_chunk :: _ =>
          match migrate node successor videoId file_chunk w with
          | (some e, w1) => .abort e w1
          | (none, w1) => addNodeFiles n addr node rest (movedFiles + 1) w1
        | _ => .crash w

/-- Outer loop of AddNode over the positions of the new ring: every node
other than the new one is asked for its files. -/
def addNodeRing (n : NetworkVideoContentService) (addr : String) (hash : Nat) :
    List Nat → Nat → Net → Flow
  | [], movedFiles, w => .next movedFiles w
  | h :: rest, movedFiles, w =>
    if h = hash then addNodeRing n addr hash rest movedFiles w
    else
      match n.hashMap h with
      | none => .crash w
      | some node =>
        match clientListFiles node.address w with
        | (.error e, w1) => .abort e w1
        | (.ok filenames, w1) =>
          match addNodeFiles H n addr node filenames movedFiles w1 with
          | .next movedFiles1 w2 => addNodeRing n addr hash rest movedFiles1 w2
          | .abort e w2 => .abort e w2
          | .crash w2 => .crash w2

/-- The ring after `append`, the map assignment and `slices.Sort` in AddNode. -/
def ringInsert (n : NetworkVideoContentService) (addr : String) :
    NetworkVideoContentService :=
  { hashRing := slicesSort (n.hashRing ++ [H addr])
    hashMap := fun p => if p = H addr then some ⟨addr⟩ else n.hashMap p }

/-- `AddNode`: a present position is answered with count 0; otherwise the
client is created, the position inserted and the other nodes are scanned. -/
def AddNode (n : NetworkVideoContentService) (w : Net) (addr : String) :
    Outcome AddNodeResponse × NetworkVideoContentService × Net :=
  let hash := H addr
  let idx := probe n.hashRing hash
  if idx < n.hashRing.length ∧ n.hashRing.getD idx 0 = hash then
    (.ret (some ⟨0⟩) none, n, w)
  else if w.dialErr addr then
    (.ret none (some .dial), n, w)
  else
    let n1 := ringInsert H n addr
    match addNodeRing H n1 addr hash n1.hashRing 0 w with
    | .next movedFiles w1 => (.ret (some ⟨toInt32 movedFiles⟩) none, n1, w1)
    | .abort e w1 => (.ret none (some e), n1, w1)
    | .crash w1 => (.panic, n1, w1)

/-- Loop of RemoveNode over the files listed by the detached node. -/
def removeNodeFiles (n : NetworkVideoContentService) (nodeToDelete : Node) :
    List String → Nat → Net → Flow
  | [], movedFiles, w => .next movedFiles w
  | filename :: rest, movedFiles, w =>
    match stringsSplit filename with
    | videoId :: file_chunk :: _ =>
      match FindSuccessor H n filename with
      | none => removeNodeFiles n nodeToDelete rest movedFiles w
      | some successor =>
        match migrate nodeToDelete successor videoId file_chunk w with
        | (some e, w1) => .abort e w1
        | (none, w1) => removeNodeFiles n nodeToDelete rest (movedFiles + 1) w1
    | _ => .crash w

/-- The ring after `slices.Delete` and `delete(n.hashMap, hash)` in RemoveNode. -/
def ringDelete (n : NetworkVideoContentService) (idx hash : Nat) :
    NetworkVideoContentService :=
  { hashRing := slicesDelete n.hashRing idx
    hashMap := fun p => if p = hash then none else n.hashMap p }

/-- `RemoveNode`: count 0 when the probe falls off the end; otherwise the
position at the probe is deleted, the map entry of the hash is deleted and
the files of the handle found under the hash are moved to their successors. -/
def RemoveNode (n : NetworkVideoContentService) (w : Net) (addr : String) :
    Outcome RemoveNodeResponse × NetworkVideoContentService × Net :=
  let hash := H addr
  let idx := probe n.hashRing hash
  if idx = n.hashRing.length then
    (.ret (some ⟨0⟩) none, n, w)
  else
    let n1 := ringDelete n idx hash
    match n.hashMap hash with
    | none => (.panic, n1, w)
    | some nodeToDelete =>
      match clientListFiles nodeToDelete.address w with
      | (.error e, w1) => (.ret none (some e), n1, w1)
      | (.ok filenames, w1) =>
        match removeNodeFiles H n1 nodeToDelete filenames 0 w1 with
        | .next movedFiles w2 => (.ret (some ⟨toInt32 movedFiles⟩) none, n1, w2)
        | .abort e w2 => (.ret none (some e), n1, w2)
        | .crash w2 => (.panic, n1, w2)

/-- Loop of ListNodes; `none` stands for the panic on a position without handle. -/
def listNodesLoop (n : NetworkVideoContentService) : List Nat → Option (List String)
  | [] => some []
  | h :: rest =>
    match n.hashMap h with
    | none => none
    | some node =>
      match listNodesLoop n rest with
      | none => none
      | some l => some (node.address :: l)

/-- `ListNodes`: the addresses in ring order. -/
def ListNodes (n : NetworkVideoContentService) : Outcome (List String) :=
  match listNodesLoop n n.hashRing with
  | some l => .ret (some l) none
  | none => .panic

/-- Loop of the constructor: every address is dialled, its hash appended and
its handle registered, without looking for the hash in the ring. -/
def newServiceLoop (w : Net) :
    List String → NetworkVideoContentService → Except Error NetworkVideoContentService
  | [], n => .ok n
  | addr :: rest, n =>
    if w.dialErr addr then .error .dial
    else
      newServiceLoop w rest
        { hashRing := n.hashRing ++ [H addr]
          hashMap := fun p => if p = H addr then some ⟨addr⟩ else n.hashMap p }

/-- `NewNetworkVideoContentService`. -/
def NewNetworkVideoContentService (w : Net) (adminAddr : String) (addresses : List String) :
    Except Error NetworkVideoContentService :=
  if w.listenErr adminAddr then .error .listen
  else
    match newServiceLoop H w addresses { hashRing := [], hashMap := fun _ => none } with
    | .error e => .error e
    | .ok n => .ok { n with hashRing := slicesSort n.hashRing }

/-- `Read`. -/
def Read (n : NetworkVideoContentService) (w : Net) (videoId filename : String) :
    Except Error Bytes × Net :=
  let key := videoId ++ "/" ++ filename
  match FindSuccessor H n key with
  | none => (.error .noNode, w)
  | some node => clientReadFile node.address videoId filename w

/-- `Write`. -/
def Write (n : NetworkVideoContentService) (w : Net) (videoId filename : String)
    (data : Bytes) : Option Error × Net :=
  let key := videoId ++ "/" ++ filename
  match FindSuccessor H n key with
  | none => (some .noNode, w)
  | some node =>
    match clientWriteFile node.address videoId filename data w with
    | (.error e, w1) => (some e, w1)
    | (.ok _, w1) => (none, w1)

end Router

/-! ## Worked examples -/

/-- Values of `hashStringToUint64` (big-endian first eight bytes of SHA-256)
on the strings of the worked examples; other strings are not used there. -/
def pinnedHash (s : String) : Nat :=
  if s = "127.0.0.1:9001" then 8757126733552209387
  else if s = "127.0.0.1:9002" then 18074268052325974960
  else if s = "127.0.0.1:9003" then 9099810533193874500
  else if s = "cats/a" then 2265873763968961772
  else if s = "cats/c" then 10911784682188428368
  else if s = "cats/e" then 14726622755169786703
  else if s = "cats/manifest.mpd" then 4855412211894123159
  else 0

/-- A network of empty disks on which nothing fails. -/
def quietNet : Net :=
  { disks := fun _ => [], log := [], faults := fun _ => false,
    dialErr := fun _ => false, listenErr := fun _ => false }

/-! ## Specification vocabulary -/

/-- The successor law in the words of the specification: `p` is the smallest
ring position at or after `k`, or the smallest position overall when `k` is
beyond every position. -/
def IsSuccessorPos (ring : List Nat) (k p : Nat) : Prop :=
  p ∈ ring ∧
    ((k ≤ p ∧ ∀ q ∈ ring, k ≤ q → p ≤ q) ∨ ((∀ q ∈ ring, q < k) ∧ ∀ q ∈ ring, p ≤ q))

/-- The ring of the nodes 127.0.0.1:9001 and 127.0.0.1:9002, as the
constructor builds it. -/
def twoNodeRing : NetworkVideoContentService :=
  { hashRing := [8757126733552209387, 18074268052325974960]
    hashMap := fun p =>
      if p = 8757126733552209387 then some ⟨"127.0.0.1:9001"⟩
      else if p = 18074268052325974960 then some ⟨"127.0.0.1:9002"⟩
      else none }

/-- Every ring position carries the handle of an address that hashes to it. -/
def Registered (H : String → Nat) (n : NetworkVideoContentService) : Prop :=
  ∀ p ∈ n.hashRing, (n.hashMap p).map (fun nd => H nd.address) = some p

instance (H : String → Nat) (n : NetworkVideoContentService) : Decidable (Registered H n) := by
  unfold Registered; infer_instance

/-- A single path segment: a non-empty name other than `.` and `..` without
a slash. -/
def pathSegment (s : String) : Prop :=
  s ≠ "" ∧ s ≠ "." ∧ s ≠ ".." ∧ '/' ∉ s.data

instance (s : String) : Decidable (pathSegment s) := by
  unfold pathSegment; infer_instance

/-- No RPC fails in transport. -/
def Net.reliable (w : Net) : Prop := ∀ i, w.faults i = false

/-- The ring of the single node 127.0.0.1:9001. -/
def ringOf9001 : NetworkVideoContentService :=
  { hashRing := [8757126733552209387]
    hashMap := fun p => if p = 8757126733552209387 then some ⟨"127.0.0.1:9001"⟩ else none }

/-- The network after a successful ReadFile. -/
def afterRead (w : Net) (src v f : String) : Net :=
  w.stamp (.ReadFile src v f) true

/-- The network after a successful ReadFile and WriteFile of one migration. -/
def afterWrite (w : Net) (src dst v f : String) (data : Bytes) : Net :=
  ((afterRead w src v f).setDisk dst (fsWrite (w.disks dst) (v, f) data)).stamp
    (.WriteFile dst v f data) true

/-- The network after all three RPCs of one migration succeeded. -/
def afterDelete (w : Net) (src dst v f : String) (data : Bytes) : Net :=
  ((afterWrite w src dst v f data).setDisk src
      (fsRemove ((afterWrite w src dst v f data).disks src) (v, f))).stamp
    (.DeleteFile src v f) true

/-- RPC logs made of successful listings and of complete chunk migrations,
each migration being ReadFile on the source, WriteFile of the same chunk on
the destination, DeleteFile on the source, in this order and all successful.
`route src dst` restricts the source and destination addresses. -/
inductive Chunked (route : String → String → Prop) : List Event → Prop where
  | nil : Chunked route []
  | list (l : List Event) (a : String) :
      Chunked route l → Chunked route (l ++ [⟨.ListFiles a, true⟩])
  | move (l : List Event) (src dst v f : String) (data : Bytes) :
      Chunked route l → route src dst →
      Chunked route (l ++ [⟨.ReadFile src v f, true⟩, ⟨.WriteFile dst v f data, true⟩,
        ⟨.DeleteFile src v f, true⟩])

/-- The RPCs of a migration step that ends in a failed RPC: a failed listing,
a failed ReadFile, a failed WriteFile after its ReadFile, or a failed
DeleteFile after its ReadFile and successful WriteFile. -/
inductive Broken (route : String → String → Prop) : List Event → Prop where
  | list (a : String) : Broken route [⟨.ListFiles a, false⟩]
  | read (src v f : String) : Broken route [⟨.ReadFile src v f, false⟩]
  | write (src dst v f : String) (data : Bytes) : route src dst →
      Broken route [⟨.ReadFile src v f, true⟩, ⟨.WriteFile dst v f data, false⟩]
  | delete (src dst v f : String) (data : Bytes) : route src dst →
      Broken route [⟨.ReadFile src v f, true⟩, ⟨.WriteFile dst v f data, true⟩,
        ⟨.DeleteFile src v f, false⟩]

/-- What a migration loop adds to the log: complete steps when it runs
through or panics, complete steps and then one broken step when it returns an
error; the transport oracle is not touched. -/
def FlowTrace (route : String → String → Prop) (w : Net) : Flow → Prop
  | .next _ w1 => w1.faults = w.faults ∧ ∃ ext, w1.log = w.log ++ ext ∧ Chunked route ext
  | .abort _ w1 => w1.faults = w.faults ∧
      ∃ ext b, w1.log = w.log ++ (ext ++ b) ∧ Chunked route ext ∧ Broken route b
  | .crash w1 => w1.faults = w.faults ∧ ∃ ext, w1.log = w.log ++ ext ∧ Chunked route ext

/-- The node 127.0.0.1:9001 holds the chunks cats/c and cats/e; the RPC number 4
fails in transport. -/
def faultyNet : Net :=
  { disks := fun a =>
      if a = "127.0.0.1:9001" then [(("cats", "c"), [1]), (("cats", "e"), [2])] else []
    log := []
    faults := fun i => decide (i = 4)
    dialErr := fun _ => false
    listenErr := fun _ => false }

/-- The RPCs issued on `faultyNet` when the chunks of 127.0.0.1:9001 are moved
to 127.0.0.1:9002. -/
def faultyLog : List Event :=
  [⟨.ListFiles "127.0.0.1:9001", true⟩, ⟨.ReadFile "127.0.0.1:9001" "cats" "c", true⟩,
   ⟨.WriteFile "127.0.0.1:9002" "cats" "c" [1], true⟩,
   ⟨.DeleteFile "127.0.0.1:9001" "cats" "c", true⟩,
   ⟨.ReadFile "127.0.0.1:9001" "cats" "e", false⟩]

/-- What an admin operation adds to the log and how it returns: without a
failed RPC it returns a response or panics; with a failed RPC, which is then
the last one, it returns a nil response and an error (this is also how a
failed client creation returns, before any RPC). -/
def OpTrace {α : Type} (route : String → String → Prop) (w : Net)
    (r : Outcome α × NetworkVideoContentService × Net) : Prop :=
  r.2.2.faults = w.faults ∧
  ((((∃ resp, r.1 = .ret (some resp) none) ∨ r.1 = .panic) ∧
      ∃ ext, r.2.2.log = w.log ++ ext ∧ Chunked route ext) ∨
    ((∃ e, r.1 = .ret none (some e)) ∧
      ∃ ext b, r.2.2.log = w.log ++ (ext ++ b) ∧ Chunked route ext ∧
        (Broken route b ∨ b = [])))

/-- A disk as a directory tree can hold it: no two files of the same name, and
every directory and file name is a single path segment. -/
def DiskOK (s : Storage) : Prop :=
  (fsKeys s).Nodup ∧ ∀ k ∈ fsKeys s, pathSegment k.1 ∧ pathSegment k.2

instance (s : Storage) : Decidable (DiskOK s) := by
  unfold DiskOK; infer_instance

/-- The address of the home node of a chunk: the node FindSuccessor returns
for the key `videoId/filename`. -/
def homeOf (H : String → Nat) (n : NetworkVideoContentService) (k : ChunkKey) :
    Option String :=
  (FindSuccessor H n (k.1 ++ "/" ++ k.2)).map Node.address

/-- The addresses whose nodes AddNode scans: those registered at a position of
`ps` other than the position of the new node. -/
def isSource (H : String → Nat) (n : NetworkVideoContentService) (addr : String)
    (ps : List Nat) (a : String) : Prop :=
  ∃ p ∈ ps, p ≠ H addr ∧ n.hashMap p = some ⟨a⟩

/-- Number of chunks on the nodes at the positions `ps` (other than the new
node's) whose home under the ring `n` is the node `addr`. -/
def movingCount (H : String → Nat) (n : NetworkVideoContentService) (addr : String)
    (disks : String → Storage) : List Nat → Nat
  | [] => 0
  | p :: rest =>
    (if p = H addr then 0
      else
        match n.hashMap p with
        | none => 0
        | some nd => (disks nd.address).countP (fun e => decide (homeOf H n e.1 = some addr)))
      + movingCount H n addr disks rest

/-- Number of chunks stored on the nodes of the ring. -/
def storedCount (n : NetworkVideoContentService) (disks : String → Storage) : List Nat → Nat
  | [] => 0
  | p :: rest =>
    (match n.hashMap p with
      | none => 0
      | some nd => (disks nd.address).length) + storedCount n disks rest

/-- The address registered at a ring position (empty when there is none). -/
def addrAt (n : NetworkVideoContentService) (p : Nat) : String :=
  ((n.hashMap p).map Node.address).getD ""

/-- No chunk name is stored on two different nodes of the ring. -/
def SingleHome (n : NetworkVideoContentService) (disks : String → Storage) : Prop :=
  ∀ p ∈ n.hashRing, ∀ q ∈ n.hashRing, p ≠ q →
    ∀ k ∈ fsKeys (disks (addrAt n p)), k ∉ fsKeys (disks (addrAt n q))

instance (n : NetworkVideoContentService) (disks : String → Storage) :
    Decidable (SingleHome n disks) := by
  unfold SingleHome; infer_instance

/-- The node 127.0.0.1:9001 holds the chunks cats/a, cats/c and cats/e; nothing
fails. -/
def loadedNet : Net :=
  { disks := fun a =>
      if a = "127.0.0.1:9001" then
        [(("cats", "a"), [0]), (("cats", "c"), [1]), (("cats", "e"), [2])]
      else []
    log := []
    faults := fun _ => false
    dialErr := fun _ => false
    listenErr := fun _ => false }

/-- The network a migration loop leaves behind. -/
def Flow.net : Flow → Net
  | .next _ w => w
  | .abort _ w => w
  | .crash w => w

/-- Safety of one chunk during AddNode(A): the chunk `k0` with bytes `d0` of the
source `a0` is still on `a0`, or it is gone from `a0` and on `A`; no other
scanned node holds a chunk of that name, and the scanned disks are well formed. -/
def AddSafe (src : String → Prop) (A a0 : String) (k0 : ChunkKey) (d0 : Bytes)
    (w : Net) : Prop :=
  (∀ b, src b → DiskOK (w.disks b)) ∧
  (fsRead (w.disks a0) k0 = some d0 ∨
    (fsRead (w.disks a0) k0 = none ∧ fsRead (w.disks A) k0 = some d0)) ∧
  (∀ b, src b → b ≠ a0 → fsRead (w.disks b) k0 = none)

/-- Safety of one chunk during RemoveNode: the chunk `k0` with bytes `d0` of the
detached node `s` is still on `s`, or it is gone from `s` and on its home node
under the new ring `n`. -/
def RemoveSafe (H : String → Nat) (n : NetworkVideoContentService) (s : String)
    (k0 : ChunkKey) (d0 : Bytes) (w : Net) : Prop :=
  fsRead (w.disks s) k0 = some d0 ∨
    (fsRead (w.disks s) k0 = none ∧
      ∃ t, homeOf H n k0 = some t ∧ fsRead (w.disks t) k0 = some d0)

/-- The router together with the world of its storage nodes. -/
structure Cluster where
  svc : NetworkVideoContentService
  net : Net

/-- The operations of the placement invariant. -/
inductive Op where
  | AddNode (addr : String)
  | RemoveNode (addr : String)
  | Write (videoId filename : String) (data : Bytes)

section Runs

variable (H : String → Nat)

/-- The router as constructed over a list of addresses. -/
def NewCluster (w : Net) (adminAddr : String) (addresses : List String) : Option Cluster :=
  match NewNetworkVideoContentService H w adminAddr addresses with
  | .ok n => some ⟨n, w⟩
  | .error _ => none

/-- One operation on the cluster; `none` when the handler panics. -/
def step (c : Cluster) : Op → Option Cluster
  | .AddNode a =>
    match AddNode H c.svc c.net a with
    | (.panic, _, _) => none
    | (.ret _ _, n, w) => some ⟨n, w⟩
  | .RemoveNode a =>
    match RemoveNode H c.svc c.net a with
    | (.panic, _, _) => none
    | (.ret _ _, n, w) => some ⟨n, w⟩
  | .Write v f d => some ⟨c.svc, (Write H c.svc c.net v f d).2⟩

/-- A sequence of operations, one after the other. -/
def run : Cluster → List Op → Option Cluster
  | c, [] => some c
  | c, op :: rest =>
    match step H c op with
    | none => none
    | some c1 => run c1 rest

/-- The placement invariant: every chunk stored on any node is listed by
ListFiles on the node FindSuccessor returns for its key, and on no other. -/
def Placed (c : Cluster) : Prop :=
  ∀ a k, k ∈ fsKeys (c.net.disks a) →
    FindSuccessor H c.svc (k.1 ++ "/" ++ k.2) = some ⟨a⟩ ∧
    (k.1 ++ "/" ++ k.2) ∈ Server.ListFiles (c.net.disks a) ∧
    ∀ b, b ≠ a → (k.1 ++ "/" ++ k.2) ∉ Server.ListFiles (c.net.disks b)

/-- Operations under which the placement invariant is kept: the client of an
added node can be created, a removed address has its position in the ring and
is not the last node, and a written chunk is named by single path segments. -/
def admissibleOp (c : Cluster) : Op → Bool
  | .AddNode a => !c.net.dialErr a
  | .RemoveNode a => decide (H a ∈ c.svc.hashRing ∧ 2 ≤ c.svc.hashRing.length)
  | .Write v f _ => decide (pathSegment v ∧ pathSegment f)

/-- Every operation of the sequence is admissible when its turn comes. -/
def admissibleRun : Cluster → List Op → Bool
  | _, [] => true
  | c, op :: rest =>
    admissibleOp H c op &&
      (match step H c op with
        | none => true
        | some c1 => admissibleRun c1 rest)

end Runs

/-- Router over 127.0.0.1:9002; a chunk is written; the node is removed, then
127.0.0.1:9001 and again 127.0.0.1:9002 are added. -/
def residueRun : List Op :=
  [.Write "cats" "a" [7], .RemoveNode "127.0.0.1:9002", .AddNode "127.0.0.1:9001",
   .AddNode "127.0.0.1:9002"]

/-- Router over 127.0.0.1:9003; cats/c is written; the node is removed and
127.0.0.1:9001 added; cats/c is written again; 127.0.0.1:9003 is added back. -/
def twoCopiesRun : List Op :=
  [.Write "cats" "c" [1], .RemoveNode "127.0.0.1:9003", .AddNode "127.0.0.1:9001",
   .Write "cats" "c" [2], .AddNode "127.0.0.1:9003"]

/-- The state between operations in which the placement invariant is kept: a
strictly ascending ring with its handles, a network on which no RPC fails,
well-formed disks, and every stored chunk on its home node. -/
def Quiescent (H : String → Nat) (c : Cluster) : Prop :=
  c.svc.hashRing.Sorted (· < ·) ∧ Registered H c.svc ∧ c.net.reliable ∧
    (∀ a, DiskOK (c.net.disks a)) ∧
    (∀ a k, k ∈ fsKeys (c.net.disks a) → homeOf H c.svc k = some a)

/-- Router over 127.0.0.1:9001: two chunks are written, 127.0.0.1:9002 is
added and removed again. -/
def scaleRun : List Op :=
  [.Write "cats" "a" [7], .Write "cats" "c" [1], .AddNode "127.0.0.1:9002",
   .RemoveNode "127.0.0.1:9002"]

/-- Ring well-formedness: the positions are strictly ascending, and the keys
of the map are exactly the positions of the ring. -/
def WellFormedRing (n : NetworkVideoContentService) : Prop :=
  n.hashRing.Sorted (· < ·) ∧ ∀ p, (n.hashMap p).isSome = true ↔ p ∈ n.hashRing

/-- A network without faults in which 127.0.0.1:9002, not yet in any ring,
already holds the chunk cats/a. -/
def preloadedNet : Net :=
  { disks := fun a => if a = "127.0.0.1:9002" then [(("cats", "a"), [7])] else [],
    log := [], faults := fun _ => false,
    dialErr := fun _ => false, listenErr := fun _ => false }

/-! ## Properties of the embedding -/

/-! ### Binary search and the successor law -/

theorem searchLoop_spec (f : Nat → Bool) (n : Nat)
    (hmono : ∀ a b, a ≤ b → b < n → f a = true → f b = true) :
    ∀ fuel i j, i ≤ j → j ≤ n → j - i ≤ fuel →
      (∀ k, k < i → f k = false) → (∀ k, j ≤ k → k < n → f k = true) →
      searchLoop f fuel i j ≤ n ∧ (∀ k, k < searchLoop f fuel i j → f k = false) ∧
        (searchLoop f fuel i j < n → f (searchLoop f fuel i j) = true) := by
  intro fuel
  induction fuel with
  | zero =>
    intro i j hij hjn hfuel hlo hhi
    have hije : i = j := by omega
    subst hije
    refine ⟨hjn, hlo, fun h => hhi i (le_refl i) h⟩
  | succ fuel ih =>
    intro i j hij hjn hfuel hlo hhi
    unfold searchLoop
    by_cases hlt : i < j
    · simp only [hlt, if_true]
      have hmid1 : i ≤ (i + j) / 2 := by omega
      have hmid2 : (i + j) / 2 < j := by omega
      cases hf : f ((i + j) / 2) with
      | false =>
        simp only [Bool.not_false, if_true]
        apply ih ((i + j) / 2 + 1) j (by omega) hjn (by omega) _ hhi
        intro k hk
        cases hfk : f k with
        | false => rfl
        | true =>
          have := hmono k ((i + j) / 2) (by omega) (by omega) hfk
          rw [hf] at this
          exact absurd this (by decide)
      | true =>
        simp only [Bool.not_true, Bool.false_eq_true, if_false]
        apply ih i ((i + j) / 2) hmid1 (by omega) (by omega) hlo
        intro k hk hkn
        exact hmono ((i + j) / 2) k hk hkn hf
    · simp only [hlt, if_false]
      have hije : i = j := by omega
      subst hije
      exact ⟨hjn, hlo, fun h => hhi i (le_refl i) h⟩

theorem probe_spec (ring : List Nat) (k : Nat) (hs : ring.Sorted (· < ·)) :
    probe ring k ≤ ring.length ∧
      (∀ i, i < probe ring k → ring.getD i 0 < k) ∧
      (probe ring k < ring.length → k ≤ ring.getD (probe ring k) 0) := by
  have hpw := List.pairwise_iff_getElem.mp hs
  have hmono : ∀ a b, a ≤ b → b < ring.length →
      (fun i => decide (ring.getD i 0 ≥ k)) a = true →
      (fun i => decide (ring.getD i 0 ≥ k)) b = true := by
    intro a b hab hb ha
    simp only [ge_iff_le, decide_eq_true_eq] at ha ⊢
    rcases Nat.eq_or_lt_of_le hab with h | h
    · subst h; exact ha
    · have := hpw a b (by omega) hb h
      rw [List.getD_eq_getElem ring 0 (by omega : a < ring.length)] at ha
      rw [List.getD_eq_getElem ring 0 hb]
      omega
  have hsp := searchLoop_spec _ ring.length hmono ring.length 0 ring.length (Nat.zero_le _)
    (le_refl _) (by omega) (by intro k hk; omega) (by intro k h1 h2; omega)
  obtain ⟨h1, h2, h3⟩ := hsp
  refine ⟨h1, ?_, ?_⟩
  · intro i hi
    have hfi := h2 i hi
    have hni : ¬ (ring.getD i 0 ≥ k) := of_decide_eq_false hfi
    omega
  · intro hlt
    exact of_decide_eq_true (h3 hlt)

theorem probe_isSuccessorPos (ring : List Nat) (k : Nat) (hs : ring.Sorted (· < ·))
    (hne : ring ≠ []) :
    IsSuccessorPos ring k
      (ring.getD (if probe ring k = ring.length then 0 else probe ring k) 0) := by
  obtain ⟨h1, h2, h3⟩ := probe_spec ring k hs
  have hpw := List.pairwise_iff_getElem.mp hs
  have hlen : 0 < ring.length := List.length_pos.mpr hne
  by_cases he : probe ring k = ring.length
  · simp only [he, if_true]
    have hall : ∀ q ∈ ring, q < k := by
      intro q hq
      obtain ⟨i, hi, rfl⟩ := List.mem_iff_getElem.mp hq
      have := h2 i (by omega)
      rwa [List.getD_eq_getElem ring 0 hi] at this
    refine ⟨?_, Or.inr ⟨hall, ?_⟩⟩
    · rw [List.getD_eq_getElem ring 0 hlen]; exact List.getElem_mem _
    · intro q hq
      obtain ⟨i, hi, rfl⟩ := List.mem_iff_getElem.mp hq
      rw [List.getD_eq_getElem ring 0 hlen]
      rcases Nat.eq_zero_or_pos i with h0 | h0
      · subst h0; exact le_refl _
      · exact Nat.le_of_lt (hpw 0 i hlen hi h0)
  · simp only [he, if_false]
    have hlt : probe ring k < ring.length := by omega
    have hk := h3 hlt
    refine ⟨?_, Or.inl ⟨hk, ?_⟩⟩
    · rw [List.getD_eq_getElem ring 0 hlt]; exact List.getElem_mem _
    · intro q hq hkq
      obtain ⟨i, hi, rfl⟩ := List.mem_iff_getElem.mp hq
      rw [List.getD_eq_getElem ring 0 hlt]
      rcases Nat.lt_trichotomy i (probe ring k) with h | h | h
      · have := h2 i h
        rw [List.getD_eq_getElem ring 0 hi] at this
        omega
      · subst h; exact le_refl _
      · exact Nat.le_of_lt (hpw _ i hlt hi h)

theorem isSuccessorPos_unique (ring : List Nat) (k p q : Nat)
    (hp : IsSuccessorPos ring k p) (hq : IsSuccessorPos ring k q) : p = q := by
  obtain ⟨hpm, hp⟩ := hp
  obtain ⟨hqm, hq⟩ := hq
  rcases hp with ⟨hp1, hp2⟩ | ⟨hp1, hp2⟩ <;> rcases hq with ⟨hq1, hq2⟩ | ⟨hq1, hq2⟩
  · exact Nat.le_antisymm (hp2 q hqm hq1) (hq2 p hpm hp1)
  · have := hq1 p hpm; omega
  · have := hp1 q hqm; omega
  · exact Nat.le_antisymm (hp2 q hqm) (hq2 p hpm)

theorem FindSuccessor_eq (H : String → Nat) (n : NetworkVideoContentService) (key : String)
    (hne : n.hashRing ≠ []) :
    FindSuccessor H n key = n.hashMap (n.hashRing.getD
      (if probe n.hashRing (H key) = n.hashRing.length then 0 else probe n.hashRing (H key)) 0) := by
  unfold FindSuccessor
  have : ¬ n.hashRing.length = 0 := by
    intro h; exact hne (List.length_eq_zero.mp h)
  simp only [this, if_false]

/-- C1: FindSuccessor returns nil on the empty ring; on a non-empty, strictly
ascending ring with a handle registered for each position it returns the
handle registered at the successor position of the key's hash (the smallest
position at or after it, else the smallest position overall). -/
theorem FindSuccessor_successor_law (H : String → Nat) (n : NetworkVideoContentService)
    (key : String) :
    (n.hashRing = [] → FindSuccessor H n key = none) ∧
    (n.hashRing ≠ [] → n.hashRing.Sorted (· < ·) →
      (∀ p ∈ n.hashRing, (n.hashMap p).isSome = true) →
      ∃ p nd, IsSuccessorPos n.hashRing (H key) p ∧ n.hashMap p = some nd ∧
        FindSuccessor H n key = some nd) := by
  constructor
  · intro h
    simp [FindSuccessor, h]
  · intro hne hs hreg
    have hp := probe_isSuccessorPos n.hashRing (H key) hs hne
    have hsome := hreg _ hp.1
    obtain ⟨nd, hnd⟩ := Option.isSome_iff_exists.mp hsome
    exact ⟨_, nd, hp, hnd, by rw [FindSuccessor_eq H n key hne, hnd]⟩

/-- The successor law on the ring of 127.0.0.1:9001 and 127.0.0.1:9002 for the key cats/c. -/
theorem FindSuccessor_successor_law_witness :
    twoNodeRing.hashRing ≠ [] ∧ twoNodeRing.hashRing.Sorted (· < ·) ∧
    (∀ p ∈ twoNodeRing.hashRing, (twoNodeRing.hashMap p).isSome = true) ∧
    ∃ p nd, IsSuccessorPos twoNodeRing.hashRing (pinnedHash "cats/c") p ∧
      twoNodeRing.hashMap p = some nd ∧
      FindSuccessor pinnedHash twoNodeRing "cats/c" = some nd :=
  ⟨by decide, by decide, by decide,
    (FindSuccessor_successor_law pinnedHash twoNodeRing "cats/c").2
      (by decide) (by decide) (by decide)⟩

/-! ### The probe on a strictly ascending ring -/

theorem probe_of_mem (ring : List Nat) (k : Nat) (hs : ring.Sorted (· < ·)) (hk : k ∈ ring) :
    probe ring k < ring.length ∧ ring.getD (probe ring k) 0 = k := by
  obtain ⟨h1, h2, h3⟩ := probe_spec ring k hs
  have hpw := List.pairwise_iff_getElem.mp hs
  obtain ⟨j, hj, hjk⟩ := List.mem_iff_getElem.mp hk
  have hle : probe ring k ≤ j := by
    by_contra hcon
    have := h2 j (by omega)
    rw [List.getD_eq_getElem ring 0 hj] at this
    omega
  have hlt : probe ring k < ring.length := by omega
  refine ⟨hlt, ?_⟩
  have hge := h3 hlt
  rw [List.getD_eq_getElem ring 0 hlt] at hge ⊢
  rcases Nat.eq_or_lt_of_le hle with h | h
  · subst hjk
    simp only [h]
  · have := hpw _ j hlt hj h
    omega

theorem eraseIdx_eq_erase_getD (l : List Nat) (hn : l.Nodup) :
    ∀ i, i < l.length → l.eraseIdx i = l.erase (l.getD i 0) := by
  induction l with
  | nil => intro i hi; simp at hi
  | cons a t ih =>
    intro i hi
    cases i with
    | zero => simp
    | succ i =>
      have hi2 : i < t.length := by simpa using hi
      have hnt : t.Nodup := (List.nodup_cons.mp hn).2
      have hat : a ∉ t := (List.nodup_cons.mp hn).1
      have hmem : t.getD i 0 ∈ t := by
        rw [List.getD_eq_getElem t 0 hi2]; exact List.getElem_mem _
      have hne : a ≠ t.getD i 0 := by
        intro h; rw [h] at hat; exact hat hmem
      have hstep : (a :: t).getD (i + 1) 0 = t.getD i 0 := by simp
      rw [hstep, List.eraseIdx_cons_succ, ih hnt i hi2, List.erase_cons_tail]
      simpa using hne

theorem sorted_lt_nodup (l : List Nat) (hs : l.Sorted (· < ·)) : l.Nodup :=
  hs.imp (fun h => Nat.ne_of_lt h)

/-! ### RemoveNode on an absent address -/

/-- C3 (evaluation at the failing input): on the router constructed over
127.0.0.1:9001 and 127.0.0.1:9002, RemoveNode of the absent address
127.0.0.1:9003 (whose hash lies between the two positions) does not take the
count-0 path: it deletes the position of 127.0.0.1:9002 from the ring, keeps
that node's map entry, and panics on the nil handle found under the absent
hash. -/
theorem RemoveNode_absent_9003 :
    ∃ c, NewCluster pinnedHash quietNet "admin" ["127.0.0.1:9001", "127.0.0.1:9002"]
        = some c ∧
      c.svc.hashRing = [8757126733552209387, 18074268052325974960] ∧
      pinnedHash "127.0.0.1:9003" ∉ c.svc.hashRing ∧
      (RemoveNode pinnedHash c.svc c.net "127.0.0.1:9003").1 = Outcome.panic ∧
      (RemoveNode pinnedHash c.svc c.net "127.0.0.1:9003").2.1.hashRing
        = [8757126733552209387] ∧
      (RemoveNode pinnedHash c.svc c.net "127.0.0.1:9003").2.1.hashMap
        18074268052325974960 = some ⟨"127.0.0.1:9002"⟩ := by
  refine ⟨_, rfl, by decide, by decide, by decide, by decide, by decide⟩

/-! ### AddNode on a present address -/

theorem AddNode_present (H : String → Nat) (n : NetworkVideoContentService) (w : Net)
    (A : String) (hs : n.hashRing.Sorted (· < ·)) (hin : H A ∈ n.hashRing) :
    AddNode H n w A = (.ret (some ⟨0⟩) none, n, w) := by
  obtain ⟨h1, h2⟩ := probe_of_mem n.hashRing (H A) hs hin
  unfold AddNode
  simp only [h1, h2, and_self, if_true]

theorem AddNode_on_empty (H : String → Nat) (n : NetworkVideoContentService) (w : Net)
    (A : String) (he : n.hashRing = []) (hd : w.dialErr A = false) :
    AddNode H n w A = (.ret (some ⟨0⟩) none, ringInsert H n A, w) ∧
      (ringInsert H n A).hashRing = [H A] := by
  have hr : (ringInsert H n A).hashRing = [H A] := by
    simp [ringInsert, he, slicesSort]
  refine ⟨?_, hr⟩
  unfold AddNode
  simp only [he, List.length_nil, Nat.not_lt_zero, false_and, if_false, hd, Bool.false_eq_true]
  rw [hr]
  simp [addNodeRing, toInt32]

/-- C7: AddNode of an address whose position is already in a strictly
ascending ring returns count 0 without error and hands back the ring, the map
and the network (hence the RPC log) untouched; and on an empty ring, when the
client for A can be created, AddNode(A) twice leaves a ring on which the second
call reported count 0 and ListNodes returns exactly [A]. -/
theorem AddNode_idempotent (H : String → Nat) (n : NetworkVideoContentService) (w : Net)
    (A : String) :
    (n.hashRing.Sorted (· < ·) → H A ∈ n.hashRing →
      AddNode H n w A = (.ret (some ⟨0⟩) none, n, w)) ∧
    (n.hashRing = [] → w.dialErr A = false →
      ∃ n1, AddNode H n w A = (.ret (some ⟨0⟩) none, n1, w) ∧
        AddNode H n1 w A = (.ret (some ⟨0⟩) none, n1, w) ∧
        ListNodes n1 = .ret (some [A]) none) := by
  refine ⟨AddNode_present H n w A, ?_⟩
  intro he hd
  obtain ⟨h1, h2⟩ := AddNode_on_empty H n w A he hd
  refine ⟨ringInsert H n A, h1, ?_, ?_⟩
  · apply AddNode_present
    · rw [h2]; exact List.sorted_singleton _
    · rw [h2]; exact List.mem_singleton_self _
  · unfold ListNodes
    rw [h2]
    simp [listNodesLoop, ringInsert]

/-- AddNode of a present address on the two-node ring, and AddNode twice on the empty ring. -/
theorem AddNode_idempotent_witness :
    (twoNodeRing.hashRing.Sorted (· < ·) ∧
      pinnedHash "127.0.0.1:9001" ∈ twoNodeRing.hashRing ∧
      AddNode pinnedHash twoNodeRing quietNet "127.0.0.1:9001"
        = (.ret (some ⟨0⟩) none, twoNodeRing, quietNet)) ∧
    ((⟨[], fun _ => none⟩ : NetworkVideoContentService).hashRing = [] ∧
      quietNet.dialErr "127.0.0.1:9001" = false ∧
      ∃ n1, AddNode pinnedHash ⟨[], fun _ => none⟩ quietNet "127.0.0.1:9001"
          = (.ret (some ⟨0⟩) none, n1, quietNet) ∧
        AddNode pinnedHash n1 quietNet "127.0.0.1:9001" = (.ret (some ⟨0⟩) none, n1, quietNet) ∧
        ListNodes n1 = .ret (some ["127.0.0.1:9001"]) none) :=
  ⟨⟨by decide, by decide,
      (AddNode_idempotent pinnedHash twoNodeRing quietNet "127.0.0.1:9001").1
        (by decide) (by decide)⟩,
    ⟨rfl, rfl,
      (AddNode_idempotent pinnedHash ⟨[], fun _ => none⟩ quietNet "127.0.0.1:9001").2
        rfl rfl⟩⟩

/-! ### RemoveNode on a present address: the ring afterwards -/

theorem RemoveNode_ring (H : String → Nat) (n : NetworkVideoContentService) (w : Net)
    (A : String) (hidx : probe n.hashRing (H A) ≠ n.hashRing.length) :
    (RemoveNode H n w A).2.1 = ringDelete n (probe n.hashRing (H A)) (H A) := by
  unfold RemoveNode
  simp only [hidx, if_false]
  cases n.hashMap (H A) with
  | none => rfl
  | some nd =>
    simp only
    cases clientListFiles nd.address w with
    | mk r w1 =>
      cases r with
      | error e => rfl
      | ok fs =>
        simp only
        cases removeNodeFiles H (ringDelete n (probe n.hashRing (H A)) (H A)) nd fs 0 w1 <;> rfl

theorem listNodesLoop_eq (n : NetworkVideoContentService) :
    ∀ ps : List Nat, (∀ p ∈ ps, ∃ nd, n.hashMap p = some nd) →
      listNodesLoop n ps
        = some (ps.map (fun p => ((n.hashMap p).map Node.address).getD "")) := by
  intro ps
  induction ps with
  | nil => intro _; rfl
  | cons p t ih =>
    intro h
    obtain ⟨nd, hnd⟩ := h p (List.mem_cons_self _ _)
    have ht := ih (fun q hq => h q (List.mem_cons_of_mem _ hq))
    simp [listNodesLoop, hnd, ht]

theorem map_erase_of_injOn (f : Nat → String) (a : Nat) :
    ∀ l : List Nat, (∀ x ∈ l, f x = f a → x = a) →
      (l.erase a).map f = (l.map f).erase (f a) := by
  intro l
  induction l with
  | nil => intro _; rfl
  | cons x t ih =>
    intro h
    by_cases hx : x = a
    · subst hx
      simp
    · have hfx : f x ≠ f a := fun hf => hx (h x (List.mem_cons_self _ _) hf)
      rw [List.erase_cons_tail (by simpa using hx), List.map_cons, List.map_cons,
        List.erase_cons_tail (by simpa using hfx),
        ih (fun y hy => h y (List.mem_cons_of_mem _ hy))]

theorem Registered.handle {H : String → Nat} {n : NetworkVideoContentService}
    (h : Registered H n) {p : Nat} (hp : p ∈ n.hashRing) :
    ∃ nd, n.hashMap p = some nd ∧ H nd.address = p := by
  have := h p hp
  cases hm : n.hashMap p with
  | none => rw [hm] at this; simp at this
  | some nd => rw [hm] at this; exact ⟨nd, rfl, by simpa using this⟩

/-- C10: on a strictly ascending ring whose positions each carry the handle of
an address hashing there, RemoveNode of an address A registered at its position
does not take the count-0 path (the probe stays inside the ring); afterwards the
position list is the old one with H(A) erased, the map has lost exactly the
entry at H(A), and ListNodes returns the old address list with A erased. -/
theorem RemoveNode_detaches_named (H : String → Nat) (n : NetworkVideoContentService)
    (w : Net) (A : String) (hs : n.hashRing.Sorted (· < ·))
    (hreg0 : Registered H n)
    (hin : H A ∈ n.hashRing) (hA : n.hashMap (H A) = some ⟨A⟩) :
    probe n.hashRing (H A) ≠ n.hashRing.length ∧
    (RemoveNode H n w A).2.1.hashRing = n.hashRing.erase (H A) ∧
    (RemoveNode H n w A).2.1.hashMap = (fun p => if p = H A then none else n.hashMap p) ∧
    ∃ l, ListNodes n = .ret (some l) none ∧
      ListNodes (RemoveNode H n w A).2.1 = .ret (some (l.erase A)) none := by
  have hreg : ∀ p ∈ n.hashRing, ∃ nd, n.hashMap p = some nd ∧ H nd.address = p :=
    fun p hp => hreg0.handle hp
  obtain ⟨h1, h2⟩ := probe_of_mem n.hashRing (H A) hs hin
  have hidx : probe n.hashRing (H A) ≠ n.hashRing.length := Nat.ne_of_lt h1
  have hnd := sorted_lt_nodup _ hs
  have hring : (ringDelete n (probe n.hashRing (H A)) (H A)).hashRing
      = n.hashRing.erase (H A) := by
    show slicesDelete n.hashRing _ = _
    unfold slicesDelete
    rw [eraseIdx_eq_erase_getD _ hnd _ h1, h2]
  rw [RemoveNode_ring H n w A hidx]
  refine ⟨hidx, hring, rfl, ?_⟩
  refine ⟨n.hashRing.map (fun p => ((n.hashMap p).map Node.address).getD ""), ?_, ?_⟩
  · unfold ListNodes
    rw [listNodesLoop_eq n n.hashRing (fun p hp => by
      obtain ⟨nd, h, _⟩ := hreg p hp; exact ⟨nd, h⟩)]
  · unfold ListNodes
    rw [hring]
    have hsub : ∀ p ∈ n.hashRing.erase (H A), p ∈ n.hashRing ∧ p ≠ H A := by
      intro p hp
      exact ⟨List.mem_of_mem_erase hp, fun h => by
        rw [h] at hp; exact (List.Nodup.not_mem_erase hnd) hp⟩
    rw [listNodesLoop_eq _ (n.hashRing.erase (H A)) (fun p hp => by
      obtain ⟨nd, h, _⟩ := hreg p (hsub p hp).1
      exact ⟨nd, by simp [ringDelete, (hsub p hp).2, h]⟩)]
    have hmap : (n.hashRing.erase (H A)).map
        (fun p => (((ringDelete n (probe n.hashRing (H A)) (H A)).hashMap p).map
          Node.address).getD "")
        = (n.hashRing.erase (H A)).map
            (fun p => ((n.hashMap p).map Node.address).getD "") := by
      apply List.map_congr_left
      intro p hp
      simp [ringDelete, (hsub p hp).2]
    rw [hmap, map_erase_of_injOn _ (H A) n.hashRing]
    · simp [hA]
    · intro x hx hfx
      obtain ⟨nd, hm, hh⟩ := hreg x hx
      simp only [hm, hA, Option.map_some', Option.getD_some] at hfx
      rw [← hh, hfx]

/-- RemoveNode of 127.0.0.1:9002 from the two-node ring. -/
theorem RemoveNode_detaches_named_witness :
    twoNodeRing.hashRing.Sorted (· < ·) ∧ Registered pinnedHash twoNodeRing ∧
    pinnedHash "127.0.0.1:9002" ∈ twoNodeRing.hashRing ∧
    twoNodeRing.hashMap (pinnedHash "127.0.0.1:9002") = some ⟨"127.0.0.1:9002"⟩ ∧
    probe twoNodeRing.hashRing (pinnedHash "127.0.0.1:9002") ≠ twoNodeRing.hashRing.length ∧
    (RemoveNode pinnedHash twoNodeRing quietNet "127.0.0.1:9002").2.1.hashRing
      = twoNodeRing.hashRing.erase (pinnedHash "127.0.0.1:9002") ∧
    (RemoveNode pinnedHash twoNodeRing quietNet "127.0.0.1:9002").2.1.hashMap
      = (fun p => if p = pinnedHash "127.0.0.1:9002" then none else twoNodeRing.hashMap p) ∧
    ∃ l, ListNodes twoNodeRing = .ret (some l) none ∧
      ListNodes (RemoveNode pinnedHash twoNodeRing quietNet "127.0.0.1:9002").2.1
        = .ret (some (l.erase "127.0.0.1:9002")) none :=
  ⟨by decide, by decide, by decide, by decide,
    RemoveNode_detaches_named pinnedHash twoNodeRing quietNet "127.0.0.1:9002"
      (by decide) (by decide) (by decide) (by decide)⟩

/-! ### The storage node -/

theorem fsRead_fsPut (k : ChunkKey) (d : Bytes) (s : Storage) (k2 : ChunkKey)
    (h : (fsRead s k).isSome = true) :
    fsRead (fsPut k d s) k2 = if k2 = k then some d else fsRead s k2 := by
  induction s with
  | nil => simp [fsRead] at h
  | cons e t ih =>
    obtain ⟨k1, d1⟩ := e
    by_cases h1 : k1 = k
    · subst h1
      by_cases h2 : k2 = k1
      · subst h2; simp [fsPut, fsRead]
      · have h3 : ¬ k1 = k2 := fun h => h2 h.symm
        simp [fsPut, fsRead, h2, h3]
    · have ht : (fsRead t k).isSome = true := by simpa [fsRead, h1] using h
      by_cases h2 : k2 = k
      · subst h2
        simp [fsPut, fsRead, h1, ih ht]
      · by_cases h3 : k1 = k2
        · simp [fsPut, fsRead, h1, h2, h3]
        · simp [fsPut, fsRead, h1, h2, h3, ih ht]

theorem fsRead_fsCreate (k : ChunkKey) (d : Bytes) (s : Storage) (k2 : ChunkKey)
    (h : fsRead s k = none) :
    fsRead (fsCreate k d s) k2 = if k2 = k then some d else fsRead s k2 := by
  induction s with
  | nil =>
    by_cases h2 : k2 = k
    · subst h2; simp [fsCreate, fsRead]
    · have h3 : ¬ k = k2 := fun h => h2 h.symm
      simp [fsCreate, fsRead, h2, h3]
  | cons e t ih =>
    obtain ⟨k1, d1⟩ := e
    have h1 : ¬ k1 = k := by
      intro h1; simp [fsRead, h1] at h
    have ht : fsRead t k = none := by simpa [fsRead, h1] using h
    by_cases hlt : keyLt k k1 = true
    · by_cases h2 : k2 = k
      · subst h2; simp [fsCreate, fsRead, hlt]
      · have h3 : ¬ k = k2 := fun h => h2 h.symm
        simp [fsCreate, fsRead, hlt, h2, h3]
    · by_cases h2 : k2 = k
      · subst h2
        simp [fsCreate, fsRead, hlt, h1, ih ht]
      · by_cases h3 : k1 = k2
        · subst h3
          simp [fsCreate, fsRead, hlt, h2]
        · simp [fsCreate, fsRead, hlt, h2, h3, ih ht]

theorem fsRead_fsWrite (s : Storage) (k : ChunkKey) (d : Bytes) (k2 : ChunkKey) :
    fsRead (fsWrite s k d) k2 = if k2 = k then some d else fsRead s k2 := by
  unfold fsWrite
  by_cases h : (fsRead s k).isSome = true
  · simp only [h, if_true]; exact fsRead_fsPut k d s k2 h
  · simp only [h]
    have hn : fsRead s k = none := by
      cases hr : fsRead s k with
      | none => rfl
      | some x => rw [hr] at h; simp at h
    exact fsRead_fsCreate k d s k2 hn

theorem fsRead_fsRemove (s : Storage) (k k2 : ChunkKey) :
    fsRead (fsRemove s k) k2 = if k2 = k then none else fsRead s k2 := by
  induction s with
  | nil => simp [fsRemove, fsRead]
  | cons e t ih =>
    obtain ⟨k1, d1⟩ := e
    unfold fsRemove at ih ⊢
    by_cases h1 : k1 = k
    · subst h1
      by_cases h2 : k2 = k1
      · subst h2; simpa [fsRead] using ih
      · have h3 : ¬ k1 = k2 := fun h => h2 h.symm
        simpa [fsRead, h2, h3] using ih
    · by_cases h2 : k2 = k
      · subst h2
        simpa [fsRead, h1] using ih
      · by_cases h3 : k1 = k2
        · simp [fsRead, h1, h2, h3]
        · simpa [fsRead, h1, h2, h3] using ih

theorem mem_fsKeys_iff (s : Storage) (k : ChunkKey) :
    k ∈ fsKeys s ↔ (fsRead s k).isSome = true := by
  induction s with
  | nil => simp [fsKeys, fsRead]
  | cons e t ih =>
    obtain ⟨k1, d1⟩ := e
    unfold fsKeys at ih ⊢
    by_cases h1 : k1 = k
    · simp [fsRead, h1]
    · have h2 : ¬ k = k1 := fun h => h1 h.symm
      simp only [List.map_cons, List.mem_cons, h2, false_or, fsRead, h1, if_false]
      exact ih

theorem mem_ListFiles_iff (s : Storage) (name : String) :
    name ∈ Server.ListFiles s ↔ ∃ k ∈ fsKeys s, name = k.1 ++ "/" ++ k.2 := by
  unfold Server.ListFiles fsKeys
  simp only [List.mem_map]
  constructor
  · rintro ⟨e, he, rfl⟩
    exact ⟨e.1, ⟨e, he, rfl⟩, rfl⟩
  · rintro ⟨k, ⟨e, he, rfl⟩, rfl⟩
    exact ⟨e, he, rfl⟩

/-! ### The network state -/

@[simp] theorem Net.stamp_disks (w : Net) (c : Rpc) (ok : Bool) :
    (w.stamp c ok).disks = w.disks := rfl

@[simp] theorem Net.stamp_log (w : Net) (c : Rpc) (ok : Bool) :
    (w.stamp c ok).log = w.log ++ [⟨c, ok⟩] := rfl

@[simp] theorem Net.stamp_faults (w : Net) (c : Rpc) (ok : Bool) :
    (w.stamp c ok).faults = w.faults := rfl

@[simp] theorem Net.stamp_dialErr (w : Net) (c : Rpc) (ok : Bool) :
    (w.stamp c ok).dialErr = w.dialErr := rfl

@[simp] theorem Net.setDisk_log (w : Net) (a : String) (s : Storage) :
    (w.setDisk a s).log = w.log := rfl

@[simp] theorem Net.setDisk_faults (w : Net) (a : String) (s : Storage) :
    (w.setDisk a s).faults = w.faults := rfl

@[simp] theorem Net.setDisk_dialErr (w : Net) (a : String) (s : Storage) :
    (w.setDisk a s).dialErr = w.dialErr := rfl

@[simp] theorem Net.setDisk_disks (w : Net) (a : String) (s : Storage) (b : String) :
    (w.setDisk a s).disks b = if b = a then s else w.disks b := rfl

/-! ### Write followed by Read -/

theorem FindSuccessor_some (H : String → Nat) (n : NetworkVideoContentService) (key : String)
    (hne : n.hashRing ≠ []) (hs : n.hashRing.Sorted (· < ·)) (hreg : Registered H n) :
    ∃ p nd, IsSuccessorPos n.hashRing (H key) p ∧ n.hashMap p = some nd ∧
      H nd.address = p ∧ FindSuccessor H n key = some nd := by
  have hp := probe_isSuccessorPos n.hashRing (H key) hs hne
  obtain ⟨nd, hnd, hh⟩ := hreg.handle hp.1
  exact ⟨_, nd, hp, hnd, hh, by rw [FindSuccessor_eq H n key hne, hnd]⟩

/-- C9: on a non-empty, strictly ascending ring whose positions carry their
handles, with no RPC failing, Write of single path segments videoId and
filename with bytes d followed by Read returns exactly d; both calls go to the
node at the successor position of H(videoId/filename), and ListFiles on that
node then contains videoId/filename. -/
theorem Write_Read_roundtrip (H : String → Nat) (n : NetworkVideoContentService) (w : Net)
    (videoId filename : String) (d : Bytes)
    (hne : n.hashRing ≠ []) (hs : n.hashRing.Sorted (· < ·)) (hreg : Registered H n)
    (_hv : pathSegment videoId) (_hf : pathSegment filename) (hrel : w.reliable) :
    ∃ p node, IsSuccessorPos n.hashRing (H (videoId ++ "/" ++ filename)) p ∧
      n.hashMap p = some node ∧
      (Write H n w videoId filename d).1 = none ∧
      (Read H n (Write H n w videoId filename d).2 videoId filename).1 = .ok d ∧
      (Read H n (Write H n w videoId filename d).2 videoId filename).2.log
        = w.log ++ [⟨.WriteFile node.address videoId filename d, true⟩,
            ⟨.ReadFile node.address videoId filename, true⟩] ∧
      ∃ l, (clientListFiles node.address
              (Read H n (Write H n w videoId filename d).2 videoId filename).2).1 = .ok l ∧
        (videoId ++ "/" ++ filename) ∈ l := by
  obtain ⟨p, nd, hp, hm, _, hfs⟩ := FindSuccessor_some H n (videoId ++ "/" ++ filename) hne hs hreg
  have hw : Write H n w videoId filename d
      = (none, (w.setDisk nd.address (fsWrite (w.disks nd.address) (videoId, filename) d)).stamp
          (.WriteFile nd.address videoId filename d) true) := by
    simp [Write, hfs, clientWriteFile, hrel w.log.length, Server.WriteFile]
  have hrd : fsRead (fsWrite (w.disks nd.address) (videoId, filename) d) (videoId, filename)
      = some d := by
    rw [fsRead_fsWrite]; simp
  refine ⟨p, nd, hp, hm, ?_, ?_, ?_, ?_⟩
  · rw [hw]
  · rw [hw]
    simp [Read, hfs, clientReadFile, hrel (w.log.length + 1), Server.ReadFile, hrd]
  · rw [hw]
    simp [Read, hfs, clientReadFile, hrel (w.log.length + 1), Server.ReadFile, hrd]
  · rw [hw]
    refine ⟨Server.ListFiles (fsWrite (w.disks nd.address) (videoId, filename) d), ?_, ?_⟩
    · simp [Read, hfs, clientReadFile, hrel (w.log.length + 1), Server.ReadFile, hrd,
        clientListFiles, hrel (w.log.length + 1 + 1)]
    · rw [mem_ListFiles_iff]
      refine ⟨(videoId, filename), ?_, rfl⟩
      rw [mem_fsKeys_iff, hrd]; rfl

/-- The round trip of cats/manifest.mpd with the bytes of HELLO on the one-node ring. -/
theorem Write_Read_roundtrip_witness :
    ringOf9001.hashRing ≠ [] ∧ ringOf9001.hashRing.Sorted (· < ·) ∧
    Registered pinnedHash ringOf9001 ∧ pathSegment "cats" ∧ pathSegment "manifest.mpd" ∧
    quietNet.reliable ∧
    ∃ p node, IsSuccessorPos ringOf9001.hashRing (pinnedHash ("cats" ++ "/" ++ "manifest.mpd")) p ∧
      ringOf9001.hashMap p = some node ∧
      (Write pinnedHash ringOf9001 quietNet "cats" "manifest.mpd" [72, 69, 76, 76, 79]).1 = none ∧
      (Read pinnedHash ringOf9001
        (Write pinnedHash ringOf9001 quietNet "cats" "manifest.mpd" [72, 69, 76, 76, 79]).2
        "cats" "manifest.mpd").1 = .ok [72, 69, 76, 76, 79] ∧
      (Read pinnedHash ringOf9001
        (Write pinnedHash ringOf9001 quietNet "cats" "manifest.mpd" [72, 69, 76, 76, 79]).2
        "cats" "manifest.mpd").2.log
        = quietNet.log ++ [⟨.WriteFile node.address "cats" "manifest.mpd" [72, 69, 76, 76, 79], true⟩,
            ⟨.ReadFile node.address "cats" "manifest.mpd", true⟩] ∧
      ∃ l, (clientListFiles node.address
              (Read pinnedHash ringOf9001
                (Write pinnedHash ringOf9001 quietNet "cats" "manifest.mpd"
                  [72, 69, 76, 76, 79]).2 "cats" "manifest.mpd").2).1 = .ok l ∧
        ("cats" ++ "/" ++ "manifest.mpd") ∈ l :=
  ⟨by decide, by decide, by decide, by decide, by decide, fun _ => rfl,
    Write_Read_roundtrip pinnedHash ringOf9001 quietNet "cats" "manifest.mpd"
      [72, 69, 76, 76, 79] (by decide) (by decide) (by decide) (by decide) (by decide)
      (fun _ => rfl)⟩

/-! ### One chunk migration -/

theorem migrate_cases (src dst : Node) (v f : String) (w : Net) :
    (∃ e, migrate src dst v f w = (some e, w.stamp (.ReadFile src.address v f) false)) ∨
    (∃ e data, fsRead (w.disks src.address) (v, f) = some data ∧
      migrate src dst v f w
        = (some e, (afterRead w src.address v f).stamp
            (.WriteFile dst.address v f data) false)) ∨
    (∃ e data, fsRead (w.disks src.address) (v, f) = some data ∧
      migrate src dst v f w
        = (some e, (afterWrite w src.address dst.address v f data).stamp
            (.DeleteFile src.address v f) false)) ∨
    (∃ data, fsRead (w.disks src.address) (v, f) = some data ∧
      migrate src dst v f w = (none, afterDelete w src.address dst.address v f data)) := by
  unfold migrate
  by_cases h0 : w.faults w.log.length = true
  · left
    exact ⟨.transport, by simp [clientReadFile, h0]⟩
  · cases hr : fsRead (w.disks src.address) (v, f) with
    | none =>
      left
      exact ⟨.notFound, by simp [clientReadFile, h0, Server.ReadFile, hr]⟩
    | some data =>
      right
      by_cases h1 : w.faults (w.log.length + 1) = true
      · left
        exact ⟨.transport, data, rfl, by
          simp [clientReadFile, h0, Server.ReadFile, hr, clientWriteFile, h1, afterRead]⟩
      · right
        have hpres : fsRead (if src.address = dst.address then
            fsWrite (w.disks dst.address) (v, f) data else w.disks src.address) (v, f)
            = some data := by
          by_cases hsd : src.address = dst.address
          · simp [hsd, fsRead_fsWrite]
          · simp [hsd, hr]
        by_cases h2 : w.faults (w.log.length + 1 + 1) = true
        · left
          exact ⟨.transport, data, rfl, by
            simp [clientReadFile, h0, Server.ReadFile, hr, clientWriteFile, h1,
              Server.WriteFile, clientDeleteFile, h2, afterRead, afterWrite]⟩
        · right
          exact ⟨data, rfl, by
            simp [clientReadFile, h0, Server.ReadFile, hr, clientWriteFile, h1,
              Server.WriteFile, clientDeleteFile, h2, Server.DeleteFile, hpres,
              afterRead, afterWrite, afterDelete]⟩

theorem migrate_reliable (src dst : Node) (v f : String) (w : Net) (data : Bytes)
    (hrel : w.reliable) (hr : fsRead (w.disks src.address) (v, f) = some data) :
    migrate src dst v f w = (none, afterDelete w src.address dst.address v f data) := by
  have hpres : fsRead (if src.address = dst.address then
      fsWrite (w.disks dst.address) (v, f) data else w.disks src.address) (v, f)
      = some data := by
    by_cases hsd : src.address = dst.address
    · simp [hsd, fsRead_fsWrite]
    · simp [hsd, hr]
  unfold migrate
  simp [clientReadFile, hrel w.log.length, Server.ReadFile, hr, clientWriteFile,
    hrel (w.log.length + 1), Server.WriteFile, clientDeleteFile, hrel (w.log.length + 1 + 1),
    Server.DeleteFile, hpres, afterRead, afterWrite, afterDelete]

/-! ### The shape of the RPC log -/

theorem Chunked.append {route : String → String → Prop} {a b : List Event}
    (ha : Chunked route a) (hb : Chunked route b) : Chunked route (a ++ b) := by
  induction hb with
  | nil => simpa using ha
  | list l x _ ih =>
    rw [← List.append_assoc]
    exact Chunked.list _ x ih
  | move l src dst v f data _ hr ih =>
    rw [← List.append_assoc]
    exact Chunked.move _ src dst v f data ih hr

theorem FlowTrace.extend {route : String → String → Prop} {w w1 : Net} {fl : Flow}
    {ext0 : List Event} (hf : w1.faults = w.faults) (hl : w1.log = w.log ++ ext0)
    (hc : Chunked route ext0) (h : FlowTrace route w1 fl) : FlowTrace route w fl := by
  cases fl with
  | next m w2 =>
    obtain ⟨h1, ext, h2, h3⟩ := h
    exact ⟨h1.trans hf, ext0 ++ ext, by rw [h2, hl, List.append_assoc], hc.append h3⟩
  | abort e w2 =>
    obtain ⟨h1, ext, b, h2, h3, h4⟩ := h
    exact ⟨h1.trans hf, ext0 ++ ext, b, by rw [h2, hl]; simp [List.append_assoc],
      hc.append h3, h4⟩
  | crash w2 =>
    obtain ⟨h1, ext, h2, h3⟩ := h
    exact ⟨h1.trans hf, ext0 ++ ext, by rw [h2, hl, List.append_assoc], hc.append h3⟩

theorem migrate_trace (route : String → String → Prop) (src dst : Node) (v f : String)
    (w : Net) (hr : route src.address dst.address) :
    (migrate src dst v f w).2.faults = w.faults ∧
    (((migrate src dst v f w).1 = none ∧
        ∃ ext, (migrate src dst v f w).2.log = w.log ++ ext ∧ Chunked route ext) ∨
      ((∃ e, (migrate src dst v f w).1 = some e) ∧
        ∃ b, (migrate src dst v f w).2.log = w.log ++ b ∧ Broken route b)) := by
  rcases migrate_cases src dst v f w with ⟨e, h⟩ | ⟨e, d, _, h⟩ | ⟨e, d, _, h⟩ | ⟨d, _, h⟩
  · rw [h]
    exact ⟨rfl, Or.inr ⟨⟨e, rfl⟩, _, rfl, Broken.read _ _ _⟩⟩
  · rw [h]
    refine ⟨rfl, Or.inr ⟨⟨e, rfl⟩, _, ?_, Broken.write src.address dst.address v f d hr⟩⟩
    simp [afterRead]
  · rw [h]
    refine ⟨rfl, Or.inr ⟨⟨e, rfl⟩, _, ?_, Broken.delete src.address dst.address v f d hr⟩⟩
    simp [afterRead, afterWrite]
  · rw [h]
    refine ⟨rfl, Or.inl ⟨rfl, _, ?_,
      Chunked.move [] src.address dst.address v f d Chunked.nil hr⟩⟩
    simp [afterRead, afterWrite, afterDelete]

theorem addNodeFiles_trace (H : String → Nat) (n : NetworkVideoContentService)
    (addr : String) (node : Node) :
    ∀ (l : List String) (moved : Nat) (w : Net),
      FlowTrace (fun _ d => d = addr) w (addNodeFiles H n addr node l moved w) := by
  intro l
  induction l with
  | nil =>
    intro moved w
    exact ⟨rfl, [], by simp, Chunked.nil⟩
  | cons name rest ih =>
    intro moved w
    unfold addNodeFiles
    cases hs : FindSuccessor H n name with
    | none => exact ih moved w
    | some succ =>
      by_cases ha : succ.address = addr
      · simp only [ha, ne_eq, not_true_eq_false, if_false]
        cases hsp : stringsSplit name with
        | nil => exact ⟨rfl, [], by simp, Chunked.nil⟩
        | cons v t =>
          cases t with
          | nil => exact ⟨rfl, [], by simp, Chunked.nil⟩
          | cons f t2 =>
            simp only
            obtain ⟨hf, hcase⟩ := migrate_trace (fun _ d => d = addr) node succ v f w ha
            cases hm : migrate node succ v f w with
            | mk r w1 =>
              rw [hm] at hf hcase
              cases r with
              | none =>
                simp only
                rcases hcase with ⟨_, ext, h2, h3⟩ | ⟨⟨e, he⟩, _⟩
                · exact FlowTrace.extend hf h2 h3 (ih (moved + 1) w1)
                · simp at he
              | some e =>
                simp only
                rcases hcase with ⟨he, _⟩ | ⟨_, b, h2, h3⟩
                · simp at he
                · exact ⟨hf, [], b, by simpa using h2, Chunked.nil, h3⟩
      · simp only [ne_eq, ha, not_false_eq_true, if_true]
        exact ih moved w

theorem removeNodeFiles_trace (H : String → Nat) (n : NetworkVideoContentService)
    (node : Node) :
    ∀ (l : List String) (moved : Nat) (w : Net),
      FlowTrace (fun s _ => s = node.address) w (removeNodeFiles H n node l moved w) := by
  intro l
  induction l with
  | nil =>
    intro moved w
    exact ⟨rfl, [], by simp, Chunked.nil⟩
  | cons name rest ih =>
    intro moved w
    unfold removeNodeFiles
    cases hsp : stringsSplit name with
    | nil => exact ⟨rfl, [], by simp, Chunked.nil⟩
    | cons v t =>
      cases t with
      | nil => exact ⟨rfl, [], by simp, Chunked.nil⟩
      | cons f t2 =>
        simp only
        cases hs : FindSuccessor H n name with
        | none => exact ih moved w
        | some succ =>
          simp only
          obtain ⟨hf, hcase⟩ :=
            migrate_trace (fun s _ => s = node.address) node succ v f w rfl
          cases hm : migrate node succ v f w with
          | mk r w1 =>
            rw [hm] at hf hcase
            cases r with
            | none =>
              simp only
              rcases hcase with ⟨_, ext, h2, h3⟩ | ⟨⟨e, he⟩, _⟩
              · exact FlowTrace.extend hf h2 h3 (ih (moved + 1) w1)
              · simp at he
            | some e =>
              simp only
              rcases hcase with ⟨he, _⟩ | ⟨_, b, h2, h3⟩
              · simp at he
              · exact ⟨hf, [], b, by simpa using h2, Chunked.nil, h3⟩

theorem clientListFiles_cases (a : String) (w : Net) :
    (w.faults w.log.length = true ∧
      clientListFiles a w = (.error .transport, w.stamp (.ListFiles a) false)) ∨
    (w.faults w.log.length = false ∧
      clientListFiles a w = (.ok (Server.ListFiles (w.disks a)), w.stamp (.ListFiles a) true)) := by
  unfold clientListFiles
  cases h : w.faults w.log.length <;> simp

theorem addNodeRing_trace (H : String → Nat) (n : NetworkVideoContentService)
    (addr : String) (hash : Nat) :
    ∀ (ps : List Nat) (moved : Nat) (w : Net),
      FlowTrace (fun _ d => d = addr) w (addNodeRing H n addr hash ps moved w) := by
  intro ps
  induction ps with
  | nil =>
    intro moved w
    exact ⟨rfl, [], by simp, Chunked.nil⟩
  | cons p rest ih =>
    intro moved w
    unfold addNodeRing
    by_cases hp : p = hash
    · simp only [hp, if_true]
      exact ih moved w
    · simp only [hp, if_false]
      cases hm : n.hashMap p with
      | none => exact ⟨rfl, [], by simp, Chunked.nil⟩
      | some node =>
        simp only
        rcases clientListFiles_cases node.address w with ⟨_, hl⟩ | ⟨_, hl⟩
        · rw [hl]
          exact ⟨rfl, [], _, by simp, Chunked.nil, Broken.list node.address⟩
        · rw [hl]
          simp only
          have hin := addNodeFiles_trace H n addr node (Server.ListFiles (w.disks node.address))
            moved (w.stamp (.ListFiles node.address) true)
          have hone : Chunked (fun _ d => d = addr) [⟨Rpc.ListFiles node.address, true⟩] :=
            Chunked.list [] node.address Chunked.nil
          cases hfl : addNodeFiles H n addr node (Server.ListFiles (w.disks node.address))
              moved (w.stamp (.ListFiles node.address) true) with
          | next m w2 =>
            rw [hfl] at hin
            obtain ⟨h1, ext, h2, h3⟩ := hin
            simp only
            exact @FlowTrace.extend _ w w2 _ _ h1 (by rw [h2]; simp) (hone.append h3)
              (ih m w2)
          | abort e w2 =>
            rw [hfl] at hin
            exact @FlowTrace.extend _ w (w.stamp (.ListFiles node.address) true) _ _ rfl
              (by simp) hone hin
          | crash w2 =>
            rw [hfl] at hin
            exact @FlowTrace.extend _ w (w.stamp (.ListFiles node.address) true) _ _ rfl
              (by simp) hone hin

theorem Chunked.all_ok {route : String → String → Prop} {l : List Event}
    (h : Chunked route l) : ∀ ev ∈ l, ev.ok = true := by
  induction h with
  | nil => intro ev hev; simp at hev
  | list l a _ ih =>
    intro ev hev
    rcases List.mem_append.mp hev with h | h
    · exact ih ev h
    · simp at h; rw [h]
  | move l src dst v f data _ _ ih =>
    intro ev hev
    rcases List.mem_append.mp hev with h | h
    · exact ih ev h
    · simp at h
      rcases h with h | h | h <;> rw [h]

theorem Broken.shape {route : String → String → Prop} {b : List Event}
    (h : Broken route b) :
    ∃ pre ev, b = pre ++ [ev] ∧ ev.ok = false ∧ ∀ x ∈ pre, x.ok = true := by
  cases h with
  | list a => exact ⟨[], _, rfl, rfl, by simp⟩
  | read src v f => exact ⟨[], _, rfl, rfl, by simp⟩
  | write src dst v f data _ => exact ⟨[_], _, rfl, rfl, by simp⟩
  | delete src dst v f data _ => exact ⟨[_, _], _, rfl, rfl, by simp⟩

theorem AddNode_trace (H : String → Nat) (n : NetworkVideoContentService) (w : Net)
    (addr : String) : OpTrace (fun _ d => d = addr) w (AddNode H n w addr) := by
  unfold AddNode
  simp only
  split
  · exact ⟨rfl, Or.inl ⟨Or.inl ⟨_, rfl⟩, [], by simp, Chunked.nil⟩⟩
  · split
    · exact ⟨rfl, Or.inr ⟨⟨_, rfl⟩, [], [], by simp, Chunked.nil, Or.inr rfl⟩⟩
    · have ht := addNodeRing_trace H (ringInsert H n addr) addr (H addr)
        (ringInsert H n addr).hashRing 0 w
      cases hfl : addNodeRing H (ringInsert H n addr) addr (H addr)
          (ringInsert H n addr).hashRing 0 w with
      | next m w1 =>
        rw [hfl] at ht
        exact ⟨ht.1, Or.inl ⟨Or.inl ⟨_, rfl⟩, ht.2⟩⟩
      | abort e w1 =>
        rw [hfl] at ht
        obtain ⟨h1, ext, b, h2, h3, h4⟩ := ht
        exact ⟨h1, Or.inr ⟨⟨e, rfl⟩, ext, b, h2, h3, Or.inl h4⟩⟩
      | crash w1 =>
        rw [hfl] at ht
        exact ⟨ht.1, Or.inl ⟨Or.inr rfl, ht.2⟩⟩

theorem RemoveNode_trace (H : String → Nat) (n : NetworkVideoContentService) (w : Net)
    (addr : String) :
    OpTrace (fun s _ => s = addrAt n (H addr)) w (RemoveNode H n w addr) := by
  unfold RemoveNode
  simp only
  split
  · exact ⟨rfl, Or.inl ⟨Or.inl ⟨_, rfl⟩, [], by simp, Chunked.nil⟩⟩
  · cases hm : n.hashMap (H addr) with
    | none => exact ⟨rfl, Or.inl ⟨Or.inr rfl, [], by simp, Chunked.nil⟩⟩
    | some node =>
      have haddr : addrAt n (H addr) = node.address := by simp [addrAt, hm]
      rw [haddr]
      simp only
      rcases clientListFiles_cases node.address w with ⟨_, hl⟩ | ⟨_, hl⟩
      · rw [hl]
        exact ⟨rfl, Or.inr ⟨⟨_, rfl⟩, [], _, by simp, Chunked.nil,
          Or.inl (Broken.list node.address)⟩⟩
      · rw [hl]
        simp only
        have hone : Chunked (fun s _ => s = node.address)
            [⟨Rpc.ListFiles node.address, true⟩] :=
          Chunked.list [] node.address Chunked.nil
        have ht := @FlowTrace.extend _ w (w.stamp (.ListFiles node.address) true) _ _
          rfl (by simp) hone
          (removeNodeFiles_trace H (ringDelete n (probe n.hashRing (H addr)) (H addr)) node
            (Server.ListFiles (w.disks node.address)) 0
            (w.stamp (.ListFiles node.address) true))
        cases hfl : removeNodeFiles H (ringDelete n (probe n.hashRing (H addr)) (H addr)) node
            (Server.ListFiles (w.disks node.address)) 0
            (w.stamp (.ListFiles node.address) true) with
        | next m w1 =>
          rw [hfl] at ht
          exact ⟨ht.1, Or.inl ⟨Or.inl ⟨_, rfl⟩, ht.2⟩⟩
        | abort e w1 =>
          rw [hfl] at ht
          obtain ⟨h1, ext, b, h2, h3, h4⟩ := ht
          exact ⟨h1, Or.inr ⟨⟨e, rfl⟩, ext, b, h2, h3, Or.inl h4⟩⟩
        | crash w1 =>
          rw [hfl] at ht
          exact ⟨ht.1, Or.inl ⟨Or.inr rfl, ht.2⟩⟩

theorem OpTrace.failure {α : Type} {route : String → String → Prop} {w : Net}
    {r : Outcome α × NetworkVideoContentService × Net} (h : OpTrace route w r)
    (ext : List Event) (hlog : r.2.2.log = w.log ++ ext)
    (hfail : ∃ ev ∈ ext, ev.ok = false) :
    (∃ e, r.1 = .ret none (some e)) ∧
      ∃ pre ev, ext = pre ++ [ev] ∧ ev.ok = false ∧ ∀ x ∈ pre, x.ok = true := by
  obtain ⟨ev, hev, hevf⟩ := hfail
  rcases h.2 with ⟨_, ext1, h2, h3⟩ | ⟨he, ext1, b, h2, h3, h4⟩
  · exfalso
    have : ext = ext1 := List.append_cancel_left (hlog.symm.trans h2)
    subst this
    have := h3.all_ok ev hev
    rw [hevf] at this
    exact absurd this (by decide)
  · have hx : ext = ext1 ++ b := List.append_cancel_left (hlog.symm.trans h2)
    subst hx
    refine ⟨he, ?_⟩
    rcases h4 with h4 | h4
    · obtain ⟨pre, last, hb, hl, hpre⟩ := h4.shape
      refine ⟨ext1 ++ pre, last, by rw [hb, List.append_assoc], hl, ?_⟩
      intro x hx
      rcases List.mem_append.mp hx with hx | hx
      · exact h3.all_ok x hx
      · exact hpre x hx
    · exfalso
      subst h4
      rw [List.append_nil] at hev
      have := h3.all_ok ev hev
      rw [hevf] at this
      exact absurd this (by decide)

/-- C4 (counterexample): the node 127.0.0.1:9001 holds cats/c and cats/e, both
of which move when 127.0.0.1:9002 is added; the ReadFile of the second chunk
fails after the first chunk has been fully migrated (k = 1). AddNode returns
the error and a nil response, not a response with count 1. -/
theorem AddNode_failure_no_count :
    (AddNode pinnedHash ringOf9001 faultyNet "127.0.0.1:9002").1
      = Outcome.ret none (some Error.transport) ∧
    (AddNode pinnedHash ringOf9001 faultyNet "127.0.0.1:9002").2.2.disks "127.0.0.1:9002"
      = [(("cats", "c"), [1])] ∧
    (AddNode pinnedHash ringOf9001 faultyNet "127.0.0.1:9002").2.2.disks "127.0.0.1:9001"
      = [(("cats", "e"), [2])] ∧
    (AddNode pinnedHash ringOf9001 faultyNet "127.0.0.1:9002").2.2.log
      = [⟨.ListFiles "127.0.0.1:9001", true⟩, ⟨.ReadFile "127.0.0.1:9001" "cats" "c", true⟩,
         ⟨.WriteFile "127.0.0.1:9002" "cats" "c" [1], true⟩,
         ⟨.DeleteFile "127.0.0.1:9001" "cats" "c", true⟩,
         ⟨.ReadFile "127.0.0.1:9001" "cats" "e", false⟩] := by
  refine ⟨by decide, by decide, by decide, by decide⟩

/-- C4 (amended): when some storage RPC of an AddNode or RemoveNode call fails,
that RPC is the last one the call issues, every RPC before it succeeded, and
the call returns the failure together with a nil response (no count). -/
theorem migration_failure_aborts (H : String → Nat) (n : NetworkVideoContentService)
    (w : Net) (A : String) :
    (∀ ext, (AddNode H n w A).2.2.log = w.log ++ ext → (∃ ev ∈ ext, ev.ok = false) →
      (∃ e, (AddNode H n w A).1 = .ret none (some e)) ∧
        ∃ pre ev, ext = pre ++ [ev] ∧ ev.ok = false ∧ ∀ x ∈ pre, x.ok = true) ∧
    (∀ ext, (RemoveNode H n w A).2.2.log = w.log ++ ext → (∃ ev ∈ ext, ev.ok = false) →
      (∃ e, (RemoveNode H n w A).1 = .ret none (some e)) ∧
        ∃ pre ev, ext = pre ++ [ev] ∧ ev.ok = false ∧ ∀ x ∈ pre, x.ok = true) := by
  refine ⟨fun ext h1 h2 => (AddNode_trace H n w A).failure ext h1 h2, fun ext h1 h2 => ?_⟩
  exact (RemoveNode_trace H n w A).failure ext h1 h2

/-- AddNode and RemoveNode on `faultyNet`: the fifth RPC fails and is the last one. -/
theorem migration_failure_aborts_witness :
    ((AddNode pinnedHash ringOf9001 faultyNet "127.0.0.1:9002").2.2.log
        = faultyNet.log ++ faultyLog ∧
      (∃ ev ∈ faultyLog, ev.ok = false) ∧
      (∃ e, (AddNode pinnedHash ringOf9001 faultyNet "127.0.0.1:9002").1
        = .ret none (some e))) ∧
    ((RemoveNode pinnedHash twoNodeRing faultyNet "127.0.0.1:9001").2.2.log
        = faultyNet.log ++ faultyLog ∧
      (∃ ev ∈ faultyLog, ev.ok = false) ∧
      (∃ e, (RemoveNode pinnedHash twoNodeRing faultyNet "127.0.0.1:9001").1
        = .ret none (some e))) :=
  ⟨⟨by decide, ⟨⟨.ReadFile "127.0.0.1:9001" "cats" "e", false⟩, by decide, rfl⟩,
      ((migration_failure_aborts pinnedHash ringOf9001 faultyNet "127.0.0.1:9002").1 faultyLog
        (by decide) ⟨⟨.ReadFile "127.0.0.1:9001" "cats" "e", false⟩, by decide, rfl⟩).1⟩,
    ⟨by decide, ⟨⟨.ReadFile "127.0.0.1:9001" "cats" "e", false⟩, by decide, rfl⟩,
      ((migration_failure_aborts pinnedHash twoNodeRing faultyNet "127.0.0.1:9001").2 faultyLog
        (by decide) ⟨⟨.ReadFile "127.0.0.1:9001" "cats" "e", false⟩, by decide, rfl⟩).1⟩⟩

/-! ### Splitting a listed name -/

theorem splitSlash_no_slash (cs : List Char) (h : '/' ∉ cs) : splitSlash cs = [cs] := by
  induction cs with
  | nil => rfl
  | cons c t ih =>
    have hc : c ≠ '/' := fun hc => h (by rw [hc]; exact List.mem_cons_self _ _)
    have ht : '/' ∉ t := fun ht => h (List.mem_cons_of_mem _ ht)
    simp [splitSlash, hc, ih ht]

theorem splitSlash_append (v f : List Char) (h : '/' ∉ v) :
    splitSlash (v ++ '/' :: f) = v :: splitSlash f := by
  induction v with
  | nil => simp [splitSlash]
  | cons c t ih =>
    have hc : c ≠ '/' := fun hc => h (by rw [hc]; exact List.mem_cons_self _ _)
    have ht : '/' ∉ t := fun ht => h (List.mem_cons_of_mem _ ht)
    simp [splitSlash, hc, ih ht]

theorem stringsSplit_name (v f : String) (hv : '/' ∉ v.data) (hf : '/' ∉ f.data) :
    stringsSplit (v ++ "/" ++ f) = [v, f] := by
  unfold stringsSplit
  have hd : (v ++ "/" ++ f).data = v.data ++ '/' :: f.data := by
    simp [String.data_append]
  rw [hd, splitSlash_append _ _ hv, splitSlash_no_slash _ hf]
  rfl

/-! ### Well-formed disks -/

theorem fsKeys_fsPut (k : ChunkKey) (d : Bytes) (s : Storage) :
    fsKeys (fsPut k d s) = fsKeys s := by
  induction s with
  | nil => rfl
  | cons e t ih =>
    obtain ⟨k1, d1⟩ := e
    unfold fsKeys at ih ⊢
    by_cases h1 : k1 = k
    · simp [fsPut, h1]
    · simp [fsPut, h1, ih]

theorem fsKeys_fsCreate_perm (k : ChunkKey) (d : Bytes) (s : Storage) :
    (fsKeys (fsCreate k d s)).Perm (k :: fsKeys s) := by
  induction s with
  | nil => exact List.Perm.refl _
  | cons e t ih =>
    obtain ⟨k1, d1⟩ := e
    unfold fsKeys at ih ⊢
    by_cases hlt : keyLt k k1 = true
    · simp [fsCreate, hlt]
    · simp only [fsCreate, hlt, Bool.false_eq_true, if_false, List.map_cons]
      exact (List.Perm.cons k1 ih).trans (List.Perm.swap k k1 _)

theorem DiskOK.fsWrite {s : Storage} (h : DiskOK s) (k : ChunkKey) (d : Bytes)
    (hk : pathSegment k.1 ∧ pathSegment k.2) : DiskOK (fsWrite s k d) := by
  unfold TritonTube.fsWrite
  by_cases hp : (fsRead s k).isSome = true
  · simp only [hp, if_true]
    unfold DiskOK
    rw [fsKeys_fsPut]
    exact h
  · simp only [hp]
    have hnk : k ∉ fsKeys s := fun hin => hp ((mem_fsKeys_iff s k).mp hin)
    have hperm := fsKeys_fsCreate_perm k d s
    refine ⟨hperm.nodup_iff.mpr (List.nodup_cons.mpr ⟨hnk, h.1⟩), ?_⟩
    intro k2 hk2
    rcases List.mem_cons.mp (hperm.mem_iff.mp hk2) with h2 | h2
    · rw [h2]; exact hk
    · exact h.2 k2 h2

theorem fsKeys_fsRemove (s : Storage) (k : ChunkKey) :
    fsKeys (fsRemove s k) = (fsKeys s).filter (fun x => decide (x ≠ k)) := by
  unfold fsKeys fsRemove
  rw [List.filter_map]
  rfl

theorem DiskOK.fsRemove {s : Storage} (h : DiskOK s) (k : ChunkKey) :
    DiskOK (fsRemove s k) := by
  unfold DiskOK
  rw [fsKeys_fsRemove]
  refine ⟨h.1.filter _, ?_⟩
  intro k2 hk2
  exact h.2 k2 (List.mem_of_mem_filter hk2)

theorem fsRead_of_mem (s : Storage) (hn : (fsKeys s).Nodup) (e : ChunkKey × Bytes)
    (he : e ∈ s) : fsRead s e.1 = some e.2 := by
  induction s with
  | nil => simp at he
  | cons x t ih =>
    obtain ⟨k1, d1⟩ := x
    unfold fsKeys at hn ih
    simp only [List.map_cons, List.nodup_cons] at hn
    rcases List.mem_cons.mp he with h | h
    · subst h; simp [fsRead]
    · have hne : k1 ≠ e.1 := by
        intro hk
        exact hn.1 (by rw [hk]; exact List.mem_map_of_mem _ h)
      simp only [fsRead, hne, if_false]
      exact ih hn.2 h

/-! ### The network after one migration -/

@[simp] theorem afterDelete_faults (w : Net) (s t v f : String) (d : Bytes) :
    (afterDelete w s t v f d).faults = w.faults := rfl

@[simp] theorem afterDelete_dialErr (w : Net) (s t v f : String) (d : Bytes) :
    (afterDelete w s t v f d).dialErr = w.dialErr := rfl

theorem afterDelete_log (w : Net) (s t v f : String) (d : Bytes) :
    (afterDelete w s t v f d).log
      = w.log ++ [⟨.ReadFile s v f, true⟩, ⟨.WriteFile t v f d, true⟩,
          ⟨.DeleteFile s v f, true⟩] := by
  simp [afterDelete, afterWrite, afterRead]

theorem afterDelete_disks_src (w : Net) (s t v f : String) (d : Bytes) (hst : s ≠ t) :
    (afterDelete w s t v f d).disks s = fsRemove (w.disks s) (v, f) := by
  simp [afterDelete, afterWrite, afterRead, hst]

theorem afterDelete_disks_dst (w : Net) (s t v f : String) (d : Bytes) (hst : s ≠ t) :
    (afterDelete w s t v f d).disks t = fsWrite (w.disks t) (v, f) d := by
  have : t ≠ s := fun h => hst h.symm
  simp [afterDelete, afterWrite, afterRead, this]

theorem afterDelete_disks_other (w : Net) (s t v f : String) (d : Bytes) (a : String)
    (has : a ≠ s) (hat : a ≠ t) :
    (afterDelete w s t v f d).disks a = w.disks a := by
  simp [afterDelete, afterWrite, afterRead, has, hat]

/-! ### AddNode without failures: one source node -/

theorem homeOf_eq_some (H : String → Nat) (n : NetworkVideoContentService) (k : ChunkKey)
    (a : String) :
    homeOf H n k = some a ↔ FindSuccessor H n (k.1 ++ "/" ++ k.2) = some ⟨a⟩ := by
  unfold homeOf
  cases FindSuccessor H n (k.1 ++ "/" ++ k.2) with
  | none => simp
  | some nd =>
    cases nd with
    | mk x => simp

theorem addNodeFiles_skip (H : String → Nat) (n : NetworkVideoContentService) (addr : String)
    (node : Node) (k : ChunkKey) (rest : List String) (moved : Nat) (w : Net)
    (hk : homeOf H n k ≠ some addr) :
    addNodeFiles H n addr node ((k.1 ++ "/" ++ k.2) :: rest) moved w
      = addNodeFiles H n addr node rest moved w := by
  rw [addNodeFiles]
  cases hs : FindSuccessor H n (k.1 ++ "/" ++ k.2) with
  | none => rfl
  | some succ =>
    have : succ.address ≠ addr := by
      intro h
      apply hk
      unfold homeOf
      rw [hs]
      simp [h]
    simp [this]

theorem addNodeFiles_move (H : String → Nat) (n : NetworkVideoContentService) (addr : String)
    (node : Node) (k : ChunkKey) (rest : List String) (moved : Nat) (w : Net)
    (hk : homeOf H n k = some addr) (hseg : pathSegment k.1 ∧ pathSegment k.2) :
    addNodeFiles H n addr node ((k.1 ++ "/" ++ k.2) :: rest) moved w
      = match migrate node ⟨addr⟩ k.1 k.2 w with
        | (some e, w1) => .abort e w1
        | (none, w1) => addNodeFiles H n addr node rest (moved + 1) w1 := by
  rw [addNodeFiles]
  rw [(homeOf_eq_some H n k addr).mp hk]
  simp only [ne_eq, not_true_eq_false, if_false]
  rw [stringsSplit_name k.1 k.2 hseg.1.2.2.2 hseg.2.2.2.2]

theorem addNodeFiles_reliable (H : String → Nat) (n : NetworkVideoContentService)
    (addr : String) (node : Node) (hne : node.address ≠ addr) :
    ∀ (l : Storage) (moved : Nat) (w : Net),
      w.reliable → (fsKeys l).Nodup →
      (∀ k ∈ fsKeys l, pathSegment k.1 ∧ pathSegment k.2) →
      (∀ e ∈ l, fsRead (w.disks node.address) e.1 = some e.2) →
      ∃ w1, addNodeFiles H n addr node (Server.ListFiles l) moved w
          = .next (moved + l.countP (fun e => decide (homeOf H n e.1 = some addr))) w1 ∧
        w1.reliable ∧ w1.dialErr = w.dialErr ∧
        (∀ a, a ≠ node.address → a ≠ addr → w1.disks a = w.disks a) ∧
        (∀ k, fsRead (w1.disks node.address) k
            = if homeOf H n k = some addr ∧ k ∈ fsKeys l then none
              else fsRead (w.disks node.address) k) ∧
        (∀ k, fsRead (w1.disks addr) k
            = if homeOf H n k = some addr ∧ k ∈ fsKeys l then fsRead (w.disks node.address) k
              else fsRead (w.disks addr) k) ∧
        (DiskOK (w.disks node.address) → DiskOK (w1.disks node.address)) ∧
        (DiskOK (w.disks addr) → DiskOK (w1.disks addr)) := by
  intro l
  induction l with
  | nil =>
    intro moved w hrel _ _ _
    exact ⟨w, by simp [Server.ListFiles, addNodeFiles], hrel, rfl, fun _ _ _ => rfl,
      by simp [fsKeys], by simp [fsKeys], id, id⟩
  | cons e rest ih =>
    intro moved w hrel hnd hseg hrd
    obtain ⟨k, d⟩ := e
    have hnd2 : k ∉ fsKeys rest ∧ (fsKeys rest).Nodup := by
      simpa [fsKeys] using hnd
    have hsegk : pathSegment k.1 ∧ pathSegment k.2 := hseg k (by simp [fsKeys])
    have hseg2 : ∀ k2 ∈ fsKeys rest, pathSegment k2.1 ∧ pathSegment k2.2 :=
      fun k2 h2 => hseg k2 (by simp only [fsKeys, List.map_cons, List.mem_cons]; exact Or.inr h2)
    have hkd : fsRead (w.disks node.address) k = some d := hrd (k, d) (List.mem_cons_self _ _)
    have hlist : Server.ListFiles ((k, d) :: rest)
        = (k.1 ++ "/" ++ k.2) :: Server.ListFiles rest := rfl
    have hmemk : ∀ k2, k2 ∈ fsKeys ((k, d) :: rest) ↔ k2 = k ∨ k2 ∈ fsKeys rest := by
      intro k2; simp [fsKeys]
    rw [hlist]
    by_cases hmv : homeOf H n k = some addr
    · rw [addNodeFiles_move H n addr node k _ moved w hmv hsegk,
        migrate_reliable node ⟨addr⟩ k.1 k.2 w d hrel hkd]
      simp only
      have hw1s := afterDelete_disks_src w node.address addr k.1 k.2 d hne
      have hw1t := afterDelete_disks_dst w node.address addr k.1 k.2 d hne
      have hw1o := afterDelete_disks_other w node.address addr k.1 k.2 d
      obtain ⟨w2, hrun, hrel2, hdial2, hoth2, hsrc2, hdst2, hoks2, hokd2⟩ :=
        ih (moved + 1) (afterDelete w node.address addr k.1 k.2 d) hrel hnd2.2 hseg2
          (by
            intro e he
            rw [hw1s, fsRead_fsRemove]
            have : e.1 ≠ k := by
              intro h
              apply hnd2.1
              rw [← h]
              exact List.mem_map_of_mem _ he
            simp only [this, if_false]
            exact hrd e (List.mem_cons_of_mem _ he))
      refine ⟨w2, ?_, hrel2, hdial2, ?_, ?_, ?_, ?_, ?_⟩
      · rw [hrun]
        simp [List.countP_cons, hmv]
        omega
      · intro a h1 h2
        rw [hoth2 a h1 h2, hw1o a h1 h2]
      · intro k2
        rw [hsrc2 k2, hw1s, fsRead_fsRemove]
        by_cases hk2 : k2 = k
        · subst hk2
          simp [hmemk, hmv]
        · simp [hmemk, hk2]
      · intro k2
        rw [hdst2 k2, hw1s, hw1t, fsRead_fsRemove, fsRead_fsWrite]
        by_cases hk2 : k2 = k
        · subst hk2
          simp [hmemk, hmv, hnd2.1, hkd]
        · simp [hmemk, hk2]
      · intro hok
        apply hoks2
        rw [hw1s]
        exact hok.fsRemove _
      · intro hok
        apply hokd2
        rw [hw1t]
        exact hok.fsWrite _ _ hsegk
    · rw [addNodeFiles_skip H n addr node k _ moved w hmv]
      obtain ⟨w2, hrun, hrel2, hdial2, hoth2, hsrc2, hdst2, hoks2, hokd2⟩ :=
        ih moved w hrel hnd2.2 hseg2 (fun e he => hrd e (List.mem_cons_of_mem _ he))
      refine ⟨w2, ?_, hrel2, hdial2, hoth2, ?_, ?_, hoks2, hokd2⟩
      · rw [hrun]
        simp [List.countP_cons, hmv]
      · intro k2
        rw [hsrc2 k2]
        by_cases hk2 : k2 = k
        · subst hk2
          simp [hmv]
        · simp [hmemk, hk2]
      · intro k2
        rw [hdst2 k2]
        by_cases hk2 : k2 = k
        · subst hk2
          simp [hmv]
        · simp [hmemk, hk2]

/-! ### AddNode without failures: all source nodes -/

theorem movingCount_congr (H : String → Nat) (n : NetworkVideoContentService) (addr : String)
    (d1 d2 : String → Storage) :
    ∀ ps : List Nat, (∀ a, isSource H n addr ps a → d1 a = d2 a) →
      movingCount H n addr d1 ps = movingCount H n addr d2 ps := by
  intro ps
  induction ps with
  | nil => intro _; rfl
  | cons p rest ih =>
    intro h
    have hrest : movingCount H n addr d1 rest = movingCount H n addr d2 rest :=
      ih (fun a ⟨q, hq, h1, h2⟩ => h a ⟨q, List.mem_cons_of_mem _ hq, h1, h2⟩)
    unfold movingCount
    rw [hrest]
    by_cases hp : p = H addr
    · simp [hp]
    · cases hm : n.hashMap p with
      | none => simp [hp]
      | some nd =>
        have := h nd.address ⟨p, List.mem_cons_self _ _, hp, hm⟩
        simp [hp, this]

theorem clientListFiles_reliable (a : String) (w : Net) (hrel : w.reliable) :
    clientListFiles a w
      = (.ok (Server.ListFiles (w.disks a)), w.stamp (.ListFiles a) true) := by
  simp [clientListFiles, hrel w.log.length]

theorem addNodeRing_reliable (H : String → Nat) (n : NetworkVideoContentService)
    (addr : String) :
    ∀ (ps : List Nat) (moved : Nat) (w : Net),
      w.reliable → ps.Nodup →
      (∀ p ∈ ps, p ≠ H addr → ∃ nd, n.hashMap p = some nd ∧ H nd.address = p) →
      (∀ a, DiskOK (w.disks a)) →
      ∃ w1, addNodeRing H n addr (H addr) ps moved w
          = .next (moved + movingCount H n addr w.disks ps) w1 ∧
        w1.reliable ∧ w1.dialErr = w.dialErr ∧ (∀ a, DiskOK (w1.disks a)) ∧
        (∀ a, ¬ isSource H n addr ps a → a ≠ addr → w1.disks a = w.disks a) ∧
        (∀ a, isSource H n addr ps a → ∀ k, fsRead (w1.disks a) k
            = if homeOf H n k = some addr then none else fsRead (w.disks a) k) ∧
        (∀ k, (homeOf H n k ≠ some addr ∨
              ∀ a, isSource H n addr ps a → fsRead (w.disks a) k = none) →
            fsRead (w1.disks addr) k = fsRead (w.disks addr) k) ∧
        (∀ k a d, homeOf H n k = some addr → isSource H n addr ps a →
            fsRead (w.disks a) k = some d →
            (∀ b, isSource H n addr ps b → b ≠ a → fsRead (w.disks b) k = none) →
            fsRead (w1.disks addr) k = some d) := by
  intro ps
  induction ps with
  | nil =>
    intro moved w hrel _ _ hok
    refine ⟨w, rfl, hrel, rfl, hok, fun _ _ _ => rfl, ?_, fun _ _ => rfl, ?_⟩
    · rintro a ⟨p, hp, _⟩; simp at hp
    · rintro k a d _ ⟨p, hp, _⟩; simp at hp
  | cons p rest ih =>
    intro moved w hrel hnd hreg hok
    have hnd2 := List.nodup_cons.mp hnd
    have hreg2 : ∀ q ∈ rest, q ≠ H addr → ∃ nd, n.hashMap q = some nd ∧ H nd.address = q :=
      fun q hq => hreg q (List.mem_cons_of_mem _ hq)
    have hsrcH : ∀ (qs : List Nat), (∀ q ∈ qs, q ≠ H addr →
        ∃ nd, n.hashMap q = some nd ∧ H nd.address = q) →
        ∀ a, isSource H n addr qs a → H a ∈ qs ∧ a ≠ addr := by
      rintro qs hq a ⟨q, hqm, hqne, hqa⟩
      obtain ⟨nd, h1, h2⟩ := hq q hqm hqne
      rw [hqa] at h1
      cases h1
      exact ⟨by rw [h2]; exact hqm, fun h => hqne (by rw [← h2, h])⟩
    rw [addNodeRing]
    by_cases hp : p = H addr
    · rw [if_pos hp]
      have hiff : ∀ a, isSource H n addr (p :: rest) a ↔ isSource H n addr rest a := by
        intro a
        constructor
        · rintro ⟨q, hq, h1, h2⟩
          rcases List.mem_cons.mp hq with h | h
          · exact absurd (h.trans hp) h1
          · exact ⟨q, h, h1, h2⟩
        · rintro ⟨q, hq, h1, h2⟩
          exact ⟨q, List.mem_cons_of_mem _ hq, h1, h2⟩
      obtain ⟨w1, h1, h2, h3, h4, h5, h6, h7, h8⟩ := ih moved w hrel hnd2.2 hreg2 hok
      refine ⟨w1, ?_, h2, h3, h4, ?_, ?_, ?_, ?_⟩
      · rw [h1]; simp [movingCount, hp]
      · intro a ha; exact h5 a (fun h => ha ((hiff a).mpr h))
      · intro a ha; exact h6 a ((hiff a).mp ha)
      · intro k hk
        apply h7 k
        rcases hk with hk | hk
        · exact Or.inl hk
        · exact Or.inr (fun a ha => hk a ((hiff a).mpr ha))
      · intro k a d hk ha hd hoth
        exact h8 k a d hk ((hiff a).mp ha) hd
          (fun b hb => hoth b ((hiff b).mpr hb))
    · rw [if_neg hp]
      obtain ⟨nd, hm, hH⟩ := hreg p (List.mem_cons_self _ _) hp
      rw [hm]
      simp only
      have hne : nd.address ≠ addr := fun h => hp (by rw [← hH, h])
      rw [clientListFiles_reliable nd.address w hrel]
      simp only
      obtain ⟨wA, hA1, hA2, hA3, hA4, hA5, hA6, hA7, hA8⟩ :=
        addNodeFiles_reliable H n addr nd hne (w.disks nd.address) moved
          (w.stamp (.ListFiles nd.address) true) hrel (hok nd.address).1 (hok nd.address).2
          (fun e he => fsRead_of_mem _ (hok nd.address).1 e he)
      simp only [Net.stamp_disks] at hA4 hA5 hA6 hA7 hA8
      rw [hA1]
      simp only
      have hokA : ∀ a, DiskOK (wA.disks a) := by
        intro a
        by_cases h1 : a = nd.address
        · rw [h1]; exact hA7 (hok _)
        · by_cases h2 : a = addr
          · rw [h2]; exact hA8 (hok _)
          · rw [hA4 a h1 h2]; exact hok a
      obtain ⟨w1, h1, h2, h3, h4, h5, h6, h7, h8⟩ :=
        ih (moved + List.countP (fun e => decide (homeOf H n e.1 = some addr))
          (w.disks nd.address)) wA hA2 hnd2.2 hreg2 hokA
      have hiff : ∀ a, isSource H n addr (p :: rest) a ↔
          a = nd.address ∨ isSource H n addr rest a := by
        intro a
        constructor
        · rintro ⟨q, hq, hq1, hq2⟩
          rcases List.mem_cons.mp hq with h | h
          · left
            rw [h, hm] at hq2
            cases hq2
            rfl
          · exact Or.inr ⟨q, h, hq1, hq2⟩
        · rintro (h | ⟨q, hq, hq1, hq2⟩)
          · exact ⟨p, List.mem_cons_self _ _, hp, by rw [hm, h]⟩
          · exact ⟨q, List.mem_cons_of_mem _ hq, hq1, hq2⟩
      have hnd0 : ¬ isSource H n addr rest nd.address := by
        intro h
        have := (hsrcH rest hreg2 _ h).1
        rw [hH] at this
        exact hnd2.1 this
      have hrestA : ∀ a, isSource H n addr rest a → wA.disks a = w.disks a := by
        intro a ha
        have ha2 := hsrcH rest hreg2 a ha
        apply hA4 a _ ha2.2
        intro h
        rw [h] at ha
        exact hnd0 ha
      refine ⟨w1, ?_, h2, h3.trans hA3, h4, ?_, ?_, ?_, ?_⟩
      · rw [h1, movingCount_congr H n addr wA.disks w.disks rest hrestA]
        simp [movingCount, hp, hm]
        omega
      · intro a ha hna
        have h1 : a ≠ nd.address := fun h => ha ((hiff a).mpr (Or.inl h))
        have h2 : ¬ isSource H n addr rest a := fun h => ha ((hiff a).mpr (Or.inr h))
        rw [h5 a h2 hna, hA4 a h1 hna]
      · intro a ha k
        rcases (hiff a).mp ha with h | h
        · rw [h, h5 _ hnd0 hne, hA5 k]
          by_cases hk : homeOf H n k = some addr
          · by_cases hkm : k ∈ fsKeys (w.disks nd.address)
            · simp [hk, hkm]
            · have : fsRead (w.disks nd.address) k = none := by
                cases hr : fsRead (w.disks nd.address) k with
                | none => rfl
                | some x =>
                  exact absurd ((mem_fsKeys_iff _ k).mpr (by rw [hr]; rfl)) hkm
              simp [hk, hkm, this]
          · simp [hk]
        · rw [h6 a h k, hrestA a h]
      · intro k hk
        have hcond : homeOf H n k ≠ some addr ∨
            ∀ a, isSource H n addr rest a → fsRead (wA.disks a) k = none := by
          rcases hk with hk | hk
          · exact Or.inl hk
          · right
            intro a ha
            rw [hrestA a ha]
            exact hk a ((hiff a).mpr (Or.inr ha))
        rw [h7 k hcond, hA6 k]
        have : ¬ (homeOf H n k = some addr ∧ k ∈ fsKeys (w.disks nd.address)) := by
          rintro ⟨hk1, hk2⟩
          rcases hk with hk | hk
          · exact hk hk1
          · have := hk nd.address ((hiff _).mpr (Or.inl rfl))
            have h2 := (mem_fsKeys_iff _ k).mp hk2
            rw [this] at h2
            simp at h2
        simp only [this, if_false]
      · intro k a d hk ha hd hoth
        rcases (hiff a).mp ha with h | h
        · have hcond : homeOf H n k ≠ some addr ∨
              ∀ b, isSource H n addr rest b → fsRead (wA.disks b) k = none := by
            right
            intro b hb
            rw [hrestA b hb]
            apply hoth b ((hiff b).mpr (Or.inr hb))
            intro hba
            rw [hba, h] at hb
            exact hnd0 hb
          rw [h7 k hcond, hA6 k]
          rw [h] at hd
          have hkm : k ∈ fsKeys (w.disks nd.address) :=
            (mem_fsKeys_iff _ k).mpr (by rw [hd]; rfl)
          simp [hk, hkm, hd]
        · apply h8 k a d hk h
          · rw [hrestA a h]; exact hd
          · intro b hb hba
            rw [hrestA b hb]
            exact hoth b ((hiff b).mpr (Or.inr hb)) hba

/-! ### The ring after an insertion -/

theorem ringInsert_perm (H : String → Nat) (n : NetworkVideoContentService) (A : String) :
    (ringInsert H n A).hashRing.Perm (H A :: n.hashRing) := by
  show (slicesSort (n.hashRing ++ [H A])).Perm _
  unfold slicesSort
  exact (List.perm_insertionSort _ _).trans (List.perm_append_singleton _ _)

theorem ringInsert_mem (H : String → Nat) (n : NetworkVideoContentService) (A : String)
    (p : Nat) : p ∈ (ringInsert H n A).hashRing ↔ p = H A ∨ p ∈ n.hashRing := by
  rw [(ringInsert_perm H n A).mem_iff]
  simp

theorem ringInsert_nodup (H : String → Nat) (n : NetworkVideoContentService) (A : String)
    (hs : n.hashRing.Sorted (· < ·)) (hA : H A ∉ n.hashRing) :
    (ringInsert H n A).hashRing.Nodup :=
  (ringInsert_perm H n A).nodup_iff.mpr
    (List.nodup_cons.mpr ⟨hA, sorted_lt_nodup _ hs⟩)

theorem ringInsert_sorted (H : String → Nat) (n : NetworkVideoContentService) (A : String)
    (hs : n.hashRing.Sorted (· < ·)) (hA : H A ∉ n.hashRing) :
    (ringInsert H n A).hashRing.Sorted (· < ·) := by
  have hle : (ringInsert H n A).hashRing.Sorted (· ≤ ·) := by
    show (slicesSort (n.hashRing ++ [H A])).Sorted _
    unfold slicesSort
    exact List.sorted_insertionSort _ _
  have hnd := ringInsert_nodup H n A hs hA
  exact List.Sorted.lt_of_le hle hnd

theorem ringInsert_registered (H : String → Nat) (n : NetworkVideoContentService) (A : String)
    (hreg : Registered H n) : Registered H (ringInsert H n A) := by
  intro p hp
  rcases (ringInsert_mem H n A p).mp hp with h | h
  · simp [ringInsert, h]
  · by_cases hpa : p = H A
    · simp [ringInsert, hpa]
    · have := hreg p h
      simpa [ringInsert, hpa] using this

theorem toInt32_of_lt (x : Nat) (h : x < 2 ^ 31) : toInt32 x = (x : Int) := by
  unfold toInt32
  have : (x + 2 ^ 31) % 2 ^ 32 = x + 2 ^ 31 := Nat.mod_eq_of_lt (by omega)
  rw [this]
  push_cast
  ring

theorem movingCount_perm (H : String → Nat) (n : NetworkVideoContentService) (addr : String)
    (disks : String → Storage) {l1 l2 : List Nat} (h : l1.Perm l2) :
    movingCount H n addr disks l1 = movingCount H n addr disks l2 := by
  induction h with
  | nil => rfl
  | cons x _ ih => simp [movingCount, ih]
  | swap x y l => simp [movingCount]; omega
  | trans _ _ ih1 ih2 => exact ih1.trans ih2

theorem movingCount_le_stored (H : String → Nat) (n n1 : NetworkVideoContentService)
    (addr : String) (disks : String → Storage) :
    ∀ ps : List Nat, (∀ p ∈ ps, n1.hashMap p = n.hashMap p) →
      movingCount H n1 addr disks ps ≤ storedCount n disks ps := by
  intro ps
  induction ps with
  | nil => intro _; exact Nat.le_refl _
  | cons p rest ih =>
    intro h
    have ih2 := ih (fun q hq => h q (List.mem_cons_of_mem _ hq))
    unfold movingCount storedCount
    rw [h p (List.mem_cons_self _ _)]
    by_cases hp : p = H addr
    · simp only [hp, if_true]
      omega
    · simp only [hp, if_false]
      cases n.hashMap p with
      | none => simpa using ih2
      | some nd =>
        simp only
        have : List.countP (fun e => decide (homeOf H n1 e.1 = some addr)) (disks nd.address)
            ≤ (disks nd.address).length := List.countP_le_length _
        omega

theorem probe_of_not_mem (ring : List Nat) (k : Nat) (hk : k ∉ ring) :
    ¬ (probe ring k < ring.length ∧ ring.getD (probe ring k) 0 = k) := by
  rintro ⟨h1, h2⟩
  apply hk
  rw [← h2, List.getD_eq_getElem ring 0 h1]
  exact List.getElem_mem _

/-! ### AddNode: count and placement of the migrated chunks -/

theorem isSource_ringInsert (H : String → Nat) (n : NetworkVideoContentService) (A a : String)
    (hA : H A ∉ n.hashRing) :
    isSource H (ringInsert H n A) A (ringInsert H n A).hashRing a ↔
      ∃ p ∈ n.hashRing, n.hashMap p = some ⟨a⟩ := by
  constructor
  · rintro ⟨p, hp, hne, hm⟩
    rcases (ringInsert_mem H n A p).mp hp with h | h
    · exact absurd h hne
    · exact ⟨p, h, by simpa [ringInsert, hne] using hm⟩
  · rintro ⟨p, hp, hm⟩
    have hne : p ≠ H A := fun h => hA (h ▸ hp)
    exact ⟨p, (ringInsert_mem H n A p).mpr (Or.inr hp), hne, by simpa [ringInsert, hne] using hm⟩

/-- C5: on a strictly ascending ring whose positions carry their handles, with
well-formed disks, no chunk name on two ring nodes, fewer than 2^31 stored
chunks and nothing failing, AddNode of an address A whose position is not in
the ring returns as count the number of chunks on the old ring nodes whose
home under the ring with H(A) inserted is A; each of those chunks is afterwards
on A with its bytes and gone from its source, every other chunk of a ring node
stays where it was, what A held under other names stays, and no other disk
changes. -/
theorem AddNode_migration_count (H : String → Nat) (n : NetworkVideoContentService)
    (w : Net) (A : String)
    (hs : n.hashRing.Sorted (· < ·)) (hreg : Registered H n) (hA : H A ∉ n.hashRing)
    (hdial : w.dialErr A = false) (hrel : w.reliable) (hok : ∀ a, DiskOK (w.disks a))
    (hone : SingleHome n w.disks)
    (hcount : storedCount n w.disks n.hashRing < 2 ^ 31) :
    ∃ w1, AddNode H n w A
        = (.ret (some ⟨(movingCount H (ringInsert H n A) A w.disks n.hashRing : Nat)⟩) none,
            ringInsert H n A, w1) ∧
      (∀ p ∈ n.hashRing, ∀ k d, fsRead (w.disks (addrAt n p)) k = some d →
        homeOf H (ringInsert H n A) k = some A →
        fsRead (w1.disks A) k = some d ∧ fsRead (w1.disks (addrAt n p)) k = none) ∧
      (∀ p ∈ n.hashRing, ∀ k, homeOf H (ringInsert H n A) k ≠ some A →
        fsRead (w1.disks (addrAt n p)) k = fsRead (w.disks (addrAt n p)) k) ∧
      (∀ k, (homeOf H (ringInsert H n A) k ≠ some A ∨
          ∀ p ∈ n.hashRing, fsRead (w.disks (addrAt n p)) k = none) →
        fsRead (w1.disks A) k = fsRead (w.disks A) k) ∧
      (∀ a, (∀ p ∈ n.hashRing, addrAt n p ≠ a) → a ≠ A → w1.disks a = w.disks a) := by
  have haddr : ∀ p ∈ n.hashRing, n.hashMap p = some ⟨addrAt n p⟩ := by
    intro p hp
    obtain ⟨nd, h1, _⟩ := hreg.handle hp
    simp [addrAt, h1]
  have hsrc : ∀ a, isSource H (ringInsert H n A) A (ringInsert H n A).hashRing a ↔
      ∃ p ∈ n.hashRing, addrAt n p = a := by
    intro a
    rw [isSource_ringInsert H n A a hA]
    constructor
    · rintro ⟨p, hp, hm⟩
      exact ⟨p, hp, by simp [addrAt, hm]⟩
    · rintro ⟨p, hp, rfl⟩
      exact ⟨p, hp, haddr p hp⟩
  obtain ⟨w1, h1, _, _, _, h5, h6, h7, h8⟩ :=
    addNodeRing_reliable H (ringInsert H n A) A (ringInsert H n A).hashRing 0 w hrel
      (ringInsert_nodup H n A hs hA)
      (fun p hp _ => (ringInsert_registered H n A hreg).handle hp) hok
  have hcnt : movingCount H (ringInsert H n A) A w.disks (ringInsert H n A).hashRing
      = movingCount H (ringInsert H n A) A w.disks n.hashRing := by
    rw [movingCount_perm H _ A w.disks (ringInsert_perm H n A)]
    simp [movingCount]
  have hle := movingCount_le_stored H n (ringInsert H n A) A w.disks n.hashRing
    (fun p hp => by
      have hne : p ≠ H A := fun h => hA (h ▸ hp)
      simp [ringInsert, hne])
  refine ⟨w1, ?_, ?_, ?_, ?_, ?_⟩
  · unfold AddNode
    simp only [probe_of_not_mem n.hashRing (H A) hA, if_false, hdial, Bool.false_eq_true]
    rw [h1, hcnt]
    simp only [Nat.zero_add]
    rw [toInt32_of_lt _ (by omega)]
  · intro p hp k d hd hk
    have hsp := (hsrc (addrAt n p)).mpr ⟨p, hp, rfl⟩
    refine ⟨h8 k (addrAt n p) d hk hsp hd ?_, by rw [h6 _ hsp k]; simp [hk]⟩
    intro b hb hba
    obtain ⟨q, hq, rfl⟩ := (hsrc b).mp hb
    have hpq : p ≠ q := fun h => hba (by rw [h])
    have hkp : k ∈ fsKeys (w.disks (addrAt n p)) :=
      (mem_fsKeys_iff _ k).mpr (by rw [hd]; rfl)
    have := hone p hp q hq hpq k hkp
    cases hr : fsRead (w.disks (addrAt n q)) k with
    | none => rfl
    | some x => exact absurd ((mem_fsKeys_iff _ k).mpr (by rw [hr]; rfl)) this
  · intro p hp k hk
    have hsp := (hsrc (addrAt n p)).mpr ⟨p, hp, rfl⟩
    rw [h6 _ hsp k]
    simp [hk]
  · intro k hk
    apply h7 k
    rcases hk with hk | hk
    · exact Or.inl hk
    · right
      intro a ha
      obtain ⟨p, hp, rfl⟩ := (hsrc a).mp ha
      exact hk p hp
  · intro a ha hna
    apply h5 a _ hna
    intro hsa
    obtain ⟨p, hp, h⟩ := (hsrc a).mp hsa
    exact ha p hp h

/-! ### RemoveNode without failures -/

theorem homeOf_eq_none (H : String → Nat) (n : NetworkVideoContentService) (k : ChunkKey) :
    homeOf H n k = none ↔ FindSuccessor H n (k.1 ++ "/" ++ k.2) = none := by
  unfold homeOf
  cases FindSuccessor H n (k.1 ++ "/" ++ k.2) <;> simp

theorem removeNodeFiles_skip (H : String → Nat) (n : NetworkVideoContentService)
    (node : Node) (k : ChunkKey) (rest : List String) (moved : Nat) (w : Net)
    (hk : homeOf H n k = none) (hseg : pathSegment k.1 ∧ pathSegment k.2) :
    removeNodeFiles H n node ((k.1 ++ "/" ++ k.2) :: rest) moved w
      = removeNodeFiles H n node rest moved w := by
  rw [removeNodeFiles, stringsSplit_name k.1 k.2 hseg.1.2.2.2 hseg.2.2.2.2]
  simp only
  rw [(homeOf_eq_none H n k).mp hk]

theorem removeNodeFiles_move (H : String → Nat) (n : NetworkVideoContentService)
    (node : Node) (k : ChunkKey) (rest : List String) (moved : Nat) (w : Net) (t : String)
    (hk : homeOf H n k = some t) (hseg : pathSegment k.1 ∧ pathSegment k.2) :
    removeNodeFiles H n node ((k.1 ++ "/" ++ k.2) :: rest) moved w
      = match migrate node ⟨t⟩ k.1 k.2 w with
        | (some e, w1) => .abort e w1
        | (none, w1) => removeNodeFiles H n node rest (moved + 1) w1 := by
  rw [removeNodeFiles, stringsSplit_name k.1 k.2 hseg.1.2.2.2 hseg.2.2.2.2]
  simp only
  rw [(homeOf_eq_some H n k t).mp hk]

theorem removeNodeFiles_reliable (H : String → Nat) (n : NetworkVideoContentService)
    (node : Node) (hdst : ∀ k, homeOf H n k ≠ some node.address) :
    ∀ (l : Storage) (moved : Nat) (w : Net),
      w.reliable → (fsKeys l).Nodup →
      (∀ k ∈ fsKeys l, pathSegment k.1 ∧ pathSegment k.2) →
      (∀ e ∈ l, fsRead (w.disks node.address) e.1 = some e.2) →
      (∀ a, DiskOK (w.disks a)) →
      ∃ w1, removeNodeFiles H n node (Server.ListFiles l) moved w
          = .next (moved + l.countP (fun e => (homeOf H n e.1).isSome)) w1 ∧
        w1.reliable ∧ w1.dialErr = w.dialErr ∧ (∀ a, DiskOK (w1.disks a)) ∧
        (∀ k, fsRead (w1.disks node.address) k
            = if (homeOf H n k).isSome = true ∧ k ∈ fsKeys l then none
              else fsRead (w.disks node.address) k) ∧
        (∀ a, a ≠ node.address → ∀ k, fsRead (w1.disks a) k
            = if homeOf H n k = some a ∧ k ∈ fsKeys l then fsRead (w.disks node.address) k
              else fsRead (w.disks a) k) := by
  intro l
  induction l with
  | nil =>
    intro moved w hrel _ _ _ hok
    exact ⟨w, by simp [Server.ListFiles, removeNodeFiles], hrel, rfl, hok,
      by simp [fsKeys], by simp [fsKeys]⟩
  | cons e rest ih =>
    intro moved w hrel hnd hseg hrd hok
    obtain ⟨k, d⟩ := e
    have hnd2 : k ∉ fsKeys rest ∧ (fsKeys rest).Nodup := by
      simpa [fsKeys] using hnd
    have hsegk : pathSegment k.1 ∧ pathSegment k.2 := hseg k (by simp [fsKeys])
    have hseg2 : ∀ k2 ∈ fsKeys rest, pathSegment k2.1 ∧ pathSegment k2.2 :=
      fun k2 h2 => hseg k2 (by simp only [fsKeys, List.map_cons, List.mem_cons]; exact Or.inr h2)
    have hkd : fsRead (w.disks node.address) k = some d := hrd (k, d) (List.mem_cons_self _ _)
    have hlist : Server.ListFiles ((k, d) :: rest)
        = (k.1 ++ "/" ++ k.2) :: Server.ListFiles rest := rfl
    have hmemk : ∀ k2, k2 ∈ fsKeys ((k, d) :: rest) ↔ k2 = k ∨ k2 ∈ fsKeys rest := by
      intro k2; simp [fsKeys]
    rw [hlist]
    cases hmv : homeOf H n k with
    | some t =>
      have hst : node.address ≠ t := fun h => hdst k (by rw [hmv, h])
      rw [removeNodeFiles_move H n node k _ moved w t hmv hsegk,
        migrate_reliable node ⟨t⟩ k.1 k.2 w d hrel hkd]
      simp only
      have hw1s := afterDelete_disks_src w node.address t k.1 k.2 d hst
      have hw1t := afterDelete_disks_dst w node.address t k.1 k.2 d hst
      have hw1o := afterDelete_disks_other w node.address t k.1 k.2 d
      have hokX : ∀ a, DiskOK ((afterDelete w node.address t k.1 k.2 d).disks a) := by
        intro a
        by_cases h1 : a = node.address
        · rw [h1, hw1s]; exact (hok _).fsRemove _
        · by_cases h2 : a = t
          · rw [h2, hw1t]; exact (hok _).fsWrite _ _ hsegk
          · rw [hw1o a h1 h2]; exact hok a
      obtain ⟨w2, hrun, hrel2, hdial2, hok2, hsrc2, hdst2⟩ :=
        ih (moved + 1) (afterDelete w node.address t k.1 k.2 d) hrel hnd2.2 hseg2
          (by
            intro e he
            rw [hw1s, fsRead_fsRemove]
            have : e.1 ≠ k := by
              intro h
              apply hnd2.1
              rw [← h]
              exact List.mem_map_of_mem _ he
            simp only [this, if_false]
            exact hrd e (List.mem_cons_of_mem _ he)) hokX
      refine ⟨w2, ?_, hrel2, hdial2, hok2, ?_, ?_⟩
      · rw [hrun]
        simp [List.countP_cons, hmv]
        omega
      · intro k2
        rw [hsrc2 k2, hw1s, fsRead_fsRemove]
        by_cases hk2 : k2 = k
        · subst hk2
          simp [hmemk, hmv]
        · simp [hmemk, hk2]
      · intro a ha k2
        rw [hdst2 a ha k2, hw1s, fsRead_fsRemove]
        by_cases hk2 : k2 = k
        · subst hk2
          by_cases hat : a = t
          · subst hat
            simp [hmemk, hmv, hnd2.1, hkd, hw1t, fsRead_fsWrite]
          · have : ¬ t = a := fun h => hat h.symm
            simp [hmemk, hmv, hnd2.1, hw1o a ha hat, this]
        · by_cases hat : a = t
          · subst hat
            simp [hmemk, hk2, hw1t, fsRead_fsWrite]
          · simp [hmemk, hk2, hw1o a ha hat]
    | none =>
      rw [removeNodeFiles_skip H n node k _ moved w hmv hsegk]
      obtain ⟨w2, hrun, hrel2, hdial2, hok2, hsrc2, hdst2⟩ :=
        ih moved w hrel hnd2.2 hseg2 (fun e he => hrd e (List.mem_cons_of_mem _ he)) hok
      refine ⟨w2, ?_, hrel2, hdial2, hok2, ?_, ?_⟩
      · rw [hrun]
        simp [List.countP_cons, hmv]
      · intro k2
        rw [hsrc2 k2]
        by_cases hk2 : k2 = k
        · subst hk2
          simp [hmv]
        · simp [hmemk, hk2]
      · intro a ha k2
        rw [hdst2 a ha k2]
        by_cases hk2 : k2 = k
        · subst hk2
          simp [hmv]
        · simp [hmemk, hk2]

theorem removeNodeFiles_no_home (H : String → Nat) (n : NetworkVideoContentService)
    (node : Node) (hnone : ∀ k, homeOf H n k = none) :
    ∀ (l : Storage) (moved : Nat) (w : Net),
      (∀ k ∈ fsKeys l, pathSegment k.1 ∧ pathSegment k.2) →
      removeNodeFiles H n node (Server.ListFiles l) moved w = .next moved w := by
  intro l
  induction l with
  | nil => intro moved w _; simp [Server.ListFiles, removeNodeFiles]
  | cons e rest ih =>
    intro moved w hseg
    obtain ⟨k, d⟩ := e
    have hlist : Server.ListFiles ((k, d) :: rest)
        = (k.1 ++ "/" ++ k.2) :: Server.ListFiles rest := rfl
    rw [hlist, removeNodeFiles_skip H n node k _ moved w (hnone k) (hseg k (by simp [fsKeys]))]
    exact ih moved w (fun k2 h2 =>
      hseg k2 (by simp only [fsKeys, List.map_cons, List.mem_cons]; exact Or.inr h2))

/-! ### The ring after a deletion -/

theorem ringDelete_hashRing (H : String → Nat) (n : NetworkVideoContentService) (A : String)
    (hs : n.hashRing.Sorted (· < ·)) (hin : H A ∈ n.hashRing) :
    (ringDelete n (probe n.hashRing (H A)) (H A)).hashRing = n.hashRing.erase (H A) := by
  obtain ⟨h1, h2⟩ := probe_of_mem n.hashRing (H A) hs hin
  show slicesDelete n.hashRing _ = _
  unfold slicesDelete
  rw [eraseIdx_eq_erase_getD _ (sorted_lt_nodup _ hs) _ h1, h2]

theorem mem_ringDelete (H : String → Nat) (n : NetworkVideoContentService) (A : String)
    (hs : n.hashRing.Sorted (· < ·)) (hin : H A ∈ n.hashRing) (p : Nat) :
    p ∈ (ringDelete n (probe n.hashRing (H A)) (H A)).hashRing ↔
      p ∈ n.hashRing ∧ p ≠ H A := by
  rw [ringDelete_hashRing H n A hs hin]
  exact (sorted_lt_nodup _ hs).mem_erase_iff.trans (and_comm)

theorem ringDelete_sorted (H : String → Nat) (n : NetworkVideoContentService) (A : String)
    (hs : n.hashRing.Sorted (· < ·)) (hin : H A ∈ n.hashRing) :
    (ringDelete n (probe n.hashRing (H A)) (H A)).hashRing.Sorted (· < ·) := by
  rw [ringDelete_hashRing H n A hs hin]
  exact hs.sublist (List.erase_sublist _ _)

theorem ringDelete_registered (H : String → Nat) (n : NetworkVideoContentService) (A : String)
    (hs : n.hashRing.Sorted (· < ·)) (hin : H A ∈ n.hashRing) (hreg : Registered H n) :
    Registered H (ringDelete n (probe n.hashRing (H A)) (H A)) := by
  intro p hp
  obtain ⟨h1, h2⟩ := (mem_ringDelete H n A hs hin p).mp hp
  have := hreg p h1
  simpa [ringDelete, h2] using this

theorem homeOf_registered (H : String → Nat) (n : NetworkVideoContentService) (k : ChunkKey)
    (hs : n.hashRing.Sorted (· < ·)) (hreg : Registered H n) (a : String)
    (h : homeOf H n k = some a) : H a ∈ n.hashRing ∧ n.hashMap (H a) = some ⟨a⟩ := by
  have hne : n.hashRing ≠ [] := by
    intro he
    have : FindSuccessor H n (k.1 ++ "/" ++ k.2) = none := by simp [FindSuccessor, he]
    rw [(homeOf_eq_none H n k).mpr this] at h
    cases h
  obtain ⟨p, nd, hp, hm, hh, hf⟩ := FindSuccessor_some H n (k.1 ++ "/" ++ k.2) hne hs hreg
  have h2 := (homeOf_eq_some H n k a).mp h
  rw [hf] at h2
  cases h2
  simp only at hh
  rw [hh]
  exact ⟨hp.1, hm⟩

theorem homeOf_isSome (H : String → Nat) (n : NetworkVideoContentService) (k : ChunkKey)
    (hne : n.hashRing ≠ []) (hs : n.hashRing.Sorted (· < ·)) (hreg : Registered H n) :
    (homeOf H n k).isSome = true := by
  obtain ⟨p, nd, _, _, _, hf⟩ := FindSuccessor_some H n (k.1 ++ "/" ++ k.2) hne hs hreg
  simp [homeOf, hf]

theorem homeOf_empty (H : String → Nat) (n : NetworkVideoContentService) (k : ChunkKey)
    (he : n.hashRing = []) : homeOf H n k = none := by
  simp [homeOf, FindSuccessor, he]

/-- C6: on a strictly ascending ring whose positions carry their handles, with
well-formed disks, nothing failing and fewer than 2^31 chunks on the node
registered at H(A), RemoveNode(A) returns the number of chunks on that node
when a position remains after the removal; when the ring becomes empty it
returns 0, its only RPC is the ListFiles on the detached node, and every disk
is as before. -/
theorem RemoveNode_migration_count (H : String → Nat) (n : NetworkVideoContentService)
    (w : Net) (A : String)
    (hs : n.hashRing.Sorted (· < ·)) (hreg : Registered H n) (hin : H A ∈ n.hashRing)
    (hrel : w.reliable) (hok : ∀ a, DiskOK (w.disks a))
    (hcount : (w.disks (addrAt n (H A))).length < 2 ^ 31) :
    (n.hashRing.erase (H A) ≠ [] →
      ∃ w1, RemoveNode H n w A
        = (.ret (some ⟨((w.disks (addrAt n (H A))).length : Nat)⟩) none,
            ringDelete n (probe n.hashRing (H A)) (H A), w1)) ∧
    (n.hashRing.erase (H A) = [] →
      RemoveNode H n w A
        = (.ret (some ⟨0⟩) none, ringDelete n (probe n.hashRing (H A)) (H A),
            w.stamp (.ListFiles (addrAt n (H A))) true)) := by
  obtain ⟨hp1, _⟩ := probe_of_mem n.hashRing (H A) hs hin
  have hidx : probe n.hashRing (H A) ≠ n.hashRing.length := Nat.ne_of_lt hp1
  obtain ⟨nd, hm, hH⟩ := hreg.handle hin
  have haddr : addrAt n (H A) = nd.address := by simp [addrAt, hm]
  have hring := ringDelete_hashRing H n A hs hin
  have hs1 := ringDelete_sorted H n A hs hin
  have hreg1 := ringDelete_registered H n A hs hin hreg
  rw [haddr] at hcount ⊢
  constructor
  · intro hne
    rw [← hring] at hne
    have hdst : ∀ k, homeOf H (ringDelete n (probe n.hashRing (H A)) (H A)) k
        ≠ some nd.address := by
      intro k hk
      have := (homeOf_registered H _ k hs1 hreg1 _ hk).1
      rw [hH] at this
      exact ((mem_ringDelete H n A hs hin _).mp this).2 rfl
    obtain ⟨w1, h1, _⟩ := removeNodeFiles_reliable H
      (ringDelete n (probe n.hashRing (H A)) (H A)) nd hdst (w.disks nd.address) 0
      (w.stamp (.ListFiles nd.address) true) hrel (hok _).1 (hok _).2
      (fun e he => fsRead_of_mem _ (hok nd.address).1 e he) hok
    refine ⟨w1, ?_⟩
    unfold RemoveNode
    simp only [hidx, if_false, hm]
    rw [clientListFiles_reliable nd.address w hrel]
    simp only
    rw [h1]
    have hall : List.countP (fun e => (homeOf H (ringDelete n (probe n.hashRing (H A)) (H A))
        e.1).isSome) (w.disks nd.address) = (w.disks nd.address).length := by
      rw [List.countP_eq_length]
      intro e _
      exact homeOf_isSome H _ e.1 hne hs1 hreg1
    simp only [hall, Nat.zero_add]
    rw [toInt32_of_lt _ hcount]
  · intro he
    rw [← hring] at he
    unfold RemoveNode
    simp only [hidx, if_false, hm]
    rw [clientListFiles_reliable nd.address w hrel]
    simp only
    rw [removeNodeFiles_no_home H _ nd (fun k => homeOf_empty H _ k he) _ 0 _ (hok _).2]
    simp [toInt32]

/-! ### Worked examples of the migration counts -/

theorem loadedNet_disksOK : ∀ a, DiskOK (loadedNet.disks a) := by
  intro a
  unfold loadedNet
  simp only
  split
  · decide
  · decide

/-- AddNode of 127.0.0.1:9002 to the ring of 127.0.0.1:9001 holding three chunks: two move. -/
theorem AddNode_migration_count_witness :
    ringOf9001.hashRing.Sorted (· < ·) ∧ Registered pinnedHash ringOf9001 ∧
    pinnedHash "127.0.0.1:9002" ∉ ringOf9001.hashRing ∧
    loadedNet.dialErr "127.0.0.1:9002" = false ∧ loadedNet.reliable ∧
    (∀ a, DiskOK (loadedNet.disks a)) ∧ SingleHome ringOf9001 loadedNet.disks ∧
    storedCount ringOf9001 loadedNet.disks ringOf9001.hashRing < 2 ^ 31 ∧
    movingCount pinnedHash (ringInsert pinnedHash ringOf9001 "127.0.0.1:9002")
      "127.0.0.1:9002" loadedNet.disks ringOf9001.hashRing = 2 ∧
    ∃ w1, AddNode pinnedHash ringOf9001 loadedNet "127.0.0.1:9002"
        = (.ret (some ⟨(movingCount pinnedHash (ringInsert pinnedHash ringOf9001
              "127.0.0.1:9002") "127.0.0.1:9002" loadedNet.disks ringOf9001.hashRing : Nat)⟩)
            none, ringInsert pinnedHash ringOf9001 "127.0.0.1:9002", w1) ∧
      (∀ p ∈ ringOf9001.hashRing, ∀ k d,
        fsRead (loadedNet.disks (addrAt ringOf9001 p)) k = some d →
        homeOf pinnedHash (ringInsert pinnedHash ringOf9001 "127.0.0.1:9002") k
          = some "127.0.0.1:9002" →
        fsRead (w1.disks "127.0.0.1:9002") k = some d ∧
          fsRead (w1.disks (addrAt ringOf9001 p)) k = none) ∧
      (∀ p ∈ ringOf9001.hashRing, ∀ k,
        homeOf pinnedHash (ringInsert pinnedHash ringOf9001 "127.0.0.1:9002") k
          ≠ some "127.0.0.1:9002" →
        fsRead (w1.disks (addrAt ringOf9001 p)) k
          = fsRead (loadedNet.disks (addrAt ringOf9001 p)) k) ∧
      (∀ k, (homeOf pinnedHash (ringInsert pinnedHash ringOf9001 "127.0.0.1:9002") k
            ≠ some "127.0.0.1:9002" ∨
          ∀ p ∈ ringOf9001.hashRing, fsRead (loadedNet.disks (addrAt ringOf9001 p)) k = none) →
        fsRead (w1.disks "127.0.0.1:9002") k = fsRead (loadedNet.disks "127.0.0.1:9002") k) ∧
      (∀ a, (∀ p ∈ ringOf9001.hashRing, addrAt ringOf9001 p ≠ a) → a ≠ "127.0.0.1:9002" →
        w1.disks a = loadedNet.disks a) :=
  ⟨by decide, by decide, by decide, rfl, fun _ => rfl, loadedNet_disksOK, by decide,
    by decide, by decide,
    AddNode_migration_count pinnedHash ringOf9001 loadedNet "127.0.0.1:9002"
      (by decide) (by decide) (by decide) rfl (fun _ => rfl) loadedNet_disksOK (by decide)
      (by decide)⟩

/-- RemoveNode of 127.0.0.1:9001 holding three chunks, from the two-node ring and as last node. -/
theorem RemoveNode_migration_count_witness :
    (twoNodeRing.hashRing.Sorted (· < ·) ∧ Registered pinnedHash twoNodeRing ∧
      pinnedHash "127.0.0.1:9001" ∈ twoNodeRing.hashRing ∧ loadedNet.reliable ∧
      (∀ a, DiskOK (loadedNet.disks a)) ∧
      (loadedNet.disks (addrAt twoNodeRing (pinnedHash "127.0.0.1:9001"))).length < 2 ^ 31 ∧
      twoNodeRing.hashRing.erase (pinnedHash "127.0.0.1:9001") ≠ [] ∧
      (loadedNet.disks (addrAt twoNodeRing (pinnedHash "127.0.0.1:9001"))).length = 3 ∧
      ∃ w1, RemoveNode pinnedHash twoNodeRing loadedNet "127.0.0.1:9001"
        = (.ret (some ⟨((loadedNet.disks
              (addrAt twoNodeRing (pinnedHash "127.0.0.1:9001"))).length : Nat)⟩) none,
            ringDelete twoNodeRing (probe twoNodeRing.hashRing (pinnedHash "127.0.0.1:9001"))
              (pinnedHash "127.0.0.1:9001"), w1)) ∧
    (ringOf9001.hashRing.Sorted (· < ·) ∧ Registered pinnedHash ringOf9001 ∧
      pinnedHash "127.0.0.1:9001" ∈ ringOf9001.hashRing ∧
      (loadedNet.disks (addrAt ringOf9001 (pinnedHash "127.0.0.1:9001"))).length < 2 ^ 31 ∧
      ringOf9001.hashRing.erase (pinnedHash "127.0.0.1:9001") = [] ∧
      RemoveNode pinnedHash ringOf9001 loadedNet "127.0.0.1:9001"
        = (.ret (some ⟨0⟩) none,
            ringDelete ringOf9001 (probe ringOf9001.hashRing (pinnedHash "127.0.0.1:9001"))
              (pinnedHash "127.0.0.1:9001"),
            loadedNet.stamp (.ListFiles (addrAt ringOf9001 (pinnedHash "127.0.0.1:9001")))
              true)) :=
  ⟨⟨by decide, by decide, by decide, fun _ => rfl, loadedNet_disksOK, by decide, by decide,
      by decide,
      (RemoveNode_migration_count pinnedHash twoNodeRing loadedNet "127.0.0.1:9001"
        (by decide) (by decide) (by decide) (fun _ => rfl) loadedNet_disksOK (by decide)).1
        (by decide)⟩,
    ⟨by decide, by decide, by decide, by decide, by decide,
      (RemoveNode_migration_count pinnedHash ringOf9001 loadedNet "127.0.0.1:9001"
        (by decide) (by decide) (by decide) (fun _ => rfl) loadedNet_disksOK (by decide)).2
        (by decide)⟩⟩

/-! ### Safety of a chunk during AddNode, whatever fails -/

theorem AddSafe.of_same_disks {src : String → Prop} {A a0 : String} {k0 : ChunkKey} {d0 : Bytes}
    {w w1 : Net} (h : AddSafe src A a0 k0 d0 w) (hd : w1.disks = w.disks) :
    AddSafe src A a0 k0 d0 w1 := by
  unfold AddSafe at h ⊢
  rw [hd]
  exact h

theorem afterWrite_disks (w : Net) (s t v f : String) (d : Bytes) (a : String) :
    (afterWrite w s t v f d).disks a
      = if a = t then fsWrite (w.disks t) (v, f) d else w.disks a := by
  simp [afterWrite, afterRead]

theorem migrate_addSafe (src : String → Prop) (A a0 : String) (k0 : ChunkKey) (d0 : Bytes)
    (hsrcA : ∀ b, src b → b ≠ A) (ha0 : src a0) (nd : Node) (hnd : src nd.address)
    (k : ChunkKey) (hk : nd.address ≠ a0 → k ≠ k0) (w : Net)
    (h : AddSafe src A a0 k0 d0 w) :
    AddSafe src A a0 k0 d0 (migrate nd ⟨A⟩ k.1 k.2 w).2 := by
  have hsA := hsrcA _ hnd
  have ha0A := hsrcA _ ha0
  obtain ⟨hok, hJ, haux⟩ := h
  rcases migrate_cases nd ⟨A⟩ k.1 k.2 w with ⟨e, hm⟩ | ⟨e, d, _, hm⟩ | ⟨e, d, hr, hm⟩ |
    ⟨d, hr, hm⟩
  · rw [hm]; exact AddSafe.of_same_disks ⟨hok, hJ, haux⟩ rfl
  · rw [hm]; exact AddSafe.of_same_disks ⟨hok, hJ, haux⟩ rfl
  · rw [hm]
    simp only at hr ⊢
    refine ⟨?_, ?_, ?_⟩
    · intro b hb
      have hbA := hsrcA b hb
      simp only [Net.stamp_disks, afterWrite_disks, hbA, if_false]
      exact hok b hb
    · simp only [Net.stamp_disks, afterWrite_disks, ha0A, if_false, if_true]
      rcases hJ with hJ | ⟨hJ1, hJ2⟩
      · exact Or.inl hJ
      · right
        refine ⟨hJ1, ?_⟩
        rw [fsRead_fsWrite]
        by_cases hkk : k0 = k
        · exfalso
          have hs : nd.address = a0 := by
            by_contra hne
            exact hk hne hkk.symm
          rw [hs, ← hkk, hJ1] at hr
          cases hr
        · simp only [hkk, if_false]; exact hJ2
    · intro b hb hba
      have hbA := hsrcA b hb
      simp only [Net.stamp_disks, afterWrite_disks, hbA, if_false]
      exact haux b hb hba
  · rw [hm]
    simp only at hr ⊢
    have hds := afterDelete_disks_src w nd.address A k.1 k.2 d hsA
    have hdt := afterDelete_disks_dst w nd.address A k.1 k.2 d hsA
    have hdo := afterDelete_disks_other w nd.address A k.1 k.2 d
    refine ⟨?_, ?_, ?_⟩
    · intro b hb
      by_cases hbs : b = nd.address
      · rw [hbs, hds]; exact (hok _ hnd).fsRemove _
      · rw [hdo b hbs (hsrcA b hb)]; exact hok b hb
    · by_cases hs : nd.address = a0
      · rw [← hs, hds, hdt, fsRead_fsRemove, fsRead_fsWrite]
        rw [← hs] at hJ
        by_cases hkk : k0 = k
        · subst hkk
          right
          rcases hJ with hJ | ⟨hJ1, _⟩
          · rw [hr] at hJ
            cases hJ
            simp
          · rw [hr] at hJ1; cases hJ1
        · simpa [hkk] using hJ
      · have hkk : k0 ≠ k := fun h => hk hs h.symm
        have hne : a0 ≠ nd.address := fun h => hs h.symm
        rw [hdo a0 hne ha0A, hdt, fsRead_fsWrite]
        simpa [hkk] using hJ
    · intro b hb hba
      by_cases hbs : b = nd.address
      · rw [hbs, hds, fsRead_fsRemove]
        have := haux b hb hba
        rw [hbs] at this
        simp [this]
      · rw [hdo b hbs (hsrcA b hb)]; exact haux b hb hba

theorem addNodeFiles_safe (H : String → Nat) (n : NetworkVideoContentService)
    (src : String → Prop) (A a0 : String) (k0 : ChunkKey) (d0 : Bytes)
    (hsrcA : ∀ b, src b → b ≠ A) (ha0 : src a0) (nd : Node) (hnd : src nd.address) :
    ∀ (l : Storage), (∀ k ∈ fsKeys l, pathSegment k.1 ∧ pathSegment k.2) →
      (nd.address ≠ a0 → k0 ∉ fsKeys l) →
      ∀ (moved : Nat) (w : Net), AddSafe src A a0 k0 d0 w →
        AddSafe src A a0 k0 d0 (addNodeFiles H n A nd (Server.ListFiles l) moved w).net := by
  intro l
  induction l with
  | nil => intro _ _ moved w h; simpa [Server.ListFiles, addNodeFiles, Flow.net] using h
  | cons e rest ih =>
    intro hseg hk0 moved w h
    obtain ⟨k, d⟩ := e
    have hsegk : pathSegment k.1 ∧ pathSegment k.2 := hseg k (by simp [fsKeys])
    have hseg2 : ∀ k2 ∈ fsKeys rest, pathSegment k2.1 ∧ pathSegment k2.2 :=
      fun k2 h2 => hseg k2 (by simp only [fsKeys, List.map_cons, List.mem_cons]; exact Or.inr h2)
    have hk02 : nd.address ≠ a0 → k0 ∉ fsKeys rest := fun hne hin =>
      hk0 hne (by simp only [fsKeys, List.map_cons, List.mem_cons]; exact Or.inr hin)
    have hlist : Server.ListFiles ((k, d) :: rest)
        = (k.1 ++ "/" ++ k.2) :: Server.ListFiles rest := rfl
    rw [hlist]
    by_cases hmv : homeOf H n k = some A
    · rw [addNodeFiles_move H n A nd k _ moved w hmv hsegk]
      have hstep := migrate_addSafe src A a0 k0 d0 hsrcA ha0 nd hnd k
        (fun hne hkk => hk0 hne (by simp [fsKeys, hkk])) w h
      cases hm : migrate nd ⟨A⟩ k.1 k.2 w with
      | mk r w1 =>
        rw [hm] at hstep
        cases r with
        | none => exact ih hseg2 hk02 (moved + 1) w1 hstep
        | some e => exact hstep
    · rw [addNodeFiles_skip H n A nd k _ moved w hmv]
      exact ih hseg2 hk02 moved w h

theorem addNodeRing_safe (H : String → Nat) (n : NetworkVideoContentService)
    (src : String → Prop) (A a0 : String) (k0 : ChunkKey) (d0 : Bytes)
    (hsrcA : ∀ b, src b → b ≠ A) (ha0 : src a0) :
    ∀ (ps : List Nat), (∀ p ∈ ps, p ≠ H A → ∀ nd, n.hashMap p = some nd → src nd.address) →
      ∀ (moved : Nat) (w : Net), AddSafe src A a0 k0 d0 w →
        AddSafe src A a0 k0 d0 (addNodeRing H n A (H A) ps moved w).net := by
  intro ps
  induction ps with
  | nil => intro _ moved w h; simpa [addNodeRing, Flow.net] using h
  | cons p rest ih =>
    intro hps moved w h
    have hps2 : ∀ q ∈ rest, q ≠ H A → ∀ nd, n.hashMap q = some nd → src nd.address :=
      fun q hq => hps q (List.mem_cons_of_mem _ hq)
    rw [addNodeRing]
    by_cases hp : p = H A
    · rw [if_pos hp]
      exact ih hps2 moved w h
    · rw [if_neg hp]
      cases hm : n.hashMap p with
      | none => simpa [Flow.net] using h
      | some nd =>
        simp only
        have hnd := hps p (List.mem_cons_self _ _) hp nd hm
        rcases clientListFiles_cases nd.address w with ⟨_, hl⟩ | ⟨_, hl⟩
        · rw [hl]
          exact h.of_same_disks rfl
        · rw [hl]
          simp only
          have hw : AddSafe src A a0 k0 d0 (w.stamp (.ListFiles nd.address) true) :=
            h.of_same_disks rfl
          have hin := addNodeFiles_safe H n src A a0 k0 d0 hsrcA ha0 nd hnd
            (w.disks nd.address) (h.1 _ hnd).2
            (fun hne hk => by
              have := h.2.2 _ hnd hne
              have h2 := (mem_fsKeys_iff _ k0).mp hk
              rw [this] at h2
              simp at h2) moved _ hw
          cases hfl : addNodeFiles H n A nd (Server.ListFiles (w.disks nd.address)) moved
              (w.stamp (.ListFiles nd.address) true) with
          | next m w2 =>
            rw [hfl] at hin
            exact ih hps2 m w2 hin
          | abort e w2 =>
            rw [hfl] at hin
            exact hin
          | crash w2 =>
            rw [hfl] at hin
            exact hin

theorem AddNode_net (H : String → Nat) (n : NetworkVideoContentService) (w : Net)
    (A : String) (hs : n.hashRing.Sorted (· < ·)) :
    (AddNode H n w A).2.2 = w ∨
      (H A ∉ n.hashRing ∧
        (AddNode H n w A).2.2
          = (addNodeRing H (ringInsert H n A) A (H A) (ringInsert H n A).hashRing 0 w).net) := by
  by_cases hA : H A ∈ n.hashRing
  · left
    rw [AddNode_present H n w A hs hA]
  · unfold AddNode
    simp only [probe_of_not_mem n.hashRing (H A) hA, if_false]
    split
    · exact Or.inl rfl
    · right
      refine ⟨hA, ?_⟩
      cases addNodeRing H (ringInsert H n A) A (H A) (ringInsert H n A).hashRing 0 w <;> rfl

theorem AddNode_safe (H : String → Nat) (n : NetworkVideoContentService) (w : Net)
    (A : String) (hs : n.hashRing.Sorted (· < ·)) (hreg : Registered H n)
    (hok : ∀ a, DiskOK (w.disks a)) (hone : SingleHome n w.disks) :
    ∀ p ∈ n.hashRing, ∀ k d, fsRead (w.disks (addrAt n p)) k = some d →
      fsRead ((AddNode H n w A).2.2.disks (addrAt n p)) k = some d ∨
        fsRead ((AddNode H n w A).2.2.disks A) k = some d := by
  intro p hp k d hd
  rcases AddNode_net H n w A hs with h | ⟨hA, h⟩
  · rw [h]; exact Or.inl hd
  · rw [h]
    have hsrc : ∀ a, isSource H (ringInsert H n A) A (ringInsert H n A).hashRing a ↔
        ∃ q ∈ n.hashRing, addrAt n q = a := by
      intro a
      rw [isSource_ringInsert H n A a hA]
      constructor
      · rintro ⟨q, hq, hm⟩
        exact ⟨q, hq, by simp [addrAt, hm]⟩
      · rintro ⟨q, hq, rfl⟩
        obtain ⟨nd, h1, _⟩ := hreg.handle hq
        exact ⟨q, hq, by simp [addrAt, h1]⟩
    have hsrcA : ∀ b, isSource H (ringInsert H n A) A (ringInsert H n A).hashRing b → b ≠ A := by
      intro b hb hbA
      obtain ⟨q, hq, hqa⟩ := (hsrc b).mp hb
      obtain ⟨nd, h1, h2⟩ := hreg.handle hq
      have : addrAt n q = nd.address := by simp [addrAt, h1]
      rw [this] at hqa
      rw [← h2, hqa, hbA] at hq
      exact hA hq
    have hstart : AddSafe (isSource H (ringInsert H n A) A (ringInsert H n A).hashRing) A
        (addrAt n p) k d w := by
      refine ⟨fun b _ => hok b, Or.inl hd, ?_⟩
      intro b hb hba
      obtain ⟨q, hq, rfl⟩ := (hsrc b).mp hb
      have hpq : p ≠ q := fun h => hba (by rw [h])
      have hkp : k ∈ fsKeys (w.disks (addrAt n p)) :=
        (mem_fsKeys_iff _ k).mpr (by rw [hd]; rfl)
      have := hone p hp q hq hpq k hkp
      cases hr : fsRead (w.disks (addrAt n q)) k with
      | none => rfl
      | some x => exact absurd ((mem_fsKeys_iff _ k).mpr (by rw [hr]; rfl)) this
    have hfin := addNodeRing_safe H (ringInsert H n A)
      (isSource H (ringInsert H n A) A (ringInsert H n A).hashRing) A (addrAt n p) k d hsrcA
      ((hsrc _).mpr ⟨p, hp, rfl⟩) (ringInsert H n A).hashRing
      (fun q hq hne nd hm => ⟨q, hq, hne, by rw [hm]⟩) 0 w hstart
    rcases hfin.2.1 with h1 | ⟨_, h2⟩
    · exact Or.inl h1
    · exact Or.inr h2

/-! ### Safety of a chunk during RemoveNode, whatever fails -/

theorem RemoveSafe.on_same_disks {H : String → Nat} {n : NetworkVideoContentService} {s : String}
    {k0 : ChunkKey} {d0 : Bytes} {w w1 : Net} (h : RemoveSafe H n s k0 d0 w)
    (hd : w1.disks = w.disks) : RemoveSafe H n s k0 d0 w1 := by
  unfold RemoveSafe at h ⊢
  rw [hd]
  exact h

theorem migrate_removeSafe (H : String → Nat) (n : NetworkVideoContentService) (nd : Node)
    (k0 : ChunkKey) (d0 : Bytes) (k : ChunkKey) (t : String) (ht : homeOf H n k = some t)
    (hts : t ≠ nd.address) (w : Net) (h : RemoveSafe H n nd.address k0 d0 w) :
    RemoveSafe H n nd.address k0 d0 (migrate nd ⟨t⟩ k.1 k.2 w).2 := by
  have hst : nd.address ≠ t := fun h => hts h.symm
  rcases migrate_cases nd ⟨t⟩ k.1 k.2 w with ⟨e, hm⟩ | ⟨e, d, _, hm⟩ | ⟨e, d, hr, hm⟩ |
    ⟨d, hr, hm⟩
  · rw [hm]; exact h.on_same_disks rfl
  · rw [hm]; exact h.on_same_disks rfl
  · rw [hm]
    simp only at hr ⊢
    unfold RemoveSafe at h ⊢
    simp only [Net.stamp_disks, afterWrite_disks, hst, if_false]
    rcases h with h | ⟨h1, t0, h2, h3⟩
    · exact Or.inl h
    · right
      refine ⟨h1, t0, h2, ?_⟩
      have hkk : k0 ≠ k := by
        intro hkk
        rw [← hkk, h1] at hr
        cases hr
      by_cases ht0 : t0 = t
      · simp only [ht0, if_true, fsRead_fsWrite, hkk, if_false]
        rw [← ht0]; exact h3
      · simp only [ht0, if_false]; exact h3
  · rw [hm]
    simp only at hr ⊢
    have hds := afterDelete_disks_src w nd.address t k.1 k.2 d hst
    have hdt := afterDelete_disks_dst w nd.address t k.1 k.2 d hst
    have hdo := afterDelete_disks_other w nd.address t k.1 k.2 d
    unfold RemoveSafe at h ⊢
    rw [hds, fsRead_fsRemove]
    by_cases hkk : k0 = k
    · subst hkk
      right
      rcases h with h | ⟨h1, _⟩
      · rw [hr] at h
        cases h
        refine ⟨by simp, t, ht, ?_⟩
        rw [hdt, fsRead_fsWrite]
        simp
      · rw [hr] at h1; cases h1
    · simp only [hkk, if_false]
      rcases h with h | ⟨h1, t0, h2, h3⟩
      · exact Or.inl h
      · right
        refine ⟨h1, t0, h2, ?_⟩
        by_cases ht0 : t0 = t
        · rw [ht0, hdt, fsRead_fsWrite]
          simp only [hkk, if_false]
          rw [← ht0]; exact h3
        · have ht0s : t0 ≠ nd.address := by
            intro h0
            rw [h0, h1] at h3
            cases h3
          rw [hdo t0 ht0s ht0]; exact h3

theorem removeNodeFiles_safe (H : String → Nat) (n : NetworkVideoContentService) (nd : Node)
    (k0 : ChunkKey) (d0 : Bytes) (hdst : ∀ k, homeOf H n k ≠ some nd.address) :
    ∀ (l : Storage), (∀ k ∈ fsKeys l, pathSegment k.1 ∧ pathSegment k.2) →
      ∀ (moved : Nat) (w : Net), RemoveSafe H n nd.address k0 d0 w →
        RemoveSafe H n nd.address k0 d0
          (removeNodeFiles H n nd (Server.ListFiles l) moved w).net := by
  intro l
  induction l with
  | nil => intro _ moved w h; simpa [Server.ListFiles, removeNodeFiles, Flow.net] using h
  | cons e rest ih =>
    intro hseg moved w h
    obtain ⟨k, d⟩ := e
    have hsegk : pathSegment k.1 ∧ pathSegment k.2 := hseg k (by simp [fsKeys])
    have hseg2 : ∀ k2 ∈ fsKeys rest, pathSegment k2.1 ∧ pathSegment k2.2 :=
      fun k2 h2 => hseg k2 (by simp only [fsKeys, List.map_cons, List.mem_cons]; exact Or.inr h2)
    have hlist : Server.ListFiles ((k, d) :: rest)
        = (k.1 ++ "/" ++ k.2) :: Server.ListFiles rest := rfl
    rw [hlist]
    cases hmv : homeOf H n k with
    | some t =>
      have hts : t ≠ nd.address := fun h => hdst k (by rw [hmv, h])
      rw [removeNodeFiles_move H n nd k _ moved w t hmv hsegk]
      have hstep := migrate_removeSafe H n nd k0 d0 k t hmv hts w h
      cases hm : migrate nd ⟨t⟩ k.1 k.2 w with
      | mk r w1 =>
        rw [hm] at hstep
        cases r with
        | none => exact ih hseg2 (moved + 1) w1 hstep
        | some e => exact hstep
    | none =>
      rw [removeNodeFiles_skip H n nd k _ moved w hmv hsegk]
      exact ih hseg2 moved w h

theorem RemoveNode_safe (H : String → Nat) (n : NetworkVideoContentService) (w : Net)
    (A : String) (hs : n.hashRing.Sorted (· < ·)) (hreg : Registered H n)
    (hin : H A ∈ n.hashRing) (hok : ∀ a, DiskOK (w.disks a)) :
    ∀ k d, fsRead (w.disks (addrAt n (H A))) k = some d →
      RemoveSafe H (ringDelete n (probe n.hashRing (H A)) (H A)) (addrAt n (H A)) k d
        (RemoveNode H n w A).2.2 := by
  intro k d hd
  obtain ⟨hp1, _⟩ := probe_of_mem n.hashRing (H A) hs hin
  have hidx : probe n.hashRing (H A) ≠ n.hashRing.length := Nat.ne_of_lt hp1
  obtain ⟨nd, hm, hH⟩ := hreg.handle hin
  have haddr : addrAt n (H A) = nd.address := by simp [addrAt, hm]
  have hs1 := ringDelete_sorted H n A hs hin
  have hreg1 := ringDelete_registered H n A hs hin hreg
  rw [haddr] at hd ⊢
  have hdst : ∀ k, homeOf H (ringDelete n (probe n.hashRing (H A)) (H A)) k
      ≠ some nd.address := by
    intro k hk
    have := (homeOf_registered H _ k hs1 hreg1 _ hk).1
    rw [hH] at this
    exact ((mem_ringDelete H n A hs hin _).mp this).2 rfl
  have hstart : RemoveSafe H (ringDelete n (probe n.hashRing (H A)) (H A)) nd.address k d w :=
    Or.inl hd
  unfold RemoveNode
  simp only [hidx, if_false, hm]
  rcases clientListFiles_cases nd.address w with ⟨_, hl⟩ | ⟨_, hl⟩
  · rw [hl]
    exact hstart.on_same_disks rfl
  · rw [hl]
    simp only
    have hfin := removeNodeFiles_safe H (ringDelete n (probe n.hashRing (H A)) (H A)) nd k d
      hdst (w.disks nd.address) (hok _).2 0 (w.stamp (.ListFiles nd.address) true)
      (hstart.on_same_disks rfl)
    cases hfl : removeNodeFiles H (ringDelete n (probe n.hashRing (H A)) (H A)) nd
        (Server.ListFiles (w.disks nd.address)) 0 (w.stamp (.ListFiles nd.address) true) with
    | next m w2 => rw [hfl] at hfin; exact hfin
    | abort e w2 => rw [hfl] at hfin; exact hfin
    | crash w2 => rw [hfl] at hfin; exact hfin

/-! ### Per-chunk migration order and chunk safety -/

theorem OpTrace.log {α : Type} {route : String → String → Prop} {w : Net}
    {r : Outcome α × NetworkVideoContentService × Net} (h : OpTrace route w r) :
    ∃ ext b, r.2.2.log = w.log ++ (ext ++ b) ∧ Chunked route ext ∧
      (b = [] ∨ Broken route b) := by
  rcases h.2 with ⟨_, ext, h2, h3⟩ | ⟨_, ext, b, h2, h3, h4⟩
  · exact ⟨ext, [], by simpa using h2, h3, Or.inl rfl⟩
  · exact ⟨ext, b, h2, h3, h4.symm⟩

theorem faultyNet_disksOK : ∀ a, DiskOK (faultyNet.disks a) := by
  intro a
  unfold faultyNet
  simp only
  split
  · decide
  · decide

/-- C8: on a strictly ascending ring whose positions carry their handles, with
well-formed disks and whatever RPCs fail. The RPCs an AddNode or RemoveNode call
issues are listings and chunk migrations, each migration being ReadFile on the
source, WriteFile on the destination, DeleteFile on the source in this order,
every one issued only after the previous one succeeded (a failed RPC ends the
log); the destination is A in AddNode and the source is the detached node in
RemoveNode. At the state in which the call stops, after any RPC: in AddNode,
when no chunk name is on two ring nodes, every chunk of a ring node is with its
bytes still on that node or on A; in RemoveNode of a present address, every
chunk of the detached node is with its bytes still on it, or on its successor
under the new ring. -/
theorem migration_order_and_safety (H : String → Nat) (n : NetworkVideoContentService)
    (w : Net) (A : String) (hs : n.hashRing.Sorted (· < ·)) (hreg : Registered H n)
    (hok : ∀ a, DiskOK (w.disks a)) :
    ((∃ ext b, (AddNode H n w A).2.2.log = w.log ++ (ext ++ b) ∧
        Chunked (fun _ d => d = A) ext ∧ (b = [] ∨ Broken (fun _ d => d = A) b)) ∧
      (SingleHome n w.disks →
        ∀ p ∈ n.hashRing, ∀ k d, fsRead (w.disks (addrAt n p)) k = some d →
          fsRead ((AddNode H n w A).2.2.disks (addrAt n p)) k = some d ∨
            fsRead ((AddNode H n w A).2.2.disks A) k = some d)) ∧
    ((∃ ext b, (RemoveNode H n w A).2.2.log = w.log ++ (ext ++ b) ∧
        Chunked (fun s _ => s = addrAt n (H A)) ext ∧
        (b = [] ∨ Broken (fun s _ => s = addrAt n (H A)) b)) ∧
      (H A ∈ n.hashRing →
        ∀ k d, fsRead (w.disks (addrAt n (H A))) k = some d →
          fsRead ((RemoveNode H n w A).2.2.disks (addrAt n (H A))) k = some d ∨
            (fsRead ((RemoveNode H n w A).2.2.disks (addrAt n (H A))) k = none ∧
              ∃ t, homeOf H (RemoveNode H n w A).2.1 k = some t ∧
                fsRead ((RemoveNode H n w A).2.2.disks t) k = some d))) := by
  refine ⟨⟨(AddNode_trace H n w A).log, fun hone => AddNode_safe H n w A hs hreg hok hone⟩,
    ⟨(RemoveNode_trace H n w A).log, ?_⟩⟩
  intro hin k d hd
  have h := RemoveNode_safe H n w A hs hreg hin hok k d hd
  have hidx : probe n.hashRing (H A) ≠ n.hashRing.length :=
    Nat.ne_of_lt (probe_of_mem n.hashRing (H A) hs hin).1
  rw [RemoveNode_ring H n w A hidx]
  exact h

/-- The chunks cats/e (AddNode) and cats/c (RemoveNode) on `faultyNet`, where an RPC fails. -/
theorem migration_order_and_safety_witness :
    (ringOf9001.hashRing.Sorted (· < ·) ∧ Registered pinnedHash ringOf9001 ∧
      (∀ a, DiskOK (faultyNet.disks a)) ∧ SingleHome ringOf9001 faultyNet.disks ∧
      8757126733552209387 ∈ ringOf9001.hashRing ∧
      fsRead (faultyNet.disks (addrAt ringOf9001 8757126733552209387)) ("cats", "e")
        = some [2] ∧
      (fsRead ((AddNode pinnedHash ringOf9001 faultyNet "127.0.0.1:9002").2.2.disks
          (addrAt ringOf9001 8757126733552209387)) ("cats", "e") = some [2] ∨
        fsRead ((AddNode pinnedHash ringOf9001 faultyNet "127.0.0.1:9002").2.2.disks
          "127.0.0.1:9002") ("cats", "e") = some [2])) ∧
    (twoNodeRing.hashRing.Sorted (· < ·) ∧ Registered pinnedHash twoNodeRing ∧
      pinnedHash "127.0.0.1:9001" ∈ twoNodeRing.hashRing ∧
      fsRead (faultyNet.disks (addrAt twoNodeRing (pinnedHash "127.0.0.1:9001")))
        ("cats", "c") = some [1] ∧
      (fsRead ((RemoveNode pinnedHash twoNodeRing faultyNet "127.0.0.1:9001").2.2.disks
          (addrAt twoNodeRing (pinnedHash "127.0.0.1:9001"))) ("cats", "c") = some [1] ∨
        (fsRead ((RemoveNode pinnedHash twoNodeRing faultyNet "127.0.0.1:9001").2.2.disks
            (addrAt twoNodeRing (pinnedHash "127.0.0.1:9001"))) ("cats", "c") = none ∧
          ∃ t, homeOf pinnedHash
              (RemoveNode pinnedHash twoNodeRing faultyNet "127.0.0.1:9001").2.1 ("cats", "c")
              = some t ∧
            fsRead ((RemoveNode pinnedHash twoNodeRing faultyNet "127.0.0.1:9001").2.2.disks t)
              ("cats", "c") = some [1]))) :=
  ⟨⟨by decide, by decide, faultyNet_disksOK, by decide, by decide, by decide,
      (migration_order_and_safety pinnedHash ringOf9001 faultyNet "127.0.0.1:9002"
        (by decide) (by decide) faultyNet_disksOK).1.2 (by decide) _ (by decide) _ _
        (by decide)⟩,
    ⟨by decide, by decide, by decide, by decide,
      (migration_order_and_safety pinnedHash twoNodeRing faultyNet "127.0.0.1:9001"
        (by decide) (by decide) faultyNet_disksOK).2.2 (by decide) _ _ (by decide)⟩⟩

/-! ### Homes under an enlarged or reduced ring -/

theorem IsSuccessorPos.restrict {ring ring1 : List Nat} {k p : Nat}
    (h : IsSuccessorPos ring k p) (hsub : ∀ q ∈ ring1, q ∈ ring) (hp : p ∈ ring1) :
    IsSuccessorPos ring1 k p := by
  refine ⟨hp, ?_⟩
  rcases h.2 with ⟨h1, h2⟩ | ⟨h1, h2⟩
  · exact Or.inl ⟨h1, fun q hq hkq => h2 q (hsub q hq) hkq⟩
  · exact Or.inr ⟨fun q hq => h1 q (hsub q hq), fun q hq => h2 q (hsub q hq)⟩

theorem FindSuccessor_pos (H : String → Nat) (n : NetworkVideoContentService) (key : String)
    (hne : n.hashRing ≠ []) (hs : n.hashRing.Sorted (· < ·)) :
    ∃ p, IsSuccessorPos n.hashRing (H key) p ∧ FindSuccessor H n key = n.hashMap p :=
  ⟨_, probe_isSuccessorPos n.hashRing (H key) hs hne, FindSuccessor_eq H n key hne⟩

theorem homeOf_ringInsert (H : String → Nat) (n : NetworkVideoContentService) (A : String)
    (hs : n.hashRing.Sorted (· < ·)) (hA : H A ∉ n.hashRing) (k : ChunkKey) :
    homeOf H (ringInsert H n A) k = some A ∨
      homeOf H (ringInsert H n A) k = homeOf H n k := by
  have hs1 := ringInsert_sorted H n A hs hA
  have hne1 : (ringInsert H n A).hashRing ≠ [] := by
    intro h
    have := (ringInsert_mem H n A (H A)).mpr (Or.inl rfl)
    rw [h] at this
    simp at this
  obtain ⟨p1, hp1, hf1⟩ := FindSuccessor_pos H (ringInsert H n A) (k.1 ++ "/" ++ k.2) hne1 hs1
  by_cases hpa : p1 = H A
  · left
    unfold homeOf
    rw [hf1, hpa]
    simp [ringInsert]
  · right
    have hp1old : p1 ∈ n.hashRing := by
      rcases (ringInsert_mem H n A p1).mp hp1.1 with h | h
      · exact absurd h hpa
      · exact h
    have hne : n.hashRing ≠ [] := by
      intro h; rw [h] at hp1old; simp at hp1old
    obtain ⟨p0, hp0, hf0⟩ := FindSuccessor_pos H n (k.1 ++ "/" ++ k.2) hne hs
    have hr := @IsSuccessorPos.restrict (ringInsert H n A).hashRing n.hashRing _ _ hp1
      (fun q hq => (ringInsert_mem H n A q).mpr (Or.inr hq)) hp1old
    have := isSuccessorPos_unique _ _ _ _ hr hp0
    unfold homeOf
    rw [hf1, hf0, ← this]
    simp [ringInsert, hpa]

theorem homeOf_ringDelete (H : String → Nat) (n : NetworkVideoContentService) (A : String)
    (hs : n.hashRing.Sorted (· < ·)) (hreg : Registered H n) (hin : H A ∈ n.hashRing)
    (k : ChunkKey) (a : String) (h : homeOf H n k = some a) (ha : H a ≠ H A) :
    homeOf H (ringDelete n (probe n.hashRing (H A)) (H A)) k = some a := by
  have hne : n.hashRing ≠ [] := by
    intro he; rw [he] at hin; simp at hin
  obtain ⟨p0, nd, hp0, hm, hh, hf0⟩ :=
    FindSuccessor_some H n (k.1 ++ "/" ++ k.2) hne hs hreg
  have hnd : nd = ⟨a⟩ := by
    have := (homeOf_eq_some H n k a).mp h
    rw [hf0] at this
    exact Option.some.inj this
  have hp0a : p0 = H a := by rw [← hh, hnd]
  have hp0ne : p0 ≠ H A := by rw [hp0a]; exact ha
  have hmem1 : p0 ∈ (ringDelete n (probe n.hashRing (H A)) (H A)).hashRing :=
    (mem_ringDelete H n A hs hin p0).mpr ⟨hp0.1, hp0ne⟩
  have hne1 : (ringDelete n (probe n.hashRing (H A)) (H A)).hashRing ≠ [] := by
    intro he; rw [he] at hmem1; simp at hmem1
  obtain ⟨p1, hp1, hf1⟩ := FindSuccessor_pos H (ringDelete n (probe n.hashRing (H A)) (H A))
    (k.1 ++ "/" ++ k.2) hne1 (ringDelete_sorted H n A hs hin)
  have hr := @IsSuccessorPos.restrict n.hashRing
    (ringDelete n (probe n.hashRing (H A)) (H A)).hashRing _ _ hp0
    (fun q hq => ((mem_ringDelete H n A hs hin q).mp hq).1) hmem1
  have := isSuccessorPos_unique _ _ _ _ hp1 hr
  unfold homeOf
  rw [hf1, this]
  simp [ringDelete, hp0ne, hm, hnd]

/-! ### The placement invariant -/

theorem Quiescent.placed {H : String → Nat} {c : Cluster} (h : Quiescent H c) :
    Placed H c := by
  intro a k hk
  have hhome := h.2.2.2.2 a k hk
  refine ⟨(homeOf_eq_some H c.svc k a).mp hhome, ?_, ?_⟩
  · exact (mem_ListFiles_iff _ _).mpr ⟨k, hk, rfl⟩
  · intro b hba hin
    obtain ⟨k2, hk2, hname⟩ := (mem_ListFiles_iff _ _).mp hin
    have h2 := (homeOf_eq_some H c.svc k2 b).mp (h.2.2.2.2 b k2 hk2)
    rw [← hname, (homeOf_eq_some H c.svc k a).mp hhome] at h2
    exact hba (by cases h2; rfl)

theorem fsRead_none_of_not_mem (s : Storage) (k : ChunkKey) (h : k ∉ fsKeys s) :
    fsRead s k = none := by
  cases hr : fsRead s k with
  | none => rfl
  | some x => exact absurd ((mem_fsKeys_iff s k).mpr (by rw [hr]; rfl)) h

theorem Write_quiescent (H : String → Nat) (c : Cluster) (v f : String) (d : Bytes)
    (h : Quiescent H c) (hseg : pathSegment v ∧ pathSegment f) :
    Quiescent H ⟨c.svc, (Write H c.svc c.net v f d).2⟩ := by
  obtain ⟨hs, hreg, hrel, hok, hpl⟩ := h
  unfold Write
  simp only
  cases hfs : FindSuccessor H c.svc (v ++ "/" ++ f) with
  | none => exact ⟨hs, hreg, hrel, hok, hpl⟩
  | some node =>
    simp only [clientWriteFile, hrel c.net.log.length, Bool.false_eq_true, if_false,
      Server.WriteFile]
    refine ⟨hs, hreg, hrel, ?_, ?_⟩
    · intro a
      simp only [Net.stamp_disks, Net.setDisk_disks]
      split
      · exact (hok _).fsWrite _ _ hseg
      · exact hok a
    · intro a k hk
      simp only [Net.stamp_disks, Net.setDisk_disks] at hk
      by_cases ha : a = node.address
      · simp only [ha, if_true] at hk
        have := (mem_fsKeys_iff _ k).mp hk
        rw [fsRead_fsWrite] at this
        by_cases hkk : k = (v, f)
        · subst hkk
          simp [homeOf, hfs, ha]
        · simp only [hkk, if_false] at this
          rw [ha]
          exact hpl _ k ((mem_fsKeys_iff _ k).mpr this)
      · simp only [ha, if_false] at hk
        exact hpl a k hk

theorem AddNode_quiescent (H : String → Nat) (c : Cluster) (A : String)
    (h : Quiescent H c) (hdial : c.net.dialErr A = false) :
    ∃ c1 resp, AddNode H c.svc c.net A = (.ret (some resp) none, c1.svc, c1.net) ∧
      Quiescent H c1 := by
  obtain ⟨hs, hreg, hrel, hok, hpl⟩ := h
  by_cases hA : H A ∈ c.svc.hashRing
  · exact ⟨c, ⟨0⟩, AddNode_present H c.svc c.net A hs hA, hs, hreg, hrel, hok, hpl⟩
  · obtain ⟨w1, h1, hrel1, _, hok1, h5, h6, h7, _⟩ :=
      addNodeRing_reliable H (ringInsert H c.svc A) A (ringInsert H c.svc A).hashRing 0 c.net hrel
        (ringInsert_nodup H c.svc A hs hA)
        (fun p hp _ => (ringInsert_registered H c.svc A hreg).handle hp) hok
    refine ⟨⟨ringInsert H c.svc A, w1⟩,
      ⟨toInt32 (0 + movingCount H (ringInsert H c.svc A) A c.net.disks
        (ringInsert H c.svc A).hashRing)⟩, ?_, ringInsert_sorted H c.svc A hs hA,
      ringInsert_registered H c.svc A hreg, hrel1, hok1, ?_⟩
    · unfold AddNode
      simp only [probe_of_not_mem c.svc.hashRing (H A) hA, if_false, hdial,
        Bool.false_eq_true]
      rw [h1]
    · intro a k hk
      simp only at hk ⊢
      have hsome := (mem_fsKeys_iff _ k).mp hk
      by_cases haA : a = A
      · subst haA
        by_contra hne
        rw [h7 k (Or.inl hne)] at hsome
        have := hpl a k ((mem_fsKeys_iff _ k).mpr hsome)
        exact hA (homeOf_registered H c.svc k hs hreg a this).1
      · by_cases hsrc : isSource H (ringInsert H c.svc A) A (ringInsert H c.svc A).hashRing a
        · rw [h6 a hsrc k] at hsome
          by_cases hmv : homeOf H (ringInsert H c.svc A) k = some A
          · simp [hmv] at hsome
          · simp only [hmv, if_false] at hsome
            have hold := hpl a k ((mem_fsKeys_iff _ k).mpr hsome)
            rcases homeOf_ringInsert H c.svc A hs hA k with h | h
            · exact absurd h hmv
            · rw [h]; exact hold
        · exfalso
          rw [h5 a hsrc haA] at hk
          have hold := hpl a k hk
          obtain ⟨hm1, hm2⟩ := homeOf_registered H c.svc k hs hreg a hold
          exact hsrc ((isSource_ringInsert H c.svc A a hA).mpr ⟨H a, hm1, hm2⟩)

theorem RemoveNode_quiescent (H : String → Nat) (c : Cluster) (A : String)
    (h : Quiescent H c) (hin : H A ∈ c.svc.hashRing) (hlen : 2 ≤ c.svc.hashRing.length) :
    ∃ c1 resp, RemoveNode H c.svc c.net A = (.ret (some resp) none, c1.svc, c1.net) ∧
      Quiescent H c1 := by
  obtain ⟨hs, hreg, hrel, hok, hpl⟩ := h
  obtain ⟨hp1, _⟩ := probe_of_mem c.svc.hashRing (H A) hs hin
  have hidx : probe c.svc.hashRing (H A) ≠ c.svc.hashRing.length := Nat.ne_of_lt hp1
  obtain ⟨nd, hm, hH⟩ := hreg.handle hin
  have hring := ringDelete_hashRing H c.svc A hs hin
  have hs1 := ringDelete_sorted H c.svc A hs hin
  have hreg1 := ringDelete_registered H c.svc A hs hin hreg
  have hne1 : (ringDelete c.svc (probe c.svc.hashRing (H A)) (H A)).hashRing ≠ [] := by
    intro he
    have hl : (ringDelete c.svc (probe c.svc.hashRing (H A)) (H A)).hashRing.length
        = c.svc.hashRing.length - 1 := by
      rw [hring, List.length_erase_of_mem hin]
    rw [he] at hl
    simp at hl
    omega
  have hdst : ∀ k, homeOf H (ringDelete c.svc (probe c.svc.hashRing (H A)) (H A)) k
      ≠ some nd.address := by
    intro k hk
    have := (homeOf_registered H _ k hs1 hreg1 _ hk).1
    rw [hH] at this
    exact ((mem_ringDelete H c.svc A hs hin _).mp this).2 rfl
  obtain ⟨w1, h1, hrel1, _, hok1, hsrc1, hdst1⟩ := removeNodeFiles_reliable H
    (ringDelete c.svc (probe c.svc.hashRing (H A)) (H A)) nd hdst (c.net.disks nd.address) 0
    (c.net.stamp (.ListFiles nd.address) true) hrel (hok _).1 (hok _).2
    (fun e he => fsRead_of_mem _ (hok nd.address).1 e he) hok
  refine ⟨⟨ringDelete c.svc (probe c.svc.hashRing (H A)) (H A), w1⟩,
    ⟨toInt32 (0 + List.countP (fun e => (homeOf H
      (ringDelete c.svc (probe c.svc.hashRing (H A)) (H A)) e.1).isSome)
      (c.net.disks nd.address))⟩, ?_, hs1, hreg1, hrel1, hok1, ?_⟩
  · unfold RemoveNode
    simp only [hidx, if_false, hm]
    rw [clientListFiles_reliable nd.address c.net hrel]
    simp only
    rw [h1]
  · intro a k hk
    simp only at hk ⊢
    have hsome := (mem_fsKeys_iff _ k).mp hk
    by_cases has : a = nd.address
    · exfalso
      rw [has, hsrc1 k] at hsome
      simp only [Net.stamp_disks] at hsome
      by_cases hkm : k ∈ fsKeys (c.net.disks nd.address)
      · simp [homeOf_isSome H _ k hne1 hs1 hreg1, hkm] at hsome
      · simp [hkm, fsRead_none_of_not_mem _ k hkm] at hsome
    · rw [hdst1 a has k] at hsome
      simp only [Net.stamp_disks] at hsome
      by_cases hcond : homeOf H (ringDelete c.svc (probe c.svc.hashRing (H A)) (H A)) k = some a ∧
          k ∈ fsKeys (c.net.disks nd.address)
      · exact hcond.1
      · simp only [hcond, if_false] at hsome
        have hold := hpl a k ((mem_fsKeys_iff _ k).mpr hsome)
        apply homeOf_ringDelete H c.svc A hs hreg hin k a hold
        intro hHa
        obtain ⟨_, hm2⟩ := homeOf_registered H c.svc k hs hreg a hold
        rw [hHa, hm] at hm2
        apply has
        have := Option.some.inj hm2
        rw [this]

theorem newServiceLoop_ok (H : String → Nat) (w : Net) :
    ∀ (addresses : List String) (n : NetworkVideoContentService),
      (∀ a ∈ addresses, w.dialErr a = false) → Registered H n →
      ∃ n1, newServiceLoop H w addresses n = .ok n1 ∧
        n1.hashRing = n.hashRing ++ addresses.map H ∧ Registered H n1 := by
  intro addresses
  induction addresses with
  | nil => intro n _ hreg; exact ⟨n, rfl, by simp, hreg⟩
  | cons a rest ih =>
    intro n hd hreg
    have hda := hd a (List.mem_cons_self _ _)
    have hreg1 : Registered H
        { hashRing := n.hashRing ++ [H a]
          hashMap := fun p => if p = H a then some ⟨a⟩ else n.hashMap p } := by
      intro p hp
      by_cases hpa : p = H a
      · simp [hpa]
      · simp only [List.mem_append, List.mem_singleton, hpa, or_false] at hp
        simpa [hpa] using hreg p hp
    obtain ⟨n1, h1, h2, h3⟩ := ih _ (fun b hb => hd b (List.mem_cons_of_mem _ hb)) hreg1
    refine ⟨n1, ?_, ?_, h3⟩
    · rw [newServiceLoop]
      simp only [hda, Bool.false_eq_true, if_false]
      exact h1
    · rw [h2]; simp

theorem NewCluster_quiescent (H : String → Nat) (w0 : Net) (adminAddr : String)
    (addresses : List String) (hrel : w0.reliable) (hempty : ∀ a, w0.disks a = [])
    (hlisten : w0.listenErr adminAddr = false)
    (hdial : ∀ a ∈ addresses, w0.dialErr a = false) (hnodup : (addresses.map H).Nodup) :
    ∃ c0, NewCluster H w0 adminAddr addresses = some c0 ∧ Quiescent H c0 ∧ c0.net = w0 := by
  obtain ⟨n1, h1, h2, h3⟩ := newServiceLoop_ok H w0 addresses
    { hashRing := [], hashMap := fun _ => none } hdial (by intro p hp; simp at hp)
  simp only [List.nil_append] at h2
  have hperm : (slicesSort n1.hashRing).Perm n1.hashRing := List.perm_insertionSort _ _
  refine ⟨⟨{ n1 with hashRing := slicesSort n1.hashRing }, w0⟩, ?_,
    ⟨?_, ?_, hrel, ?_, ?_⟩, rfl⟩
  · simp [NewCluster, NewNetworkVideoContentService, hlisten, h1]
  · have hle : (slicesSort n1.hashRing).Sorted (· ≤ ·) := List.sorted_insertionSort _ _
    have hnd : (slicesSort n1.hashRing).Nodup := hperm.nodup_iff.mpr (by rw [h2]; exact hnodup)
    exact List.Sorted.lt_of_le hle hnd
  · intro p hp
    exact h3 p (hperm.mem_iff.mp hp)
  · intro a
    rw [hempty a]
    decide
  · intro a k hk
    simp only at hk
    rw [hempty a] at hk
    simp [fsKeys] at hk

theorem OpTrace.log_ok {α : Type} {route : String → String → Prop} {w : Net}
    {r : Outcome α × NetworkVideoContentService × Net} (h : OpTrace route w r) (resp : α)
    (hr : r.1 = .ret (some resp) none) (hlog : ∀ ev ∈ w.log, ev.ok = true) :
    ∀ ev ∈ r.2.2.log, ev.ok = true := by
  rcases h.2 with ⟨_, ext, h2, h3⟩ | ⟨⟨e, he⟩, _⟩
  · intro ev hev
    rw [h2] at hev
    rcases List.mem_append.mp hev with h | h
    · exact hlog ev h
    · exact h3.all_ok ev h
  · rw [hr] at he
    cases he

theorem Write_log_ok (H : String → Nat) (c : Cluster) (v f : String) (d : Bytes)
    (hrel : c.net.reliable) (hlog : ∀ ev ∈ c.net.log, ev.ok = true) :
    ∀ ev ∈ (Write H c.svc c.net v f d).2.log, ev.ok = true := by
  unfold Write
  simp only
  cases FindSuccessor H c.svc (v ++ "/" ++ f) with
  | none => exact hlog
  | some node =>
    simp only [clientWriteFile, hrel c.net.log.length, Bool.false_eq_true, if_false,
      Server.WriteFile, Net.stamp_log, Net.setDisk_log]
    intro ev hev
    rcases List.mem_append.mp hev with h | h
    · exact hlog ev h
    · simp at h
      rw [h]

theorem run_quiescent (H : String → Nat) :
    ∀ (ops : List Op) (c : Cluster), Quiescent H c → (∀ ev ∈ c.net.log, ev.ok = true) →
      admissibleRun H c ops = true →
      ∃ c1, run H c ops = some c1 ∧ Quiescent H c1 ∧ ∀ ev ∈ c1.net.log, ev.ok = true := by
  intro ops
  induction ops with
  | nil => intro c h hlog _; exact ⟨c, rfl, h, hlog⟩
  | cons op rest ih =>
    intro c h hlog hadm
    rw [admissibleRun, Bool.and_eq_true] at hadm
    obtain ⟨hop, hrest⟩ := hadm
    have hstep : ∃ c1, step H c op = some c1 ∧ Quiescent H c1 ∧
        ∀ ev ∈ c1.net.log, ev.ok = true := by
      cases op with
      | AddNode a =>
        obtain ⟨c1, resp, heq, hq⟩ := AddNode_quiescent H c a h (by simpa [admissibleOp] using hop)
        have hl := (AddNode_trace H c.svc c.net a).log_ok resp (by rw [heq]) hlog
        rw [heq] at hl
        exact ⟨c1, by simp [step, heq], hq, hl⟩
      | RemoveNode a =>
        have hcond : H a ∈ c.svc.hashRing ∧ 2 ≤ c.svc.hashRing.length := by
          simpa [admissibleOp] using hop
        obtain ⟨c1, resp, heq, hq⟩ := RemoveNode_quiescent H c a h hcond.1 hcond.2
        have hl := (RemoveNode_trace H c.svc c.net a).log_ok resp (by rw [heq]) hlog
        rw [heq] at hl
        exact ⟨c1, by simp [step, heq], hq, hl⟩
      | Write v f d =>
        have hseg : pathSegment v ∧ pathSegment f := by
          simpa [admissibleOp] using hop
        exact ⟨_, rfl, Write_quiescent H c v f d h hseg, Write_log_ok H c v f d h.2.2.1 hlog⟩
    obtain ⟨c1, hc1, hq1, hl1⟩ := hstep
    rw [hc1] at hrest
    obtain ⟨c2, hc2, hq2, hl2⟩ := ih c1 hq1 hl1 hrest
    exact ⟨c2, by rw [run, hc1]; exact hc2, hq2, hl2⟩

/-- C2 (counterexample): the router is constructed over the empty node
127.0.0.1:9002; cats/a is written, the node is removed (as the last node it
keeps the chunk), then 127.0.0.1:9001 and again 127.0.0.1:9002 are added. No RPC
failed; the chunk is stored on 127.0.0.1:9002, which is in the ring, while
FindSuccessor returns 127.0.0.1:9001 for its key, whose ListFiles lacks it. -/
theorem placement_broken_by_readded_node :
    ∃ c, (NewCluster pinnedHash quietNet "admin" ["127.0.0.1:9002"]).bind
        (fun c0 => run pinnedHash c0 residueRun) = some c ∧
      (∀ ev ∈ c.net.log, ev.ok = true) ∧
      c.svc.hashRing = [8757126733552209387, 18074268052325974960] ∧
      ("cats", "a") ∈ fsKeys (c.net.disks "127.0.0.1:9002") ∧
      FindSuccessor pinnedHash c.svc "cats/a" = some ⟨"127.0.0.1:9001"⟩ ∧
      "cats/a" ∉ Server.ListFiles (c.net.disks "127.0.0.1:9001") ∧
      "cats/a" ∈ Server.ListFiles (c.net.disks "127.0.0.1:9002") ∧
      ¬ Placed pinnedHash c := by
  refine ⟨_, rfl, by decide, by decide, by decide, by decide, by decide, by decide, ?_⟩
  intro hp
  have := (hp "127.0.0.1:9002" ("cats", "a") (by decide)).1
  revert this
  decide

/-- AddNode scans every ring node except the one it adds: a router built over
the empty node 127.0.0.1:9001 adds 127.0.0.1:9002, which already holds cats/a. No
RPC fails, and the chunk stays on 127.0.0.1:9002 although FindSuccessor returns
127.0.0.1:9001 for its key. Hence the placement invariant needs every node to be
empty when it is added, not only the nodes the router is constructed over. -/
theorem AddNode_keeps_chunks_of_added_node :
    ∃ c, (NewCluster pinnedHash preloadedNet "admin" ["127.0.0.1:9001"]).bind
        (fun c0 => if admissibleRun pinnedHash c0 [.AddNode "127.0.0.1:9002"] then
          run pinnedHash c0 [.AddNode "127.0.0.1:9002"] else none) = some c ∧
      preloadedNet.disks "127.0.0.1:9001" = [] ∧
      (∀ ev ∈ c.net.log, ev.ok = true) ∧
      c.svc.hashRing = [8757126733552209387, 18074268052325974960] ∧
      ("cats", "a") ∈ fsKeys (c.net.disks "127.0.0.1:9002") ∧
      FindSuccessor pinnedHash c.svc "cats/a" = some ⟨"127.0.0.1:9001"⟩ ∧
      "cats/a" ∉ Server.ListFiles (c.net.disks "127.0.0.1:9001") ∧
      "cats/a" ∈ Server.ListFiles (c.net.disks "127.0.0.1:9002") := by
  refine ⟨_, rfl, by decide, by decide, by decide, by decide, by decide, by decide, by decide⟩

/-- C2 (amended): when the router is constructed no storage node holds a chunk,
neither a node the router is constructed over nor any other address, so every
node that a later AddNode names is empty as well (hypothesis hempty ranges over
all addresses). From a router constructed then, without failure, over nodes with
pairwise distinct positions, after every finite sequence of AddNode, RemoveNode
and Write operations in which no RPC and no client creation fails, every
RemoveNode names an address whose position is in the ring and leaves at least
one node, and every Write names its chunk by single path segments: no operation
panics, no issued RPC fails, and every chunk stored on any node is listed by
ListFiles on the node FindSuccessor returns for its key and on no other node. -/
theorem placement_invariant (H : String → Nat) (w0 : Net) (adminAddr : String)
    (addresses : List String) (ops : List Op)
    (hrel : w0.reliable) (hempty : ∀ a, w0.disks a = []) (hlog : w0.log = [])
    (hlisten : w0.listenErr adminAddr = false)
    (hdial : ∀ a ∈ addresses, w0.dialErr a = false) (hnodup : (addresses.map H).Nodup) :
    ∃ c0, NewCluster H w0 adminAddr addresses = some c0 ∧
      (admissibleRun H c0 ops = true →
        ∃ c, run H c0 ops = some c ∧ (∀ ev ∈ c.net.log, ev.ok = true) ∧ Placed H c) := by
  obtain ⟨c0, h0, hq0, hnet⟩ :=
    NewCluster_quiescent H w0 adminAddr addresses hrel hempty hlisten hdial hnodup
  refine ⟨c0, h0, fun hadm => ?_⟩
  obtain ⟨c, hc, hq, hl⟩ := run_quiescent H ops c0 hq0
    (by rw [hnet, hlog]; intro ev hev; simp at hev) hadm
  exact ⟨c, hc, hl, hq.placed⟩

/-- The router over 127.0.0.1:9001 after two writes, a scale-out and a scale-in. -/
theorem placement_invariant_witness :
    quietNet.reliable ∧ (∀ a, quietNet.disks a = []) ∧ quietNet.log = [] ∧
    quietNet.listenErr "admin" = false ∧
    (∀ a ∈ ["127.0.0.1:9001"], quietNet.dialErr a = false) ∧
    (["127.0.0.1:9001"].map pinnedHash).Nodup ∧
    ∃ c0, NewCluster pinnedHash quietNet "admin" ["127.0.0.1:9001"] = some c0 ∧
      admissibleRun pinnedHash c0 scaleRun = true ∧
      ∃ c, run pinnedHash c0 scaleRun = some c ∧ (∀ ev ∈ c.net.log, ev.ok = true) ∧
        Placed pinnedHash c := by
  refine ⟨fun _ => rfl, fun _ => rfl, rfl, rfl, fun _ _ => rfl, by decide, ?_⟩
  obtain ⟨c0, h0, himp⟩ := placement_invariant pinnedHash quietNet "admin" ["127.0.0.1:9001"]
    scaleRun (fun _ => rfl) (fun _ => rfl) rfl rfl (fun _ _ => rfl) (by decide)
  have hadm : admissibleRun pinnedHash c0 scaleRun = true := by
    have hc : some c0 = some (⟨_, quietNet⟩ : Cluster) := h0.symm.trans rfl
    cases hc
    decide
  exact ⟨c0, h0, hadm, himp hadm⟩

/-- C8 (counterexample): the router is constructed over 127.0.0.1:9003; cats/c
is written with bytes [1]; the node is removed and 127.0.0.1:9001 added; cats/c
is written with bytes [2]; 127.0.0.1:9003 is added back. Both ring nodes now
hold cats/c. AddNode(127.0.0.1:9002) then migrates both without any failed RPC,
and the chunk that 127.0.0.1:9001 stored with bytes [2] is afterwards neither
on its source nor, with these bytes, on the destination. -/
theorem AddNode_overwrites_second_copy :
    ∃ c, (NewCluster pinnedHash quietNet "admin" ["127.0.0.1:9003"]).bind
        (fun c0 => run pinnedHash c0 twoCopiesRun) = some c ∧
      c.svc.hashRing = [8757126733552209387, 9099810533193874500] ∧
      Registered pinnedHash c.svc ∧
      fsRead (c.net.disks "127.0.0.1:9001") ("cats", "c") = some [2] ∧
      fsRead (c.net.disks "127.0.0.1:9003") ("cats", "c") = some [1] ∧
      (AddNode pinnedHash c.svc c.net "127.0.0.1:9002").1 = .ret (some ⟨2⟩) none ∧
      (∀ ev ∈ (AddNode pinnedHash c.svc c.net "127.0.0.1:9002").2.2.log, ev.ok = true) ∧
      fsRead ((AddNode pinnedHash c.svc c.net "127.0.0.1:9002").2.2.disks "127.0.0.1:9001")
        ("cats", "c") = none ∧
      fsRead ((AddNode pinnedHash c.svc c.net "127.0.0.1:9002").2.2.disks "127.0.0.1:9002")
        ("cats", "c") = some [1] := by
  refine ⟨_, rfl, by decide, by decide, by decide, by decide, by decide, by decide,
    by decide, by decide⟩

/-! ### The fuel of the binary search is never exhausted -/

theorem searchLoop_fuel (f : Nat → Bool) :
    ∀ fuel i j, j - i ≤ fuel → searchLoop f (fuel + 1) i j = searchLoop f fuel i j := by
  intro fuel
  induction fuel with
  | zero =>
    intro i j h
    have : ¬ i < j := by omega
    simp [searchLoop, this]
  | succ fuel ih =>
    intro i j h
    rw [searchLoop, searchLoop]
    by_cases hlt : i < j
    · simp only [hlt, if_true]
      cases f ((i + j) / 2) with
      | false =>
        simp only [Bool.not_false, if_true]
        exact ih _ _ (by omega)
      | true =>
        simp only [Bool.not_true, Bool.false_eq_true, if_false]
        exact ih _ _ (by omega)
    · simp only [hlt, if_false]

theorem sortSearch_fuel (f : Nat → Bool) (n extra : Nat) :
    searchLoop f (n + extra) 0 n = sortSearch n f := by
  induction extra with
  | zero => rfl
  | succ e ih =>
    rw [← ih]
    exact searchLoop_fuel f (n + e) 0 n (by omega)

/-! ### Ring well-formedness -/

/-- C11 (evaluation at the failing inputs): the router constructed over the
address list with 127.0.0.1:9001 twice has the position list [h, h], which is
not strictly ascending; RemoveNode(127.0.0.1:9001) then returns count 0 without
error and leaves the position h in the ring with no map entry. AddNode, the
sibling path, keeps one position when the same address is added twice. And on
the router over 127.0.0.1:9001 and 127.0.0.1:9002, RemoveNode of the absent
127.0.0.1:9003 leaves the map entry of 127.0.0.1:9002 without its position. -/
theorem constructor_keeps_duplicate_position :
    (∃ c, NewCluster pinnedHash quietNet "admin" ["127.0.0.1:9001", "127.0.0.1:9001"]
        = some c ∧
      c.svc.hashRing = [8757126733552209387, 8757126733552209387] ∧
      ¬ c.svc.hashRing.Sorted (· < ·) ∧ ¬ WellFormedRing c.svc ∧
      (RemoveNode pinnedHash c.svc c.net "127.0.0.1:9001").1 = .ret (some ⟨0⟩) none ∧
      (RemoveNode pinnedHash c.svc c.net "127.0.0.1:9001").2.1.hashRing
        = [8757126733552209387] ∧
      (RemoveNode pinnedHash c.svc c.net "127.0.0.1:9001").2.1.hashMap 8757126733552209387
        = none ∧
      ¬ WellFormedRing (RemoveNode pinnedHash c.svc c.net "127.0.0.1:9001").2.1) ∧
    (∃ c, (NewCluster pinnedHash quietNet "admin" []).bind
        (fun c0 => run pinnedHash c0 [.AddNode "127.0.0.1:9001", .AddNode "127.0.0.1:9001"])
        = some c ∧
      c.svc.hashRing = [8757126733552209387]) ∧
    (∃ c, NewCluster pinnedHash quietNet "admin" ["127.0.0.1:9001", "127.0.0.1:9002"]
        = some c ∧
      (RemoveNode pinnedHash c.svc c.net "127.0.0.1:9003").2.1.hashRing
        = [8757126733552209387] ∧
      (RemoveNode pinnedHash c.svc c.net "127.0.0.1:9003").2.1.hashMap 18074268052325974960
        = some ⟨"127.0.0.1:9002"⟩ ∧
      ¬ WellFormedRing (RemoveNode pinnedHash c.svc c.net "127.0.0.1:9003").2.1) := by
  refine ⟨⟨_, rfl, by decide, by decide, ?_, by decide, by decide, by decide, ?_⟩,
    ⟨_, rfl, by decide⟩, ⟨_, rfl, by decide, by decide, ?_⟩⟩
  · intro h
    exact absurd h.1 (by decide)
  · intro h
    have := (h.2 8757126733552209387).mpr (by decide)
    revert this
    decide
  · intro h
    have := (h.2 18074268052325974960).mp (by decide)
    revert this
    decide

theorem AddNode_ring (H : String → Nat) (n : NetworkVideoContentService) (w : Net)
    (A : String) (hs : n.hashRing.Sorted (· < ·)) :
    (AddNode H n w A).2.1 = n ∨
      (H A ∉ n.hashRing ∧ (AddNode H n w A).2.1 = ringInsert H n A) := by
  by_cases hA : H A ∈ n.hashRing
  · left
    rw [AddNode_present H n w A hs hA]
  · unfold AddNode
    simp only [probe_of_not_mem n.hashRing (H A) hA, if_false]
    split
    · exact Or.inl rfl
    · right
      refine ⟨hA, ?_⟩
      cases addNodeRing H (ringInsert H n A) A (H A) (ringInsert H n A).hashRing 0 w <;> rfl

/-- AddNode keeps the ring well formed, whatever the address and whatever
fails: it tests for the position before inserting it. -/
theorem AddNode_wellFormed (H : String → Nat) (n : NetworkVideoContentService) (w : Net)
    (A : String) (h : WellFormedRing n) : WellFormedRing (AddNode H n w A).2.1 := by
  rcases AddNode_ring H n w A h.1 with he | ⟨hA, he⟩
  · rw [he]; exact h
  · rw [he]
    refine ⟨ringInsert_sorted H n A h.1 hA, ?_⟩
    intro p
    rw [ringInsert_mem]
    by_cases hp : p = H A
    · simp [ringInsert, hp]
    · simp only [ringInsert, hp, if_false, false_or]
      exact h.2 p

/-- RemoveNode keeps the ring well formed when the position of the address is
in the ring, and when the probe falls off the end. -/
theorem RemoveNode_wellFormed (H : String → Nat) (n : NetworkVideoContentService) (w : Net)
    (A : String) (h : WellFormedRing n)
    (hA : H A ∈ n.hashRing ∨ probe n.hashRing (H A) = n.hashRing.length) :
    WellFormedRing (RemoveNode H n w A).2.1 := by
  by_cases hin : H A ∈ n.hashRing
  · have hidx : probe n.hashRing (H A) ≠ n.hashRing.length :=
      Nat.ne_of_lt (probe_of_mem n.hashRing (H A) h.1 hin).1
    rw [RemoveNode_ring H n w A hidx]
    refine ⟨ringDelete_sorted H n A h.1 hin, ?_⟩
    intro p
    rw [mem_ringDelete H n A h.1 hin]
    by_cases hp : p = H A
    · simp [ringDelete, hp]
    · simp only [ringDelete, hp, if_false, ne_eq, not_false_eq_true, and_true]
      exact h.2 p
  · rcases hA with hA | hA
    · exact absurd hA hin
    · unfold RemoveNode
      simp only [hA, if_true]
      exact h

theorem newServiceLoop_keys (H : String → Nat) (w : Net) :
    ∀ (addresses : List String) (n n1 : NetworkVideoContentService),
      newServiceLoop H w addresses n = .ok n1 →
      (∀ p, (n.hashMap p).isSome = true ↔ p ∈ n.hashRing) →
      n1.hashRing = n.hashRing ++ addresses.map H ∧
        ∀ p, (n1.hashMap p).isSome = true ↔ p ∈ n1.hashRing := by
  intro addresses
  induction addresses with
  | nil =>
    intro n n1 h hk
    simp only [newServiceLoop] at h
    cases h
    exact ⟨by simp, hk⟩
  | cons a rest ih =>
    intro n n1 h hk
    rw [newServiceLoop] at h
    by_cases hd : w.dialErr a = true
    · simp [hd] at h
    · simp only [hd, Bool.false_eq_true, if_false] at h
      obtain ⟨h1, h2⟩ := ih _ n1 h (by
        intro p
        by_cases hp : p = H a
        · simp [hp]
        · simp only [hp, if_false, List.mem_append, List.mem_singleton, or_false]
          exact hk p)
      exact ⟨by rw [h1]; simp, h2⟩

/-- The constructor leaves a well-formed ring when the initial addresses have
pairwise distinct positions. -/
theorem NewNetworkVideoContentService_wellFormed (H : String → Nat) (w : Net)
    (adminAddr : String) (addresses : List String) (n : NetworkVideoContentService)
    (hnodup : (addresses.map H).Nodup)
    (h : NewNetworkVideoContentService H w adminAddr addresses = .ok n) :
    WellFormedRing n := by
  unfold NewNetworkVideoContentService at h
  split at h
  · cases h
  · cases hl : newServiceLoop H w addresses { hashRing := [], hashMap := fun _ => none } with
    | error e => rw [hl] at h; cases h
    | ok n1 =>
      rw [hl] at h
      simp only at h
      cases h
      obtain ⟨h1, h2⟩ := newServiceLoop_keys H w addresses _ n1 hl (by intro p; simp)
      simp only [List.nil_append] at h1
      have hperm : (slicesSort n1.hashRing).Perm n1.hashRing := List.perm_insertionSort _ _
      refine ⟨?_, ?_⟩
      · have hle : (slicesSort n1.hashRing).Sorted (· ≤ ·) := List.sorted_insertionSort _ _
        have hnd : (slicesSort n1.hashRing).Nodup :=
          hperm.nodup_iff.mpr (by rw [h1]; exact hnodup)
        exact List.Sorted.lt_of_le hle hnd
      · intro p
        simp only
        rw [hperm.mem_iff]
        exact h2 p

end TritonTube
